import Mathlib

/-!
# CasADi `CodeGenerator` (casadi/core/function/code_generator.cpp)

A shallow embedding of the code generator session: the session object is a record of its
member variables, every member function is a pure function on that record, and a thrown
exception is an `Except` value returned next to the state the session is left in.

Conventions of the embedding

* `std::stringstream` members are the strings they hold; `endl` is a newline.
* `std::set` members are duplicate-free lists (only `insert` is used on them).
* `PointerMap` (`std::map<const void*, int>`) is an association list in order of first
  insertion; only `operator[]`, `find` and `size` are used on it.
* `std::multimap<size_t, size_t>` is the list of its pairs in insertion order, so that
  `equal_range` lists the pairs of one key in the order they were inserted.
* Addresses and `size_t` values are natural numbers. Indices returned as `int` are natural
  numbers as well: a pool would need more than `2^31` entries to leave the `int` range.
  Where a value is converted to `int` (`toInt`, `double_to_int`), `int` is 32 bits wide.
* A `double` is its IEEE-754 bit pattern; its value is computed exactly, as a quotient of two
  natural numbers.
* Code of the repository that `code_generator.cpp` uses but does not define (the hash mixing
  functions, the runtime source strings, the platform sizes) is collected in `Env`.
-/

namespace casadi

/-- Exceptions of the generator: `casadi_error(msg)` and a failed `casadi_assert(cond)`. -/
inductive Err
  | error (msg : String)
  | assertion (cond : String)
  deriving DecidableEq, Repr

/-- A `double`, identified by its 64-bit pattern. -/
structure Double where
  bits : Nat
  deriving DecidableEq, Repr

/-- The tags of `CodeGenerator::Auxiliary` that `addAuxiliary` switches on. -/
inductive Auxiliary
  | AUX_COPY_N
  | AUX_SWAP
  | AUX_SCAL
  | AUX_AXPY
  | AUX_DOT
  | AUX_ASUM
  | AUX_IAMAX
  | AUX_NRM2
  | AUX_FILL_N
  | AUX_MM_SPARSE
  | AUX_SQ
  | AUX_SIGN
  | AUX_PROJECT
  | AUX_TRANS
  | AUX_TO_MEX
  | AUX_FROM_MEX
  deriving DecidableEq, Repr

/-- Modelled from the spec: the `Sparsity` class is not part of the sources at hand.
A pattern is a shared object with an identity (`get`, the address of its node), a compressed
integer form (`compress`) and a number of structural nonzeros (`nnz`). -/
structure Sparsity where
  get : Nat
  compress : List Int
  nnz : Nat
  deriving DecidableEq, Repr

/-- Modelled from the spec: the class `GenericType` of option values is not part of the
sources at hand. The recognized options are strings or booleans. -/
inductive GenericType
  | bool (b : Bool)
  | string (s : String)
  deriving DecidableEq, Repr

/-- What `code_generator.cpp` takes from the rest of the repository: `hash_combine` for one
`size_t` word and for an integer vector, the platform sizes used by `hash`, the view of one
stored `double` as `size_t` words, the runtime sources of `runtime_embedded.hpp`, the
default value of the parameter `relative_path` of `addInclude`, the `int` a platform
yields when a `double` outside the range of `int` is converted (undefined by the language),
and the conversions `toString()` and `operator bool` of `GenericType`. -/
structure Env where
  hash_combine : Nat → Nat → Nat
  hash_combine_vec : Nat → List Int → Nat
  sizeof_double : Nat
  sizeof_size_t : Nat
  words : Double → List Nat
  codegen_str_copy_n : String
  codegen_str_swap : String
  codegen_str_scal : String
  codegen_str_axpy : String
  codegen_str_dot : String
  codegen_str_asum : String
  codegen_str_iamax : String
  codegen_str_nrm2 : String
  codegen_str_fill_n : String
  codegen_str_mm_sparse : String
  codegen_str_project : String
  codegen_str_trans : String
  relative_path_default : Bool
  double_to_int_ub : Double → Int
  generic_toString : GenericType → String
  generic_toBool : GenericType → Bool

/-- The member variables of `CodeGenerator`. The members `prefix` and `include` carry a
trailing underscore here. -/
structure CodeGenerator where
  prefix_ : String
  include_ : String
  mex : Bool
  cpp_guards : Bool
  main : Bool
  real_t : String
  includes_ : String
  auxiliaries_ : String
  functions : String
  finalization_ : String
  added_includes_ : List String
  added_auxiliaries_ : List Auxiliary
  added_sparsities_ : List (Nat × Nat)
  added_dependencies_ : List (Nat × Nat)
  added_double_constants_ : List (Nat × Nat)
  added_integer_constants_ : List (Nat × Nat)
  double_constants_ : List (List Double)
  integer_constants_ : List (List Int)
  deriving DecidableEq, Repr

/-- Outcome of a member function: the value returned or the exception thrown, and the
session as the call leaves it. -/
structure Ret (α : Type) where
  val : Except Err α
  st : CodeGenerator

/-- The stream manipulator `endl`. -/
def endl : String := "\n"

/-- Source: `CodeGenerator::numToString(int n)`. -/
def numToString (n : Int) : String := toString n

/-- Conversion of a `size_t` to `int` at a call of `numToString`: the value modulo `2^32`,
read as a signed 32-bit number. -/
def toInt (n : Nat) : Int :=
  if n % 2 ^ 32 < 2 ^ 31 then ((n % 2 ^ 32 : Nat) : Int) else ((n % 2 ^ 32 : Nat) : Int) - 2 ^ 32

/-! ## PointerMap and multimap -/

/-- The call `m.find(h)`: the value stored under `h`, if any. -/
def PointerMap.find (m : List (Nat × Nat)) (h : Nat) : Option Nat :=
  m.lookup h

/-- The map after `m[h]` has been evaluated: a missing key is inserted with value `0`. -/
def PointerMap.index (m : List (Nat × Nat)) (h : Nat) : List (Nat × Nat) :=
  if (PointerMap.find m h).isSome then m else m ++ [(h, 0)]

/-- Assignment through the reference `int& ind = m[h]`. -/
def PointerMap.assign (m : List (Nat × Nat)) (h : Nat) (v : Nat) : List (Nat × Nat) :=
  m.map (fun p => if p.1 = h then (p.1, v) else p)

/-- The call `m.equal_range(h)`: the pairs with key `h`, in insertion order. -/
def equal_range (m : List (Nat × Nat)) (h : Nat) : List (Nat × Nat) :=
  m.filter (fun p => p.1 == h)

/-- Modelled from the spec: `CodeGenerator::equal` is declared in `code_generator.hpp`, which
is not part of the sources at hand. Exact element-wise equality of two vectors (bitwise for
floating values, no tolerance). -/
def equal {α : Type} [DecidableEq α] (v1 v2 : List α) : Bool :=
  decide (v1 = v2)

/-- The search loop of `getConstant`: the first candidate `i` of the bucket whose pool entry
`pool[i->second]` equals `v`. -/
def locate {α : Type} [DecidableEq α] (v : List α) (pool : List (List α)) :
    List (Nat × Nat) → Option Nat
  | [] => none
  | i :: rest =>
    if (match pool[i.2]? with
        | some w => equal v w
        | none => false) then some i.2
    else locate v pool rest

/-! ## Constant pools -/

/-- Source: `CodeGenerator::hash(const std::vector<int>&)`. -/
def hashInt (E : Env) (v : List Int) : Nat :=
  E.hash_combine_vec 0 v

/-- Source: `CodeGenerator::hash(const std::vector<double>&)`: the storage of `v` is read as
`v.size()*(sizeof(double)/sizeof(size_t))` words, each mixed into the seed. -/
def hashDouble (E : Env) (v : List Double) : Except Err Nat :=
  if v.isEmpty then .ok 0
  else if E.sizeof_double % E.sizeof_size_t ≠ 0 then
    .error (.assertion "sizeof(double) % sizeof(size_t)==0")
  else
    let int_len := v.length * (E.sizeof_double / E.sizeof_size_t)
    .ok (((v.flatMap E.words).take int_len).foldl E.hash_combine 0)

/-- Source: `CodeGenerator::getConstant(const std::vector<int>&, bool)`. -/
def getConstantInt (E : Env) (s : CodeGenerator) (v : List Int) (allow_adding : Bool) :
    Ret Nat :=
  let h := hashInt E v
  let eq := equal_range s.added_integer_constants_ h
  match locate v s.integer_constants_ eq with
  | some i => ⟨.ok i, s⟩
  | none =>
    if allow_adding then
      let ind := s.integer_constants_.length
      ⟨.ok ind, { s with
        integer_constants_ := s.integer_constants_ ++ [v]
        added_integer_constants_ := s.added_integer_constants_ ++ [(h, ind)] }⟩
    else
      ⟨.error (.error "Constant not found"), s⟩

/-- Source: `CodeGenerator::getConstant(const std::vector<double>&, bool)`. -/
def getConstantDouble (E : Env) (s : CodeGenerator) (v : List Double) (allow_adding : Bool) :
    Ret Nat :=
  match hashDouble E v with
  | .error e => ⟨.error e, s⟩
  | .ok h =>
    let eq := equal_range s.added_double_constants_ h
    match locate v s.double_constants_ eq with
    | some i => ⟨.ok i, s⟩
    | none =>
      if allow_adding then
        let ind := s.double_constants_.length
        ⟨.ok ind, { s with
          double_constants_ := s.double_constants_ ++ [v]
          added_double_constants_ := s.added_double_constants_ ++ [(h, ind)] }⟩
      else
        ⟨.error (.error "Constant not found"), s⟩

/-! ## Includes and auxiliaries -/

/-- Source: `CodeGenerator::addInclude(new_include, relative_path)`. -/
def addInclude (s : CodeGenerator) (new_include : String) (relative_path : Bool) :
    CodeGenerator :=
  if new_include ∈ s.added_includes_ then s
  else
    let s := { s with added_includes_ := s.added_includes_ ++ [new_include] }
    if relative_path then
      { s with includes_ := s.includes_ ++ "#include \"" ++ new_include ++ "\"" ++ endl }
    else
      { s with includes_ := s.includes_ ++ "#include <" ++ new_include ++ ">" ++ endl }

/-- The statement `auxiliaries_ << text`. -/
def auxiliaries_write (s : CodeGenerator) (text : String) : CodeGenerator :=
  { s with auxiliaries_ := s.auxiliaries_ ++ text }

/-- Source: `CodeGenerator::auxSq()`. -/
def auxSq (s : CodeGenerator) : CodeGenerator :=
  let s := auxiliaries_write s ("d casadi_sq(d x) \x7b return x*x;\x7d" ++ endl)
  auxiliaries_write s ("#define sq(x) casadi_sq(x)" ++ endl ++ endl)

/-- Source: `CodeGenerator::auxSign()`. -/
def auxSign (s : CodeGenerator) : CodeGenerator :=
  let s := auxiliaries_write s ("d casadi_sign(d x) \x7b return x<0 ? -1 : x>0 ? 1 : x;\x7d" ++ endl)
  auxiliaries_write s ("#define sign(x) casadi_sign(x)" ++ endl ++ endl)

/-- The text written by the case `AUX_TO_MEX` of `addAuxiliary`. -/
def str_to_mex : String :=
  "mxArray* casadi_to_mex(const int* sp, d** x) \x7b\n"
  ++ "  int nrow = *sp++, ncol = *sp++, nnz = sp[ncol];\n"
  ++ "  mxArray* p = mxCreateSparse(nrow, ncol, nnz, mxREAL);\n"
  ++ "  int i;\n"
  ++ "  mwIndex* j;\n"
  ++ "  for (i=0, j=mxGetJc(p); i<=ncol; ++i) *j++ = *sp++;\n"
  ++ "  for (i=0, j=mxGetIr(p); i<nnz; ++i) *j++ = *sp++;\n"
  ++ "  if (x) *x = (d*)mxGetData(p);\n"
  ++ "  return p;\n"
  ++ "\x7d\n\n"

/-- The text written by the case `AUX_FROM_MEX` of `addAuxiliary` after its call of
`addAuxiliary(AUX_FILL_N)`. -/
def str_from_mex : String :=
  "d* casadi_from_mex(const mxArray *p, d* y, const int* sp, d* w) \x7b\n"
  ++ "  if (!mxIsDouble(p) || mxGetNumberOfDimensions(p)!=2)\n"
  ++ "    mexErrMsgIdAndTxt(\"Casadi:RuntimeError\",\"\\\"casadi_from_mex\\\" failed: Not a two-dimensional matrix of double precision.\");\n"
  ++ "  int nrow = *sp++, ncol = *sp++, nnz = sp[ncol];\n"
  ++ "  const int *colind=sp, *row=sp+ncol+1;\n"
  ++ "  size_t p_nrow = mxGetM(p), p_ncol = mxGetN(p);\n"
  ++ "  const double* p_data = (const double*)mxGetData(p);\n"
  ++ "  bool is_sparse = mxIsSparse(p);\n"
  ++ "  mwIndex *Jc = is_sparse ? mxGetJc(p) : 0;\n"
  ++ "  mwIndex *Ir = is_sparse ? mxGetIr(p) : 0;\n"
  ++ "  if (p_nrow==1 && p_ncol==1) \x7b\n"
  ++ "    double v = is_sparse && Jc[1]==0 ? 0 : *p_data;\n"
  ++ "    casadi_fill_n(y, nnz, v);\n"
  ++ "  \x7d else \x7b\n"
  ++ "    bool tr = false;\n"
  ++ "    if (nrow!=p_nrow || ncol!=p_ncol) \x7b\n"
  ++ "      tr = nrow==p_ncol && ncol==p_nrow && (nrow==1 || ncol==1);\n"
  ++ "      if (!tr) mexErrMsgIdAndTxt(\"Casadi:RuntimeError\",\"\\\"casadi_from_mex\\\" failed: Dimension mismatch.\");\n"
  ++ "    \x7d\n"
  ++ "    int r,c,k;\n"
  ++ "    if (is_sparse) \x7b\n"
  ++ "      if (tr) \x7b\n"
  ++ "        for (c=0; c<ncol; ++c)\n"
  ++ "          for (k=colind[c]; k<colind[c+1]; ++k) w[row[k]+c*nrow]=0;\n"
  ++ "        for (c=0; c<p_ncol; ++c)\n"
  ++ "          for (k=Jc[c]; k<Jc[c+1]; ++k) w[c+Ir[k]*p_ncol] = p_data[k];\n"
  ++ "        for (c=0; c<ncol; ++c)\n"
  ++ "          for (k=colind[c]; k<colind[c+1]; ++k) y[k] = w[row[k]+c*nrow];\n"
  ++ "      \x7d else \x7b\n"
  ++ "        for (c=0; c<ncol; ++c) \x7b\n"
  ++ "          for (k=colind[c]; k<colind[c+1]; ++k) w[row[k]]=0;\n"
  ++ "          for (k=Jc[c]; k<Jc[c+1]; ++k) w[Ir[k]]=p_data[k];\n"
  ++ "          for (k=colind[c]; k<colind[c+1]; ++k) y[k]=w[row[k]];\n"
  ++ "        \x7d\n"
  ++ "      \x7d\n"
  ++ "    \x7d else \x7b\n"
  ++ "      for (c=0; c<ncol; ++c) \x7b\n"
  ++ "        for (k=colind[c]; k<colind[c+1]; ++k) \x7b\n"
  ++ "          y[k] = p_data[row[k]+c*nrow];\n"
  ++ "        \x7d\n"
  ++ "      \x7d\n"
  ++ "    \x7d\n"
  ++ "  \x7d\n"
  ++ "  return y;\n"
  ++ "\x7d\n\n"

/-- Source: `CodeGenerator::addAuxiliary(Auxiliary f)`. -/
def addAuxiliary (E : Env) (s : CodeGenerator) (f : Auxiliary) : CodeGenerator :=
  if f ∈ s.added_auxiliaries_ then s
  else
    let s := { s with added_auxiliaries_ := s.added_auxiliaries_ ++ [f] }
    match f with
    | .AUX_COPY_N => auxiliaries_write s (E.codegen_str_copy_n ++ endl)
    | .AUX_SWAP => auxiliaries_write s (E.codegen_str_swap ++ endl)
    | .AUX_SCAL => auxiliaries_write s (E.codegen_str_scal ++ endl)
    | .AUX_AXPY => auxiliaries_write s (E.codegen_str_axpy ++ endl)
    | .AUX_DOT => auxiliaries_write s (E.codegen_str_dot ++ endl)
    | .AUX_ASUM => auxiliaries_write s (E.codegen_str_asum ++ endl)
    | .AUX_IAMAX => auxiliaries_write s (E.codegen_str_iamax ++ endl)
    | .AUX_NRM2 => auxiliaries_write s (E.codegen_str_nrm2 ++ endl)
    | .AUX_FILL_N => auxiliaries_write s (E.codegen_str_fill_n ++ endl)
    | .AUX_MM_SPARSE => auxiliaries_write s (E.codegen_str_mm_sparse ++ endl)
    | .AUX_SQ => auxSq s
    | .AUX_SIGN => auxSign s
    | .AUX_PROJECT => auxiliaries_write s (E.codegen_str_project ++ endl)
    | .AUX_TRANS => auxiliaries_write s (E.codegen_str_trans ++ endl)
    | .AUX_TO_MEX => auxiliaries_write s str_to_mex
    | .AUX_FROM_MEX =>
      let s := addAuxiliary E s .AUX_FILL_N
      auxiliaries_write s str_from_mex
termination_by (if f = .AUX_FROM_MEX then 1 else 0)
decreasing_by simp

/-! ## Sparsity patterns and dependencies -/

/-- Source: `CodeGenerator::addSparsity(const Sparsity& sp)`. -/
def addSparsity (E : Env) (s : CodeGenerator) (sp : Sparsity) : Ret Nat :=
  let num_patterns_before := s.added_sparsities_.length
  let h := sp.get
  let s := { s with added_sparsities_ := PointerMap.index s.added_sparsities_ h }
  if s.added_sparsities_.length > num_patterns_before then
    let sp_compact := sp.compress
    let r := getConstantInt E s sp_compact true
    match r.val with
    | .error e => ⟨.error e, r.st⟩
    | .ok c =>
      let s := { r.st with added_sparsities_ := PointerMap.assign r.st.added_sparsities_ h c }
      ⟨.ok ((PointerMap.find s.added_sparsities_ h).getD 0), s⟩
  else
    ⟨.ok ((PointerMap.find s.added_sparsities_ h).getD 0), s⟩

/-- Source: `CodeGenerator::getSparsity(const Sparsity& sp) const`. -/
def getSparsity (s : CodeGenerator) (sp : Sparsity) : Except Err Nat :=
  let h := sp.get
  match PointerMap.find s.added_sparsities_ h with
  | none => .error (.assertion "it!=added_sparsities_.end()")
  | some ind => .ok ind

/-- Source: `CodeGenerator::getDependency(const Function& f) const`; `f_get` is `f.get()`. -/
def getDependency (s : CodeGenerator) (f_get : Nat) : Except Err Nat :=
  let h := f_get
  match PointerMap.find s.added_dependencies_ h with
  | none => .error (.assertion "it!=added_dependencies_.end()")
  | some ind => .ok ind

/-! ## Statement emitters -/

/-- Source: `CodeGenerator::copy_n(arg, arg_off, n, res, res_off)`. -/
def copy_n (E : Env) (s : CodeGenerator) (arg : String) (arg_off : Nat) (n : Nat)
    (res : String) (res_off : Nat) : String × CodeGenerator :=
  if n = 1 then
    (res ++ "[" ++ toString res_off ++ "] = " ++ arg ++ "[" ++ toString arg_off ++ "];", s)
  else if arg_off ≠ 0 then
    copy_n E s (arg ++ "+" ++ numToString (toInt arg_off)) 0 n res res_off
  else if res_off ≠ 0 then
    copy_n E s arg arg_off n (res ++ "+" ++ numToString (toInt res_off)) 0
  else
    let s := addAuxiliary E s .AUX_COPY_N
    ("casadi_copy_n(" ++ arg ++ ", " ++ toString n ++ ", " ++ res ++ ");", s)
termination_by (if arg_off = 0 then 0 else 1) + (if res_off = 0 then 0 else 1)
decreasing_by
  all_goals simp_all

/-! ## Sessions as sequences of calls -/

/-- The registration calls a client of the session (in particular a body-emission callback)
can make, dependencies apart; the last two are the writes `functions << text` and
`finalization_ << text` of an emission callback. -/
inductive Call
  | getConstantInt (v : List Int) (allow_adding : Bool)
  | getConstantDouble (v : List Double) (allow_adding : Bool)
  | addSparsity (sp : Sparsity)
  | getSparsity (sp : Sparsity)
  | getDependency (f_get : Nat)
  | addAuxiliary (f : Auxiliary)
  | addInclude (new_include : String) (relative_path : Bool)
  | functions_write (text : String)
  | finalization_write (text : String)
  deriving DecidableEq

/-- The session after one call, and the exception if the call throws. -/
def Call.exec (E : Env) (s : CodeGenerator) : Call → Ret Unit
  | .getConstantInt v allow_adding =>
    let r := casadi.getConstantInt E s v allow_adding
    ⟨r.val.map (fun _ => ()), r.st⟩
  | .getConstantDouble v allow_adding =>
    let r := casadi.getConstantDouble E s v allow_adding
    ⟨r.val.map (fun _ => ()), r.st⟩
  | .addSparsity sp =>
    let r := casadi.addSparsity E s sp
    ⟨r.val.map (fun _ => ()), r.st⟩
  | .getSparsity sp => ⟨(casadi.getSparsity s sp).map (fun _ => ()), s⟩
  | .getDependency f_get => ⟨(casadi.getDependency s f_get).map (fun _ => ()), s⟩
  | .addAuxiliary f => ⟨.ok (), casadi.addAuxiliary E s f⟩
  | .addInclude new_include relative_path =>
    ⟨.ok (), casadi.addInclude s new_include relative_path⟩
  | .functions_write text => ⟨.ok (), { s with functions := s.functions ++ text }⟩
  | .finalization_write text => ⟨.ok (), { s with finalization_ := s.finalization_ ++ text }⟩

/-- What a run of client code does with the session, as a caller can observe it: a call made,
`addDependency(f)` entered, the callback `generateFunction(*this, name)` of `f` invoked, and
`addDependency(f)` returning an index. -/
inductive Event
  | call (c : Call)
  | addDependency (f_get : Nat)
  | generateFunction (f_get : Nat) (name : String)
  | returned (f_get : Nat) (ind : Nat)
  deriving DecidableEq

/-- Outcome of running client code: the value or the exception that leaves it, the session,
and the events in the order they happened. -/
structure Run (α : Type) where
  val : Except Err α
  st : CodeGenerator
  log : List Event

/-- Source: `CodeGenerator::addDependency(const Function& f)`. The function is given by its
identity `f_get` (`f.get()`) and by what its callback `generateFunction(*this, name)` does to
the session. The value returned is read through the reference `ind` into the map. The events
are recorded in the order they happen. -/
def addDependency (s : CodeGenerator) (f_get : Nat)
    (generateFunction : String → CodeGenerator → Run Unit) : Run Nat :=
  let num_f_before := s.added_dependencies_.length
  let h := f_get
  let s := { s with added_dependencies_ := PointerMap.index s.added_dependencies_ h }
  if s.added_dependencies_.length > num_f_before then
    let s := { s with
      added_dependencies_ := PointerMap.assign s.added_dependencies_ h num_f_before }
    let name := "f" ++ toString ((PointerMap.find s.added_dependencies_ h).getD 0)
    let r := generateFunction name s
    match r.val with
    | .error e => ⟨.error e, r.st, [.addDependency h, .generateFunction h name] ++ r.log⟩
    | .ok _ =>
      let ind := (PointerMap.find r.st.added_dependencies_ h).getD 0
      ⟨.ok ind, r.st,
        [.addDependency h, .generateFunction h name] ++ r.log ++ [.returned h ind]⟩
  else
    let ind := (PointerMap.find s.added_dependencies_ h).getD 0
    ⟨.ok ind, s, [.addDependency h, .returned h ind]⟩

/-- Client code driving a session: a sequence of calls, each followed by the rest of the
code. An exception thrown by a call leaves the sequence at once, unless the call stands in an
`attempt` (a `try` block whose handler swallows the exception). A dependency is given by its
identity and by the code of its callback `generateFunction`, which receives the name. -/
inductive Prog
  | done
  | call (c : Call) (rest : Prog)
  | attempt (body : Prog) (rest : Prog)
  | addDependency (f_get : Nat) (generateFunction : String → Prog) (rest : Prog)

/-- Runs client code on a session. -/
def run (E : Env) : Prog → CodeGenerator → Run Unit
  | .done, s => ⟨.ok (), s, []⟩
  | .call c rest, s =>
    let r := c.exec E s
    match r.val with
    | .error e => ⟨.error e, r.st, [.call c]⟩
    | .ok _ =>
      let r2 := run E rest r.st
      ⟨r2.val, r2.st, .call c :: r2.log⟩
  | .attempt body rest, s =>
    let r := run E body s
    let r2 := run E rest r.st
    ⟨r2.val, r2.st, r.log ++ r2.log⟩
  | .addDependency f_get generateFunction rest, s =>
    let r := addDependency s f_get (fun name s1 => run E (generateFunction name) s1)
    match r.val with
    | .error e => ⟨.error e, r.st, r.log⟩
    | .ok _ =>
      let r2 := run E rest r.st
      ⟨r2.val, r2.st, r.log ++ r2.log⟩

/-- The session with the given option values in which every registry, pool and text section
is empty. -/
def CodeGenerator.blank (prefix_ include_ : String) (mex cpp_guards main : Bool)
    (real_t : String) : CodeGenerator :=
  { prefix_ := prefix_, include_ := include_, mex := mex, cpp_guards := cpp_guards,
    main := main, real_t := real_t, includes_ := "", auxiliaries_ := "", functions := "",
    finalization_ := "", added_includes_ := [], added_auxiliaries_ := [],
    added_sparsities_ := [], added_dependencies_ := [], added_double_constants_ := [],
    added_integer_constants_ := [], double_constants_ := [], integer_constants_ := [] }

/-- The session the constructor leaves once the options are read: everything is empty, then
`stdio.h` and `mex.h` are included as `main` and `mex` ask. -/
def CodeGenerator.init (E : Env) (prefix_ include_ : String) (mex cpp_guards main : Bool)
    (real_t : String) : CodeGenerator :=
  let s := CodeGenerator.blank prefix_ include_ mex cpp_guards main real_t
  let s := if s.main then addInclude s "stdio.h" E.relative_path_default else s
  if s.mex then addInclude s "mex.h" E.relative_path_default else s

/-- The sessions a program can be in: those some client code leads to from a freshly
constructed session. -/
def Reachable (E : Env) (s : CodeGenerator) : Prop :=
  ∃ (prefix_ include_ : String) (mex cpp_guards main : Bool) (real_t : String) (p : Prog),
    s = (run E p (CodeGenerator.init E prefix_ include_ mex cpp_guards main real_t)).st

/-! ## Invariants -/

/-- The hash index of a pool is exact: each of its pairs is the hash and the position of a
pool entry, and each pool position is recorded under the hash of its entry. -/
def PoolIndexed {α : Type} (hash : List α → Except Err Nat) (pool : List (List α))
    (idx : List (Nat × Nat)) : Prop :=
  (∀ p ∈ idx, ∃ w, pool[p.2]? = some w ∧ hash w = .ok p.1) ∧
  (∀ i w, pool[i]? = some w → ∃ k, hash w = .ok k ∧ (k, i) ∈ idx)

/-- The integer pool and its hash index agree. -/
def IntPoolInv (E : Env) (s : CodeGenerator) : Prop :=
  PoolIndexed (fun w => .ok (hashInt E w)) s.integer_constants_ s.added_integer_constants_

/-- The floating pool and its hash index agree. -/
def DoublePoolInv (E : Env) (s : CodeGenerator) : Prop :=
  PoolIndexed (hashDouble E) s.double_constants_ s.added_double_constants_

/-- The text that the case of tag `t` in `addAuxiliary` writes itself (for `AUX_FROM_MEX`:
after the fill primitive has been ensured). -/
def auxText (E : Env) : Auxiliary → String
  | .AUX_COPY_N => E.codegen_str_copy_n ++ endl
  | .AUX_SWAP => E.codegen_str_swap ++ endl
  | .AUX_SCAL => E.codegen_str_scal ++ endl
  | .AUX_AXPY => E.codegen_str_axpy ++ endl
  | .AUX_DOT => E.codegen_str_dot ++ endl
  | .AUX_ASUM => E.codegen_str_asum ++ endl
  | .AUX_IAMAX => E.codegen_str_iamax ++ endl
  | .AUX_NRM2 => E.codegen_str_nrm2 ++ endl
  | .AUX_FILL_N => E.codegen_str_fill_n ++ endl
  | .AUX_MM_SPARSE => E.codegen_str_mm_sparse ++ endl
  | .AUX_SQ => ("d casadi_sq(d x) \x7b return x*x;\x7d" ++ endl)
      ++ ("#define sq(x) casadi_sq(x)" ++ endl ++ endl)
  | .AUX_SIGN => ("d casadi_sign(d x) \x7b return x<0 ? -1 : x>0 ? 1 : x;\x7d" ++ endl)
      ++ ("#define sign(x) casadi_sign(x)" ++ endl ++ endl)
  | .AUX_PROJECT => E.codegen_str_project ++ endl
  | .AUX_TRANS => E.codegen_str_trans ++ endl
  | .AUX_TO_MEX => str_to_mex
  | .AUX_FROM_MEX => str_from_mex

/-- The texts of a list of tags, one after the other. -/
def emitted (E : Env) : List Auxiliary → String
  | [] => ""
  | t :: ts => auxText E t ++ emitted E ts

/-- The integer pool is exactly indexed and holds no vector twice. -/
def IntPoolWF (E : Env) (s : CodeGenerator) : Prop :=
  IntPoolInv E s ∧ s.integer_constants_.Nodup

/-- The floating pool is exactly indexed and holds no vector twice. -/
def DoublePoolWF (E : Env) (s : CodeGenerator) : Prop :=
  DoublePoolInv E s ∧ s.double_constants_.Nodup

/-- The session after `k` calls `getConstant(v, true)` on the integer pool. -/
def getConstantInt_repeat (E : Env) (v : List Int) : Nat → CodeGenerator → CodeGenerator
  | 0, s => s
  | k + 1, s => getConstantInt_repeat E v k (getConstantInt E s v true).st

/-- The session after `k` calls `getConstant(v, true)` on the floating pool. -/
def getConstantDouble_repeat (E : Env) (v : List Double) : Nat → CodeGenerator → CodeGenerator
  | 0, s => s
  | k + 1, s => getConstantDouble_repeat E v k (getConstantDouble E s v true).st

/-- A sample environment: the hash of an integer vector is its length, so that vectors of
equal length collide; a `double` is one word; an out-of-range conversion to `int` yields the
smallest `int`, as on x86. -/
def sampleEnv : Env :=
  { hash_combine := fun seed w => seed + w
    hash_combine_vec := fun seed v => seed + v.length
    sizeof_double := 8
    sizeof_size_t := 8
    words := fun d => [d.bits]
    codegen_str_copy_n := "void casadi_copy_n(const d* x, int n, d* y);"
    codegen_str_swap := "void casadi_swap(int n, d* x, int inc_x, d* y, int inc_y);"
    codegen_str_scal := "void casadi_scal(int n, d alpha, d* x, int inc_x);"
    codegen_str_axpy := "void casadi_axpy(int n, d alpha, const d* x, int inc_x, d* y, int inc_y);"
    codegen_str_dot := "d casadi_dot(int n, const d* x, int inc_x, const d* y, int inc_y);"
    codegen_str_asum := "d casadi_asum(int n, const d* x, int inc_x);"
    codegen_str_iamax := "int casadi_iamax(int n, const d* x, int inc_x);"
    codegen_str_nrm2 := "d casadi_nrm2(int n, const d* x, int inc_x);"
    codegen_str_fill_n := "void casadi_fill_n(d* x, int n, d alpha);"
    codegen_str_mm_sparse := "void casadi_mm_sparse(const d* x, const int* sp_x, const d* y, const int* sp_y, d* z, const int* sp_z, d* w);"
    codegen_str_project := "void casadi_project(const d* x, const int* sp_x, d* y, const int* sp_y, d* w);"
    codegen_str_trans := "void casadi_trans(const d* x, const int* sp_x, d* y, const int* sp_y, int* tmp);"
    relative_path_default := false
    double_to_int_ub := fun _ => -2147483648
    generic_toString := fun v =>
      match v with
      | .string s => s
      | .bool b => toString b
    generic_toBool := fun v =>
      match v with
      | .bool b => b
      | .string s => s != "" }

/-- A sample client: two integer vectors of equal length, one floating vector, a pattern,
and a failed lookup that is caught. -/
def sampleProg : Prog :=
  .call (.getConstantInt [1, 2] true)
    (.call (.getConstantInt [3, 4] true)
      (.call (.getConstantDouble [⟨0⟩, ⟨1⟩] true)
        (.call (.addSparsity ⟨7, [2, 2, 0, 1, 2, 0, 1], 2⟩)
          (.attempt (.call (.getConstantInt [5] false) .done) .done))))

/-- The session the sample client leaves. -/
def sampleSession : CodeGenerator :=
  (run sampleEnv sampleProg (CodeGenerator.init sampleEnv "" "" false true false "double")).st

/-- The session `t` is the session `s` grown: both pools and the include and auxiliary texts
of `s` are prefixes of those of `t`, and every key of the sparsity registry, of the auxiliary
set and of the include set of `s` is still present in `t`, a pattern with its index. -/
def Grows (s t : CodeGenerator) : Prop :=
  (∃ x, t.integer_constants_ = s.integer_constants_ ++ x) ∧
  (∃ x, t.double_constants_ = s.double_constants_ ++ x) ∧
  (∃ x, t.includes_ = s.includes_ ++ x) ∧
  (∃ x, t.auxiliaries_ = s.auxiliaries_ ++ x) ∧
  (∀ h i, PointerMap.find s.added_sparsities_ h = some i →
    PointerMap.find t.added_sparsities_ h = some i) ∧
  (∀ f, f ∈ s.added_auxiliaries_ → f ∈ t.added_auxiliaries_) ∧
  (∀ n, n ∈ s.added_includes_ → n ∈ t.added_includes_)

/-- Whether an event is an invocation of the callback `generateFunction` of the function
`g`. -/
def generated (g : Nat) : Event → Bool
  | .generateFunction g1 _ => g1 == g
  | _ => false

/-- How often the callback `generateFunction` of the function `g` was invoked in a history. -/
def invocations (g : Nat) (L : List Event) : Nat :=
  L.countP (generated g)

/-- The dependency registry agrees with the history of the run: the indices are `0, 1, ...`
in order of registration; an index returned by `addDependency` is the one registered; a
callback was invoked under the name `f` followed by the index registered for its function;
and the callback of a function was invoked once if the function is registered and not at all
otherwise. -/
def DepHistory (s : CodeGenerator) (L : List Event) : Prop :=
  s.added_dependencies_.map Prod.snd = List.range s.added_dependencies_.length ∧
  (∀ g i, Event.returned g i ∈ L → PointerMap.find s.added_dependencies_ g = some i) ∧
  (∀ g name, Event.generateFunction g name ∈ L →
    ∃ i, PointerMap.find s.added_dependencies_ g = some i ∧ name = "f" ++ toString i) ∧
  (∀ g, invocations g L = if (PointerMap.find s.added_dependencies_ g).isSome then 1 else 0)

/-- Every invocation of a callback `generateFunction` in the history directly follows the
first `addDependency` of its function. -/
def InvokedOnFirst (L : List Event) : Prop :=
  ∀ k g name, L[k]? = some (Event.generateFunction g name) →
    ∃ j, k = j + 1 ∧ L[j]? = some (Event.addDependency g) ∧
      ∀ j1, j1 < j → L[j1]? ≠ some (Event.addDependency g)

/-- A sample client with dependencies: the function `7` is registered; its callback writes
its body under the name it is given, registers the function `8` and registers `7` again; the
callback of `8` registers `7`; then `8` and `7` are registered once more. -/
def sampleDeps : Prog :=
  .addDependency 7
    (fun name => .call (.functions_write ("void " ++ name ++ "();" ++ endl))
      (.addDependency 8 (fun _ => .addDependency 7 (fun _ => .done) .done)
        (.addDependency 7 (fun _ => .done) .done)))
    (.addDependency 8 (fun _ => .done) (.addDependency 7 (fun _ => .done) .done))

/-- The tags whose texts `addAuxiliary(f)` writes, in the order they are written, when the
auxiliary set is `set`. -/
def newAux (set : List Auxiliary) (f : Auxiliary) : List Auxiliary :=
  if f ∈ set then []
  else if f = .AUX_FROM_MEX ∧ Auxiliary.AUX_FILL_N ∉ set then [.AUX_FILL_N, .AUX_FROM_MEX]
  else [f]

/-- The auxiliary section is the texts of the tags of the auxiliary set, each once, in some
order in which the fill primitive stands before the `from_mex` routine. -/
def AuxOrdered (E : Env) (s : CodeGenerator) : Prop :=
  ∃ order : List Auxiliary, order.Nodup ∧ (∀ t, t ∈ order ↔ t ∈ s.added_auxiliaries_) ∧
    s.auxiliaries_ = emitted E order ∧
    (Auxiliary.AUX_FROM_MEX ∈ order →
      ∃ pre mid post, order = pre ++ .AUX_FILL_N :: mid ++ .AUX_FROM_MEX :: post)

/-! ## Workspace references -/

/-- Source: `CodeGenerator::work(int n)`. -/
def work (n : Int) : String :=
  if n < 0 then "0"
  else if n = 0 then "w"
  else "w+" ++ numToString n

/-- Source: `CodeGenerator::workelement(int n)`. -/
def workelement (n : Int) : Except Err String :=
  if ¬ (n ≥ 0) then .error (.assertion "n>=0")
  else if n = 0 then .ok "*w"
  else .ok ("w[+" ++ numToString n ++ "]")

/-! ## Numeric literals -/

/-- The sign bit of a `double`. -/
def Double.signbit (v : Double) : Bool :=
  (v.bits / 2 ^ 63) % 2 == 1

/-- The biased exponent field of a `double`. -/
def Double.exponent (v : Double) : Nat :=
  (v.bits / 2 ^ 52) % 2 ^ 11

/-- The fraction field of a `double`. -/
def Double.fraction (v : Double) : Nat :=
  v.bits % 2 ^ 52

/-- The test `isnan(v)`. -/
def Double.isnan (v : Double) : Bool :=
  v.exponent == 2047 && v.fraction != 0

/-- The test `isinf(v)`. -/
def Double.isinf (v : Double) : Bool :=
  v.exponent == 2047 && v.fraction == 0

/-- Numerator of the magnitude of a finite `double`: the magnitude is `num / den`. -/
def Double.num (v : Double) : Nat :=
  if v.exponent = 0 then v.fraction
  else if v.exponent ≥ 1075 then (2 ^ 52 + v.fraction) * 2 ^ (v.exponent - 1075)
  else 2 ^ 52 + v.fraction

/-- Denominator of the magnitude of a finite `double`. -/
def Double.den (v : Double) : Nat :=
  if v.exponent = 0 then 2 ^ 1074
  else if v.exponent ≥ 1075 then 1
  else 2 ^ (1075 - v.exponent)

/-- The value of a finite `double` truncated toward zero. -/
def Double.trunc (v : Double) : Int :=
  if v.signbit then -((v.num / v.den : Nat) : Int) else ((v.num / v.den : Nat) : Int)

/-- Whether a finite `double` is integer-valued. -/
def Double.isInteger (v : Double) : Bool :=
  v.num % v.den == 0

/-- An integer reduced to the range of a 32-bit `int`. -/
def wrapInt (x : Int) : Int :=
  (x + 2 ^ 31) % 2 ^ 32 - 2 ^ 31

/-- The conversion `int v_int(v)` of a finite `double`: the truncated value when it is in
the range of `int`, and what the platform yields otherwise. -/
def double_to_int (E : Env) (v : Double) : Int :=
  if -(2 ^ 31) ≤ v.trunc ∧ v.trunc < 2 ^ 31 then v.trunc
  else wrapInt (E.double_to_int_ub v)

/-- The number of decimal digits of a natural number. -/
def decimalLength (n : Nat) : Nat :=
  (toString n).length

/-- The decimal exponent `k` of a positive rational `num / den`:
`10^k ≤ num / den < 10^(k+1)`. -/
def decimalExponent (num den : Nat) : Int :=
  let k0 : Int := (decimalLength num : Int) - (decimalLength den : Int)
  if (if k0 ≥ 0 then 10 ^ k0.toNat * den ≤ num else den ≤ num * 10 ^ (-k0).toNat) then k0
  else k0 - 1

/-- Rounding of `a / b` to the nearest natural number, ties to even. -/
def roundHalfEven (a b : Nat) : Nat :=
  let q := a / b
  let r := a % b
  if 2 * r < b then q
  else if 2 * r > b then q + 1
  else if q % 2 = 0 then q else q + 1

/-- The exponent part of a literal in scientific format: a sign and at least two digits. -/
def exponentPart (k : Int) : String :=
  "e" ++ (if k < 0 then "-" else "+") ++
    (if k.natAbs < 10 then "0" else "") ++ toString k.natAbs

/-- The statement `s << std::scientific << std::setprecision(16) << v` for a finite nonzero
`v`: one digit, a point, sixteen digits and the exponent, the value being rounded to these
seventeen digits (ties to even). -/
def scientific (v : Double) : String :=
  let k := decimalExponent v.num v.den
  let e : Int := 16 - k
  let d := if e ≥ 0 then roundHalfEven (v.num * 10 ^ e.toNat) v.den
    else roundHalfEven v.num (v.den * 10 ^ (-e).toNat)
  let k := if d = 10 ^ 17 then k + 1 else k
  let d := if d = 10 ^ 17 then 10 ^ 16 else d
  let digits := toString d
  (if v.signbit then "-" else "") ++ digits.take 1 ++ "." ++ digits.drop 1 ++ exponentPart k

/-- Source: `CodeGenerator::constant(double v)`. The comparison `v_int==v` holds when `v` is
integer-valued and its value is `v_int`. -/
def constant (E : Env) (v : Double) : String :=
  if v.isnan then "NAN"
  else if v.isinf then
    (if v.signbit then "-" else "") ++ "INFINITY"
  else
    let v_int := double_to_int E v
    if v.isInteger && v.trunc == v_int then
      toString v_int ++ "."
    else
      scientific v

/-! ## The constructor -/

/-- The body of the loop of the constructor: one entry of the option dictionary is read. -/
def CodeGenerator.readOption (E : Env) (s : CodeGenerator) (it : String × GenericType) :
    Except Err CodeGenerator :=
  if it.1 = "prefix" then .ok { s with prefix_ := E.generic_toString it.2 }
  else if it.1 = "include" then .ok { s with include_ := E.generic_toString it.2 }
  else if it.1 = "mex" then .ok { s with mex := E.generic_toBool it.2 }
  else if it.1 = "cppguards" then .ok { s with cpp_guards := E.generic_toBool it.2 }
  else if it.1 = "main" then .ok { s with main := E.generic_toBool it.2 }
  else if it.1 = "real_t" then .ok { s with real_t := E.generic_toString it.2 }
  else .error (.error ("Unrecongnized option: " ++ it.1))

/-- The loop of the constructor over the entries of the option dictionary. -/
def CodeGenerator.readOptions (E : Env) :
    CodeGenerator → List (String × GenericType) → Except Err CodeGenerator
  | s, [] => .ok s
  | s, it :: rest =>
    match CodeGenerator.readOption E s it with
    | .error e => .error e
    | .ok s1 => CodeGenerator.readOptions E s1 rest

/-- Source: `CodeGenerator::CodeGenerator(const Dictionary& opts)`. The dictionary is the
list of its entries in the order of iteration; an exception leaves no session. -/
def CodeGenerator.construct (E : Env) (opts : List (String × GenericType)) :
    Except Err CodeGenerator :=
  let s := CodeGenerator.blank "" "" false true false "double"
  match CodeGenerator.readOptions E s opts with
  | .error e => .error e
  | .ok s =>
    let s := if s.main then addInclude s "stdio.h" E.relative_path_default else s
    .ok (if s.mex then addInclude s "mex.h" E.relative_path_default else s)

/-! ## The document -/

/-- The loop of `printVector`: the elements, each but the first preceded by a comma and a
blank; `i` is the index of the first element of the list. -/
def printElements {α : Type} (f : α → String) : Nat → List α → String
  | _, [] => ""
  | i, x :: xs => (if i ≠ 0 then ", " else "") ++ f x ++ printElements f (i + 1) xs

/-- Source: `CodeGenerator::printVector(std::ostream&, const std::string&, const
vector<int>&)`, as the text written. -/
def printVectorInt (name : String) (v : List Int) : String :=
  "int " ++ name ++ "[] = \x7b" ++ printElements (fun x : Int => toString x) 0 v ++ "\x7d;"
    ++ endl

/-- Source: `CodeGenerator::printVector(std::ostream&, const std::string&, const
vector<double>&)`, as the text written. -/
def printVectorDouble (E : Env) (name : String) (v : List Double) : String :=
  "d " ++ name ++ "[] = \x7b" ++ printElements (constant E) 0 v ++ "\x7d;" ++ endl

/-- The loop of `generate` over the integer constants, from index `i` on. -/
def printIntegerConstants : Nat → List (List Int) → String
  | _, [] => ""
  | i, v :: vs => printVectorInt ("s" ++ toString i) v ++ printIntegerConstants (i + 1) vs

/-- The loop of `generate` over the floating constants, from index `i` on. -/
def printDoubleConstants (E : Env) : Nat → List (List Double) → String
  | _, [] => ""
  | i, v :: vs =>
    printVectorDouble E ("c" ++ toString i) v ++ printDoubleConstants E (i + 1) vs

/-- Source: `CodeGenerator::generate(std::ostream& s) const`, as the text written to the
stream. -/
def generate (E : Env) (g : CodeGenerator) : String :=
  let s := "/* This function was automatically generated by CasADi */" ++ endl
  let s := if g.cpp_guards then
      s ++ "#ifdef __cplusplus" ++ endl ++ "extern \"C\" \x7b" ++ endl ++ "#endif" ++ endl ++ endl
    else s
  let s := s ++ g.includes_
  let s := s ++ endl
  let s := s ++ "#define d double" ++ endl ++ endl
  let s := s ++ g.auxiliaries_
  let s := s ++ printIntegerConstants 0 g.integer_constants_
  let s := s ++ printDoubleConstants E 0 g.double_constants_
  let s := s ++ g.functions
  let s := if g.mex then
      s ++ "void mexFunction(int resc, mxArray *resv[], int argc, const mxArray *argv[]) \x7b"
        ++ endl ++ "  mex_eval(resc, resv, argc, argv);" ++ endl ++ "\x7d" ++ endl ++ endl
    else s
  let s := if g.main then
      s ++ "int main(int argc, char* argv[]) \x7b" ++ endl
        ++ "  return main_eval(argc, argv);" ++ endl ++ "\x7d" ++ endl ++ endl
    else s
  let s := s ++ g.finalization_
  let s := if g.cpp_guards then
      s ++ "#ifdef __cplusplus" ++ endl ++ "\x7d /* extern \"C\" */" ++ endl ++ "#endif" ++ endl
    else s
  s ++ endl

/-! ## Projection -/

/-- Source: `CodeGenerator::sparsity(const Sparsity& sp)`. -/
def sparsity (E : Env) (s : CodeGenerator) (sp : Sparsity) : Ret String :=
  let r := addSparsity E s sp
  ⟨r.val.map (fun i => "s" ++ numToString (i : Nat)), r.st⟩

/-- Modelled from the spec: `Sparsity::operator==` is not part of the sources at hand. Two
patterns are equal when they are identical. -/
def Sparsity.equals (a b : Sparsity) : Bool :=
  decide (a = b)

/-- Source: `CodeGenerator::project(arg, arg_off, sp_arg, res, res_off, sp_res, w)`. The
operands of the output expression are evaluated from left to right. -/
def project (E : Env) (s : CodeGenerator) (arg : String) (arg_off : Nat) (sp_arg : Sparsity)
    (res : String) (res_off : Nat) (sp_res : Sparsity) (w : String) : Ret String :=
  if sp_arg.equals sp_res then
    ⟨.ok (copy_n E s arg arg_off sp_arg.nnz res res_off).1,
      (copy_n E s arg arg_off sp_arg.nnz res res_off).2⟩
  else if arg_off ≠ 0 then
    project E s (arg ++ "+" ++ numToString (toInt arg_off)) 0 sp_arg res res_off sp_res w
  else if res_off ≠ 0 then
    project E s arg arg_off sp_arg (res ++ "+" ++ numToString (toInt res_off)) 0 sp_res w
  else
    let s := addAuxiliary E s .AUX_PROJECT
    let r1 := sparsity E s sp_arg
    match r1.val with
    | .error e => ⟨.error e, r1.st⟩
    | .ok name_arg =>
      let r2 := sparsity E r1.st sp_res
      match r2.val with
      | .error e => ⟨.error e, r2.st⟩
      | .ok name_res =>
        ⟨.ok ("  casadi_project(" ++ arg ++ ", " ++ name_arg ++ ", " ++ res ++ ", "
          ++ name_res ++ w ++ ");"), r2.st⟩
termination_by (if arg_off = 0 then 0 else 1) + (if res_off = 0 then 0 else 1)
decreasing_by
  all_goals simp_all

/-- The direct form of `copy_n` for a count other than one, in the words of the
specification: the effective addresses are computed once, `arg` or `arg+arg_off` and `res` or
`res+res_off` with the offsets in decimal, the copy auxiliary is ensured and the call is
emitted. -/
def copy_n_direct (E : Env) (s : CodeGenerator) (arg : String) (arg_off : Nat) (n : Nat)
    (res : String) (res_off : Nat) : String × CodeGenerator :=
  let A := if arg_off = 0 then arg else arg ++ "+" ++ toString arg_off
  let R := if res_off = 0 then res else res ++ "+" ++ toString res_off
  ("casadi_copy_n(" ++ A ++ ", " ++ toString n ++ ", " ++ R ++ ");",
    addAuxiliary E s .AUX_COPY_N)

/-- The buffer expression the source arrives at when it folds an offset: the offset passes
through `numToString(int)`. -/
def foldOffset (buf : String) (off : Nat) : String :=
  if off = 0 then buf else buf ++ "+" ++ numToString (toInt off)

/-- The option keys the constructor recognizes. -/
def optionKeys : List String :=
  ["prefix", "include", "mex", "cppguards", "main", "real_t"]

/-- The value of a string option: the conversion of the value given for `key`, or the
default. -/
def optionString (E : Env) (opts : List (String × GenericType)) (key dflt : String) : String :=
  match opts.lookup key with
  | some v => E.generic_toString v
  | none => dflt

/-- The value of a boolean option: the conversion of the value given for `key`, or the
default. -/
def optionBool (E : Env) (opts : List (String × GenericType)) (key : String) (dflt : Bool) :
    Bool :=
  match opts.lookup key with
  | some v => E.generic_toBool v
  | none => dflt

/-- The session with the options of a dictionary read into it. -/
def applyOptions (E : Env) (s : CodeGenerator) (opts : List (String × GenericType)) :
    CodeGenerator :=
  { s with
    prefix_ := optionString E opts "prefix" s.prefix_
    include_ := optionString E opts "include" s.include_
    mex := optionBool E opts "mex" s.mex
    cpp_guards := optionBool E opts "cppguards" s.cpp_guards
    main := optionBool E opts "main" s.main
    real_t := optionString E opts "real_t" s.real_t }

/-- The line `addInclude` writes for a header when `relative_path` has its default value. -/
def includeLine (E : Env) (header : String) : String :=
  if E.relative_path_default then "#include \"" ++ header ++ "\"" ++ endl
  else "#include <" ++ header ++ ">" ++ endl

/-! ## Further statement emitters -/

/-- Source: `CodeGenerator::fill_n(res, res_off, n, v)`. -/
def fill_n (E : Env) (s : CodeGenerator) (res : String) (res_off : Nat) (n : Nat)
    (v : String) : String × CodeGenerator :=
  if n = 1 then
    (res ++ "[" ++ toString res_off ++ "] = " ++ v ++ ";", s)
  else if res_off ≠ 0 then
    fill_n E s (res ++ "+" ++ numToString (toInt res_off)) 0 n v
  else
    let s := addAuxiliary E s .AUX_FILL_N
    ("casadi_fill_n(" ++ res ++ ", " ++ toString n ++ ", " ++ v ++ ");", s)
termination_by (if res_off = 0 then 0 else 1)
decreasing_by
  all_goals simp_all

/-- Source: `CodeGenerator::casadi_dot(n, x, inc_x, y, inc_y)`. -/
def casadi_dot (E : Env) (s : CodeGenerator) (n : Int) (x : String) (inc_x : Int)
    (y : String) (inc_y : Int) : String × CodeGenerator :=
  let s := addAuxiliary E s .AUX_DOT
  ("casadi_dot(" ++ toString n ++ ", " ++ x ++ ", " ++ toString inc_x ++ ", " ++ y ++ ", "
    ++ toString inc_y ++ ")", s)

/-- The loop of `printf` over the arguments: each is written after a comma and a blank. -/
def printfArguments : List String → String
  | [] => ""
  | a :: as => ", " ++ a ++ printfArguments as

/-- Source: `CodeGenerator::printf(const std::string& str, const std::vector<std::string>&
arg)`. The header is included with the default value of `relative_path`. -/
def printf (E : Env) (s : CodeGenerator) (str : String) (arg : List String) :
    String × CodeGenerator :=
  let text := if s.mex then "mexPrintf" else "printf"
  let s := if s.mex then addInclude s "mex.h" E.relative_path_default
    else addInclude s "stdio.h" E.relative_path_default
  (text ++ "(\"" ++ str ++ "\"" ++ printfArguments arg ++ ");", s)

/-- Source: `CodeGenerator::printf(str, arg1)`. -/
def printf1 (E : Env) (s : CodeGenerator) (str arg1 : String) : String × CodeGenerator :=
  printf E s str [arg1]

/-- Source: `CodeGenerator::printf(str, arg1, arg2)`. -/
def printf2 (E : Env) (s : CodeGenerator) (str arg1 arg2 : String) : String × CodeGenerator :=
  printf E s str [arg1, arg2]

/-- Source: `CodeGenerator::printf(str, arg1, arg2, arg3)`. -/
def printf3 (E : Env) (s : CodeGenerator) (str arg1 arg2 arg3 : String) :
    String × CodeGenerator :=
  printf E s str [arg1, arg2, arg3]

/-- The entries of the two constant pools of `s` are entries of `t` at the same indices. -/
def KeepsEntries (s t : CodeGenerator) : Prop :=
  (∀ (i : Nat) (v : List Int),
    s.integer_constants_[i]? = some v → t.integer_constants_[i]? = some v) ∧
  (∀ (i : Nat) (v : List Double),
    s.double_constants_[i]? = some v → t.double_constants_[i]? = some v)

/-! ## Declarations of the document -/

/-- The calls `printVector(s, name, v)` of the first loop of `generate`, from index `i` on:
the name and the vector of each, in the order of the calls. -/
def integerDeclarations : Nat → List (List Int) → List (String × List Int)
  | _, [] => []
  | i, v :: vs => ("s" ++ toString i, v) :: integerDeclarations (i + 1) vs

/-- The calls `printVector(s, name, v)` of the second loop of `generate`, from index `i` on:
the name and the vector of each, in the order of the calls. -/
def doubleDeclarations : Nat → List (List Double) → List (String × List Double)
  | _, [] => []
  | i, v :: vs => ("c" ++ toString i, v) :: doubleDeclarations (i + 1) vs

/-- The names of the tables `generate` declares, in the order of the document. -/
def declaredNames (g : CodeGenerator) : List String :=
  (integerDeclarations 0 g.integer_constants_).map (fun d => d.1)
    ++ (doubleDeclarations 0 g.double_constants_).map (fun d => d.1)

/-- The pattern an event registers under the identity `h`: the argument of a call
`addSparsity(sp)` with `sp.get() = h`. -/
def Event.registers (h : Nat) : Event → Option Sparsity
  | .call (.addSparsity sp) => if sp.get = h then some sp else none
  | _ => none

/-- The pattern registered under the identity `h` in a run with the events `L`: the argument
of the first call `addSparsity(sp)` with `sp.get() = h`, which is the call that makes the
entry of the sparsity registry. -/
def registeredAs (L : List Event) (h : Nat) : Option Sparsity :=
  L.findSome? (Event.registers h)

/-- The sparsity registry of `s` agrees with the events `L`: an identity under which no
pattern was registered has no entry, and the entry of an identity under which a pattern was
registered is the index of a pool entry holding the compressed form of that pattern. -/
def SparsityTables (s : CodeGenerator) (L : List Event) : Prop :=
  ∀ h, (registeredAs L h = none → PointerMap.find s.added_sparsities_ h = none) ∧
    (∀ sp, registeredAs L h = some sp →
      ∃ i, PointerMap.find s.added_sparsities_ h = some i ∧
        s.integer_constants_[i]? = some sp.compress)

/-! # Properties of the embedding -/

/-! ## The search loop -/

theorem locate_some {α : Type} [DecidableEq α] (v : List α) (pool : List (List α))
    (b : List (Nat × Nat)) (i : Nat) (h : locate v pool b = some i) :
    pool[i]? = some v ∧ ∃ k, (k, i) ∈ b := by
  induction b with
  | nil => simp [locate] at h
  | cons p rest ih =>
    unfold locate at h
    split at h
    · rename_i hc
      injection h with h
      subst h
      constructor
      · cases hp : pool[p.2]? with
        | none => simp [hp] at hc
        | some w =>
          simp only [hp, equal, decide_eq_true_eq] at hc
          rw [hc]
      · exact ⟨p.1, by simp⟩
    · obtain ⟨h1, k, hk⟩ := ih h
      exact ⟨h1, k, List.mem_cons_of_mem _ hk⟩

theorem locate_none {α : Type} [DecidableEq α] (v : List α) (pool : List (List α))
    (b : List (Nat × Nat)) (h : locate v pool b = none) :
    ∀ p ∈ b, pool[p.2]? ≠ some v := by
  induction b with
  | nil => simp
  | cons p rest ih =>
    unfold locate at h
    split at h
    · simp at h
    · rename_i hc
      intro q hq
      rcases List.mem_cons.mp hq with rfl | hq
      · intro hp
        apply hc
        simp [hp, equal]
      · exact ih h q hq

theorem locate_isSome {α : Type} [DecidableEq α] (v : List α) (pool : List (List α))
    (b : List (Nat × Nat)) (p : Nat × Nat) (hp : p ∈ b) (hv : pool[p.2]? = some v) :
    ∃ i, locate v pool b = some i := by
  cases h : locate v pool b with
  | some i => exact ⟨i, rfl⟩
  | none => exact absurd hv (locate_none v pool b h p hp)

theorem mem_equal_range (m : List (Nat × Nat)) (h : Nat) (p : Nat × Nat) :
    p ∈ equal_range m h ↔ p ∈ m ∧ p.1 = h := by
  simp [equal_range]

/-! ## The pool invariant -/

theorem PoolIndexed.nil {α : Type} (hash : List α → Except Err Nat) :
    PoolIndexed hash [] [] := by
  constructor <;> simp

theorem PoolIndexed.push {α : Type} (hash : List α → Except Err Nat) (pool : List (List α))
    (idx : List (Nat × Nat)) (v : List α) (k : Nat) (hk : hash v = .ok k)
    (h : PoolIndexed hash pool idx) :
    PoolIndexed hash (pool ++ [v]) (idx ++ [(k, pool.length)]) := by
  obtain ⟨h1, h2⟩ := h
  constructor
  · intro p hp
    rcases List.mem_append.mp hp with hp | hp
    · obtain ⟨w, hw, hh⟩ := h1 p hp
      refine ⟨w, ?_, hh⟩
      have hlt : p.2 < pool.length := by
        by_contra hge
        rw [List.getElem?_eq_none (by omega)] at hw
        cases hw
      rw [List.getElem?_append_left hlt]
      exact hw
    · simp only [List.mem_singleton] at hp
      subst hp
      exact ⟨v, by simp, hk⟩
  · intro i w hw
    by_cases hlt : i < pool.length
    · rw [List.getElem?_append_left hlt] at hw
      obtain ⟨k1, hk1, hm⟩ := h2 i w hw
      exact ⟨k1, hk1, List.mem_append_left _ hm⟩
    · have hi : i = pool.length := by
        by_contra hne
        rw [List.getElem?_eq_none (by simp; omega)] at hw
        cases hw
      subst hi
      simp at hw
      subst hw
      exact ⟨k, hk, by simp⟩

/-- In an exactly indexed pool the search loop finds `v` whenever `v` is in the pool. -/
theorem PoolIndexed.locate_of_mem {α : Type} [DecidableEq α] (hash : List α → Except Err Nat)
    (pool : List (List α)) (idx : List (Nat × Nat)) (v : List α) (k : Nat)
    (hk : hash v = .ok k) (h : PoolIndexed hash pool idx) (hv : v ∈ pool) :
    ∃ i, locate v pool (equal_range idx k) = some i := by
  obtain ⟨i, hi⟩ := List.mem_iff_getElem?.mp hv
  obtain ⟨k1, hk1, hm⟩ := h.2 i v hi
  rw [hk] at hk1
  injection hk1 with hk1
  subst hk1
  exact locate_isSome v pool _ (k, i) ((mem_equal_range idx k (k, i)).mpr ⟨hm, rfl⟩) hi

/-- A failed search in an exactly indexed pool means that `v` is not in the pool. -/
theorem PoolIndexed.not_mem_of_locate {α : Type} [DecidableEq α]
    (hash : List α → Except Err Nat) (pool : List (List α)) (idx : List (Nat × Nat))
    (v : List α) (k : Nat) (hk : hash v = .ok k) (h : PoolIndexed hash pool idx)
    (hl : locate v pool (equal_range idx k) = none) : v ∉ pool := by
  intro hv
  obtain ⟨i, hi⟩ := h.locate_of_mem hash pool idx v k hk hv
  rw [hl] at hi
  cases hi

/-! ## `addAuxiliary` -/

theorem addAuxiliary_of_mem (E : Env) (s : CodeGenerator) (f : Auxiliary)
    (h : f ∈ s.added_auxiliaries_) : addAuxiliary E s f = s := by
  unfold addAuxiliary
  simp [h]

theorem addAuxiliary_simple (E : Env) (s : CodeGenerator) (f : Auxiliary)
    (h : f ∉ s.added_auxiliaries_) (hf : f ≠ .AUX_FROM_MEX) :
    addAuxiliary E s f = { s with
      added_auxiliaries_ := s.added_auxiliaries_ ++ [f]
      auxiliaries_ := s.auxiliaries_ ++ auxText E f } := by
  unfold addAuxiliary
  cases f <;> simp [h, auxiliaries_write, auxText, auxSq, auxSign, String.append_assoc] at hf ⊢

theorem addAuxiliary_from_mex (E : Env) (s : CodeGenerator)
    (h : Auxiliary.AUX_FROM_MEX ∉ s.added_auxiliaries_) :
    addAuxiliary E s .AUX_FROM_MEX = auxiliaries_write
      (addAuxiliary E { s with added_auxiliaries_ := s.added_auxiliaries_ ++ [.AUX_FROM_MEX] }
        .AUX_FILL_N) str_from_mex := by
  rw [addAuxiliary]
  simp [h]

/-- The session after `addAuxiliary(f)`: only the auxiliary set and the auxiliary text
change, by the tags newly inserted and by their texts in the order they are written. -/
theorem addAuxiliary_eq (E : Env) (s : CodeGenerator) (f : Auxiliary) :
    ∃ tags order : List Auxiliary, addAuxiliary E s f = { s with
        added_auxiliaries_ := s.added_auxiliaries_ ++ tags
        auxiliaries_ := s.auxiliaries_ ++ emitted E order } ∧
      tags.Perm order ∧ order.Nodup ∧ (∀ t ∈ order, t ∉ s.added_auxiliaries_) ∧
      (f ∈ s.added_auxiliaries_ ∨ f ∈ order) ∧
      (∀ t ∈ order, t = f ∨ (f = .AUX_FROM_MEX ∧ t = .AUX_FILL_N)) ∧
      (f = .AUX_FROM_MEX → f ∈ order → .AUX_FILL_N ∉ s.added_auxiliaries_ →
        order = [.AUX_FILL_N, .AUX_FROM_MEX]) := by
  by_cases h : f ∈ s.added_auxiliaries_
  · refine ⟨[], [], ?_, List.Perm.refl _, List.nodup_nil, by simp, Or.inl h, by simp, by simp⟩
    rw [addAuxiliary_of_mem E s f h]
    simp [emitted]
  · by_cases hf : f = .AUX_FROM_MEX
    · subst hf
      by_cases hn : Auxiliary.AUX_FILL_N ∈ s.added_auxiliaries_
      · refine ⟨[.AUX_FROM_MEX], [.AUX_FROM_MEX], ?_, List.Perm.refl _, by simp, by simpa using h,
          Or.inr (by simp), by simp, by intro _ _ hc; exact absurd hn hc⟩
        rw [addAuxiliary_from_mex E s h, addAuxiliary_of_mem _ _ _ (by simp [hn])]
        simp [auxiliaries_write, emitted, auxText]
      · refine ⟨[.AUX_FROM_MEX, .AUX_FILL_N], [.AUX_FILL_N, .AUX_FROM_MEX], ?_,
          List.Perm.swap _ _ _, by simp, ?_, Or.inr (by simp), ?_, by simp⟩
        · rw [addAuxiliary_from_mex E s h, addAuxiliary_simple _ _ _ (by simp [hn]) (by simp)]
          simp [auxiliaries_write, emitted, auxText, String.append_assoc]
        · intro t ht
          simp at ht
          rcases ht with rfl | rfl
          · exact hn
          · exact h
        · intro t ht
          simp at ht
          rcases ht with rfl | rfl
          · exact Or.inr ⟨rfl, rfl⟩
          · exact Or.inl rfl
    · refine ⟨[f], [f], ?_, List.Perm.refl _, by simp, by simpa using h, Or.inr (by simp),
        by simp, by intro hc; exact absurd hc hf⟩
      rw [addAuxiliary_simple E s f h hf]
      simp [emitted]

/-! ## `getConstant` -/

/-- A vector absent from the pool is not found by the search loop, whatever the index. -/
theorem locate_eq_none_of_not_mem {α : Type} [DecidableEq α] (v : List α)
    (pool : List (List α)) (b : List (Nat × Nat)) (hv : v ∉ pool) : locate v pool b = none := by
  cases h : locate v pool b with
  | none => rfl
  | some i =>
    exact absurd (List.mem_iff_getElem?.mpr ⟨i, (locate_some v pool b i h).1⟩) hv

theorem getConstantInt_found (E : Env) (s : CodeGenerator) (v : List Int) (a : Bool) (i : Nat)
    (h : locate v s.integer_constants_ (equal_range s.added_integer_constants_ (hashInt E v))
      = some i) :
    getConstantInt E s v a = ⟨.ok i, s⟩ := by
  simp [getConstantInt, h]

theorem getConstantInt_add (E : Env) (s : CodeGenerator) (v : List Int)
    (h : locate v s.integer_constants_ (equal_range s.added_integer_constants_ (hashInt E v))
      = none) :
    getConstantInt E s v true = ⟨.ok s.integer_constants_.length, { s with
      integer_constants_ := s.integer_constants_ ++ [v]
      added_integer_constants_ :=
        s.added_integer_constants_ ++ [(hashInt E v, s.integer_constants_.length)] }⟩ := by
  simp [getConstantInt, h]

theorem getConstantInt_missing (E : Env) (s : CodeGenerator) (v : List Int)
    (h : locate v s.integer_constants_ (equal_range s.added_integer_constants_ (hashInt E v))
      = none) :
    getConstantInt E s v false = ⟨.error (.error "Constant not found"), s⟩ := by
  simp [getConstantInt, h]

theorem getConstantDouble_found (E : Env) (s : CodeGenerator) (v : List Double) (a : Bool)
    (k i : Nat) (hk : hashDouble E v = .ok k)
    (h : locate v s.double_constants_ (equal_range s.added_double_constants_ k) = some i) :
    getConstantDouble E s v a = ⟨.ok i, s⟩ := by
  simp [getConstantDouble, hk, h]

theorem getConstantDouble_add (E : Env) (s : CodeGenerator) (v : List Double) (k : Nat)
    (hk : hashDouble E v = .ok k)
    (h : locate v s.double_constants_ (equal_range s.added_double_constants_ k) = none) :
    getConstantDouble E s v true = ⟨.ok s.double_constants_.length, { s with
      double_constants_ := s.double_constants_ ++ [v]
      added_double_constants_ :=
        s.added_double_constants_ ++ [(k, s.double_constants_.length)] }⟩ := by
  simp [getConstantDouble, hk, h]

theorem getConstantDouble_missing (E : Env) (s : CodeGenerator) (v : List Double) (k : Nat)
    (hk : hashDouble E v = .ok k)
    (h : locate v s.double_constants_ (equal_range s.added_double_constants_ k) = none) :
    getConstantDouble E s v false = ⟨.error (.error "Constant not found"), s⟩ := by
  simp [getConstantDouble, hk, h]

theorem getConstantDouble_throw (E : Env) (s : CodeGenerator) (v : List Double) (a : Bool)
    (e : Err) (hk : hashDouble E v = .error e) :
    getConstantDouble E s v a = ⟨.error e, s⟩ := by
  simp [getConstantDouble, hk]

theorem getConstantInt_inv (E : Env) (s : CodeGenerator) (v : List Int) (a : Bool)
    (h : IntPoolInv E s) : IntPoolInv E (getConstantInt E s v a).st := by
  cases hl : locate v s.integer_constants_
      (equal_range s.added_integer_constants_ (hashInt E v)) with
  | some i => rw [getConstantInt_found E s v a i hl]; exact h
  | none =>
    cases a with
    | false => rw [getConstantInt_missing E s v hl]; exact h
    | true =>
      rw [getConstantInt_add E s v hl]
      exact PoolIndexed.push _ _ _ v _ rfl h

/-! ## PointerMap -/

theorem PointerMap.index_of_some (m : List (Nat × Nat)) (h i : Nat)
    (hf : PointerMap.find m h = some i) : PointerMap.index m h = m := by
  simp [PointerMap.index, hf]

theorem PointerMap.index_of_none (m : List (Nat × Nat)) (h : Nat)
    (hf : PointerMap.find m h = none) : PointerMap.index m h = m ++ [(h, 0)] := by
  simp [PointerMap.index, hf]

theorem PointerMap.find_append (m : List (Nat × Nat)) (h k v : Nat) :
    PointerMap.find (m ++ [(k, v)]) h =
      match PointerMap.find m h with
      | some i => some i
      | none => if h = k then some v else none := by
  induction m with
  | nil =>
    simp only [PointerMap.find, List.nil_append, List.lookup]
    by_cases hk : h = k
    · subst hk; simp
    · have : (h == k) = false := by simpa using hk
      simp [this, hk]
  | cons p rest ih =>
    obtain ⟨a, b⟩ := p
    simp only [PointerMap.find, List.cons_append, List.lookup] at ih ⊢
    cases hab : h == a with
    | true => simp
    | false => simpa using ih

theorem PointerMap.find_none_iff (m : List (Nat × Nat)) (h : Nat) :
    PointerMap.find m h = none ↔ ∀ p ∈ m, p.1 ≠ h := by
  induction m with
  | nil => simp [PointerMap.find]
  | cons p rest ih =>
    obtain ⟨a, b⟩ := p
    simp only [PointerMap.find, List.lookup] at ih ⊢
    cases hab : h == a with
    | true =>
      have : h = a := by simpa using hab
      simp [this]
    | false =>
      have : h ≠ a := by simpa using hab
      simp only [ih, List.mem_cons, forall_eq_or_imp]
      constructor
      · intro hh; exact ⟨fun hc => this hc.symm, hh⟩
      · intro hh; exact hh.2

theorem PointerMap.assign_of_none (m : List (Nat × Nat)) (h v : Nat)
    (hf : PointerMap.find m h = none) : PointerMap.assign m h v = m := by
  rw [PointerMap.find_none_iff] at hf
  unfold PointerMap.assign
  conv_rhs => rw [← List.map_id m]
  apply List.map_congr_left
  intro p hp
  simp [hf p hp]

/-- Inserting a new key through `m[h]` and assigning through the reference. -/
theorem PointerMap.assign_index_of_none (m : List (Nat × Nat)) (h v : Nat)
    (hf : PointerMap.find m h = none) :
    PointerMap.assign (PointerMap.index m h) h v = m ++ [(h, v)] := by
  rw [PointerMap.index_of_none m h hf]
  have := PointerMap.assign_of_none m h v hf
  unfold PointerMap.assign at this ⊢
  simp [this]

theorem PointerMap.find_append_self (m : List (Nat × Nat)) (h v : Nat)
    (hf : PointerMap.find m h = none) : PointerMap.find (m ++ [(h, v)]) h = some v := by
  rw [PointerMap.find_append, hf]
  simp

theorem PointerMap.find_append_of_some (m : List (Nat × Nat)) (h k v i : Nat)
    (hf : PointerMap.find m h = some i) : PointerMap.find (m ++ [(k, v)]) h = some i := by
  rw [PointerMap.find_append, hf]

/-! ## `addDependency` -/

theorem addDependency_old (s : CodeGenerator) (g i : Nat)
    (cb : String → CodeGenerator → Run Unit)
    (hf : PointerMap.find s.added_dependencies_ g = some i) :
    addDependency s g cb = ⟨.ok i, s, [.addDependency g, .returned g i]⟩ := by
  simp [addDependency, PointerMap.index_of_some _ _ _ hf, hf]

theorem addDependency_new (s : CodeGenerator) (g : Nat)
    (cb : String → CodeGenerator → Run Unit)
    (hf : PointerMap.find s.added_dependencies_ g = none) :
    addDependency s g cb =
      let n := s.added_dependencies_.length
      let name := "f" ++ toString n
      let r := cb name { s with added_dependencies_ := s.added_dependencies_ ++ [(g, n)] }
      match r.val with
      | .error e => ⟨.error e, r.st, [.addDependency g, .generateFunction g name] ++ r.log⟩
      | .ok _ => ⟨.ok ((PointerMap.find r.st.added_dependencies_ g).getD 0), r.st,
          [.addDependency g, .generateFunction g name] ++ r.log ++
            [.returned g ((PointerMap.find r.st.added_dependencies_ g).getD 0)]⟩ := by
  have h1 : (PointerMap.index s.added_dependencies_ g).length > s.added_dependencies_.length := by
    rw [PointerMap.index_of_none _ _ hf]; simp
  simp only [addDependency, h1, if_true, PointerMap.assign_index_of_none _ _ _ hf,
    PointerMap.find_append_self _ _ _ hf, Option.getD_some]

/-! ## Invariants along a run -/

/-- A property of sessions that every call keeps, and that does not depend on the dependency
registry, holds along every run. -/
theorem run_preserves (E : Env) (P : CodeGenerator → Prop)
    (hcall : ∀ c s, P s → P (Call.exec E s c).st)
    (hdep : ∀ s m, P s → P { s with added_dependencies_ := m }) :
    ∀ p s, P s → P (run E p s).st := by
  intro p
  induction p with
  | done => intro s h; simpa [run] using h
  | call c rest ih =>
    intro s h
    have hc := hcall c s h
    simp only [run]
    cases hv : (Call.exec E s c).val with
    | error e => simpa [hv] using hc
    | ok u => simpa [hv] using ih _ hc
  | attempt body rest ihb ihr =>
    intro s h
    simp only [run]
    exact ihr _ (ihb _ h)
  | addDependency g gf rest ihg ihr =>
    intro s h
    simp only [run]
    have key : P (addDependency s g (fun name s1 => run E (gf name) s1)).st := by
      cases hf : PointerMap.find s.added_dependencies_ g with
      | some i => rw [addDependency_old s g i _ hf]; exact h
      | none =>
        rw [addDependency_new s g _ hf]
        simp only
        have := ihg ("f" ++ toString s.added_dependencies_.length) _
          (hdep s (s.added_dependencies_ ++ [(g, s.added_dependencies_.length)]) h)
        split <;> exact this
    cases hv : (addDependency s g (fun name s1 => run E (gf name) s1)).val with
    | error e => simpa [hv] using key
    | ok u => simpa [hv] using ihr _ key

/-! ## Frames of the registration calls -/

theorem addAuxiliary_frame (E : Env) (s : CodeGenerator) (f : Auxiliary) :
    ∃ X Y, addAuxiliary E s f = { s with added_auxiliaries_ := X, auxiliaries_ := Y } := by
  obtain ⟨tags, order, h, _⟩ := addAuxiliary_eq E s f
  exact ⟨_, _, h⟩

theorem addInclude_frame (s : CodeGenerator) (n : String) (r : Bool) :
    ∃ X Y, addInclude s n r = { s with added_includes_ := X, includes_ := Y } := by
  unfold addInclude
  by_cases h : n ∈ s.added_includes_
  · exact ⟨s.added_includes_, s.includes_, by simp [h]⟩
  · cases r
    · exact ⟨s.added_includes_ ++ [n], s.includes_ ++ "#include <" ++ n ++ ">" ++ endl,
        by simp [h]⟩
    · exact ⟨s.added_includes_ ++ [n], s.includes_ ++ "#include \"" ++ n ++ "\"" ++ endl,
        by simp [h]⟩

/-- With adding allowed `getConstant` returns an index; the pool is unchanged or extended by
`v` at that index. -/
theorem getConstantInt_true (E : Env) (s : CodeGenerator) (v : List Int) :
    (∃ i, getConstantInt E s v true = ⟨.ok i, s⟩ ∧ s.integer_constants_[i]? = some v) ∨
    (locate v s.integer_constants_ (equal_range s.added_integer_constants_ (hashInt E v))
        = none ∧
      getConstantInt E s v true = ⟨.ok s.integer_constants_.length, { s with
        integer_constants_ := s.integer_constants_ ++ [v]
        added_integer_constants_ :=
          s.added_integer_constants_ ++ [(hashInt E v, s.integer_constants_.length)] }⟩) := by
  cases hl : locate v s.integer_constants_
      (equal_range s.added_integer_constants_ (hashInt E v)) with
  | some i =>
    exact Or.inl ⟨i, getConstantInt_found E s v true i hl, (locate_some _ _ _ _ hl).1⟩
  | none => exact Or.inr ⟨rfl, getConstantInt_add E s v hl⟩

theorem getConstantInt_frame (E : Env) (s : CodeGenerator) (v : List Int) (a : Bool) :
    ∃ X Y, (getConstantInt E s v a).st =
      { s with integer_constants_ := X, added_integer_constants_ := Y } := by
  cases hl : locate v s.integer_constants_
      (equal_range s.added_integer_constants_ (hashInt E v)) with
  | some i => exact ⟨s.integer_constants_, s.added_integer_constants_,
      by rw [getConstantInt_found E s v a i hl]⟩
  | none =>
    cases a with
    | false => exact ⟨s.integer_constants_, s.added_integer_constants_,
        by rw [getConstantInt_missing E s v hl]⟩
    | true => exact ⟨_, _, by rw [getConstantInt_add E s v hl]⟩

theorem getConstantDouble_frame (E : Env) (s : CodeGenerator) (v : List Double) (a : Bool) :
    ∃ X Y, (getConstantDouble E s v a).st =
      { s with double_constants_ := X, added_double_constants_ := Y } := by
  cases hk : hashDouble E v with
  | error e => exact ⟨s.double_constants_, s.added_double_constants_,
      by rw [getConstantDouble_throw E s v a e hk]⟩
  | ok k =>
    cases hl : locate v s.double_constants_ (equal_range s.added_double_constants_ k) with
    | some i => exact ⟨s.double_constants_, s.added_double_constants_,
        by rw [getConstantDouble_found E s v a k i hk hl]⟩
    | none =>
      cases a with
      | false => exact ⟨s.double_constants_, s.added_double_constants_,
          by rw [getConstantDouble_missing E s v k hk hl]⟩
      | true => exact ⟨_, _, by rw [getConstantDouble_add E s v k hk hl]⟩

/-- The sparsity registry is not read by `getConstant`. -/
theorem getConstantInt_sparsities (E : Env) (s : CodeGenerator) (m : List (Nat × Nat))
    (v : List Int) (a : Bool) :
    getConstantInt E { s with added_sparsities_ := m } v a =
      ⟨(getConstantInt E s v a).val,
        { (getConstantInt E s v a).st with added_sparsities_ := m }⟩ := by
  unfold getConstantInt
  simp only
  split
  · rfl
  · cases a <;> rfl

theorem addSparsity_old (E : Env) (s : CodeGenerator) (sp : Sparsity) (i : Nat)
    (hf : PointerMap.find s.added_sparsities_ sp.get = some i) :
    addSparsity E s sp = ⟨.ok i, s⟩ := by
  simp [addSparsity, PointerMap.index_of_some _ _ _ hf, hf]

/-- A first registration interns the compressed pattern and records the index found. -/
theorem addSparsity_new (E : Env) (s : CodeGenerator) (sp : Sparsity)
    (hf : PointerMap.find s.added_sparsities_ sp.get = none) :
    ∃ c, (getConstantInt E s sp.compress true).val = .ok c ∧
      addSparsity E s sp = ⟨.ok c, { (getConstantInt E s sp.compress true).st with
        added_sparsities_ := s.added_sparsities_ ++ [(sp.get, c)] }⟩ := by
  have h1 : (PointerMap.index s.added_sparsities_ sp.get).length > s.added_sparsities_.length := by
    rw [PointerMap.index_of_none _ _ hf]; simp
  have hval : ∃ c, (getConstantInt E s sp.compress true).val = .ok c := by
    rcases getConstantInt_true E s sp.compress with ⟨i, h, _⟩ | ⟨_, h⟩
    · exact ⟨i, by rw [h]⟩
    · exact ⟨_, by rw [h]⟩
  obtain ⟨c, hc⟩ := hval
  refine ⟨c, hc, ?_⟩
  simp only [addSparsity, h1, if_true, getConstantInt_sparsities, hc,
    PointerMap.assign_index_of_none _ _ _ hf, PointerMap.find_append_self _ _ _ hf,
    Option.getD_some]

/-! ## The pools along a run -/

theorem intPoolWF_congr (E : Env) (s t : CodeGenerator)
    (h1 : t.integer_constants_ = s.integer_constants_)
    (h2 : t.added_integer_constants_ = s.added_integer_constants_) (h : IntPoolWF E s) :
    IntPoolWF E t := by
  unfold IntPoolWF IntPoolInv at *
  rw [h1, h2]
  exact h

theorem doublePoolWF_congr (E : Env) (s t : CodeGenerator)
    (h1 : t.double_constants_ = s.double_constants_)
    (h2 : t.added_double_constants_ = s.added_double_constants_) (h : DoublePoolWF E s) :
    DoublePoolWF E t := by
  unfold DoublePoolWF DoublePoolInv at *
  rw [h1, h2]
  exact h

theorem getConstantInt_wf (E : Env) (s : CodeGenerator) (v : List Int) (a : Bool)
    (h : IntPoolWF E s) : IntPoolWF E (getConstantInt E s v a).st := by
  refine ⟨getConstantInt_inv E s v a h.1, ?_⟩
  cases hl : locate v s.integer_constants_
      (equal_range s.added_integer_constants_ (hashInt E v)) with
  | some i => rw [getConstantInt_found E s v a i hl]; exact h.2
  | none =>
    cases a with
    | false => rw [getConstantInt_missing E s v hl]; exact h.2
    | true =>
      rw [getConstantInt_add E s v hl]
      have hv : v ∉ s.integer_constants_ :=
        PoolIndexed.not_mem_of_locate _ _ _ v _ rfl h.1 hl
      exact List.nodup_append.mpr ⟨h.2, List.nodup_singleton v, by
        intro x hx hx1
        rw [List.mem_singleton] at hx1
        subst hx1
        exact hv hx⟩

theorem getConstantDouble_wf (E : Env) (s : CodeGenerator) (v : List Double) (a : Bool)
    (h : DoublePoolWF E s) : DoublePoolWF E (getConstantDouble E s v a).st := by
  cases hk : hashDouble E v with
  | error e => rw [getConstantDouble_throw E s v a e hk]; exact h
  | ok k =>
    cases hl : locate v s.double_constants_ (equal_range s.added_double_constants_ k) with
    | some i => rw [getConstantDouble_found E s v a k i hk hl]; exact h
    | none =>
      cases a with
      | false => rw [getConstantDouble_missing E s v k hk hl]; exact h
      | true =>
        rw [getConstantDouble_add E s v k hk hl]
        have hv : v ∉ s.double_constants_ :=
          PoolIndexed.not_mem_of_locate _ _ _ v k hk h.1 hl
        exact ⟨PoolIndexed.push _ _ _ v k hk h.1,
          List.nodup_append.mpr ⟨h.2, List.nodup_singleton v, by
            intro x hx hx1
            rw [List.mem_singleton] at hx1
            subst hx1
            exact hv hx⟩⟩

theorem addSparsity_intPool (E : Env) (s : CodeGenerator) (sp : Sparsity) :
    ((addSparsity E s sp).st.integer_constants_ = s.integer_constants_ ∧
      (addSparsity E s sp).st.added_integer_constants_ = s.added_integer_constants_) ∨
    ((addSparsity E s sp).st.integer_constants_ =
        (getConstantInt E s sp.compress true).st.integer_constants_ ∧
      (addSparsity E s sp).st.added_integer_constants_ =
        (getConstantInt E s sp.compress true).st.added_integer_constants_) := by
  cases hf : PointerMap.find s.added_sparsities_ sp.get with
  | some i => rw [addSparsity_old E s sp i hf]; exact Or.inl ⟨rfl, rfl⟩
  | none =>
    obtain ⟨c, _, h⟩ := addSparsity_new E s sp hf
    rw [h]
    exact Or.inr ⟨rfl, rfl⟩

/-- Apart from the sparsity registry, `addSparsity` changes what its `getConstant` changes. -/
theorem addSparsity_frame (E : Env) (s : CodeGenerator) (sp : Sparsity) :
    ∃ X Y Z, (addSparsity E s sp).st = { s with
      integer_constants_ := X, added_integer_constants_ := Y, added_sparsities_ := Z } := by
  cases hf : PointerMap.find s.added_sparsities_ sp.get with
  | some i =>
    rw [addSparsity_old E s sp i hf]
    exact ⟨s.integer_constants_, s.added_integer_constants_, s.added_sparsities_, rfl⟩
  | none =>
    obtain ⟨c, _, h⟩ := addSparsity_new E s sp hf
    obtain ⟨X, Y, hxy⟩ := getConstantInt_frame E s sp.compress true
    rw [h, hxy]
    exact ⟨X, Y, _, rfl⟩

theorem Call.exec_intPoolWF (E : Env) (c : Call) (s : CodeGenerator) (h : IntPoolWF E s) :
    IntPoolWF E (Call.exec E s c).st := by
  cases c with
  | getConstantInt v a => exact getConstantInt_wf E s v a h
  | getConstantDouble v a =>
    obtain ⟨X, Y, hxy⟩ := getConstantDouble_frame E s v a
    exact intPoolWF_congr E s _ (by simp [Call.exec, hxy]) (by simp [Call.exec, hxy]) h
  | addSparsity sp =>
    rcases addSparsity_intPool E s sp with ⟨h1, h2⟩ | ⟨h1, h2⟩
    · exact intPoolWF_congr E s _ h1 h2 h
    · exact intPoolWF_congr E _ _ h1 h2 (getConstantInt_wf E s sp.compress true h)
  | getSparsity sp => exact h
  | getDependency g => exact h
  | addAuxiliary f =>
    obtain ⟨X, Y, hxy⟩ := addAuxiliary_frame E s f
    exact intPoolWF_congr E s _ (by simp [Call.exec, hxy]) (by simp [Call.exec, hxy]) h
  | addInclude n r =>
    obtain ⟨X, Y, hxy⟩ := addInclude_frame s n r
    exact intPoolWF_congr E s _ (by simp [Call.exec, hxy]) (by simp [Call.exec, hxy]) h
  | functions_write t => exact h
  | finalization_write t => exact h

theorem Call.exec_doublePoolWF (E : Env) (c : Call) (s : CodeGenerator)
    (h : DoublePoolWF E s) : DoublePoolWF E (Call.exec E s c).st := by
  cases c with
  | getConstantInt v a =>
    obtain ⟨X, Y, hxy⟩ := getConstantInt_frame E s v a
    exact doublePoolWF_congr E s _ (by simp [Call.exec, hxy]) (by simp [Call.exec, hxy]) h
  | getConstantDouble v a => exact getConstantDouble_wf E s v a h
  | addSparsity sp =>
    obtain ⟨X, Y, Z, hxy⟩ := addSparsity_frame E s sp
    exact doublePoolWF_congr E s _ (by simp [Call.exec, hxy]) (by simp [Call.exec, hxy]) h
  | getSparsity sp => exact h
  | getDependency g => exact h
  | addAuxiliary f =>
    obtain ⟨X, Y, hxy⟩ := addAuxiliary_frame E s f
    exact doublePoolWF_congr E s _ (by simp [Call.exec, hxy]) (by simp [Call.exec, hxy]) h
  | addInclude n r =>
    obtain ⟨X, Y, hxy⟩ := addInclude_frame s n r
    exact doublePoolWF_congr E s _ (by simp [Call.exec, hxy]) (by simp [Call.exec, hxy]) h
  | functions_write t => exact h
  | finalization_write t => exact h

/-- A freshly constructed session differs from the all-empty one in its include section. -/
theorem CodeGenerator.init_frame (E : Env) (pre inc : String) (mex cpp_guards main : Bool)
    (real_t : String) :
    ∃ X Y, CodeGenerator.init E pre inc mex cpp_guards main real_t =
      { CodeGenerator.blank pre inc mex cpp_guards main real_t with
        added_includes_ := X, includes_ := Y } := by
  unfold CodeGenerator.init
  obtain ⟨X, Y, h⟩ := addInclude_frame (CodeGenerator.blank pre inc mex cpp_guards main real_t)
    "stdio.h" E.relative_path_default
  obtain ⟨X1, Y1, h1⟩ := addInclude_frame (CodeGenerator.blank pre inc mex cpp_guards main real_t)
    "mex.h" E.relative_path_default
  obtain ⟨X2, Y2, h2⟩ := addInclude_frame (addInclude
    (CodeGenerator.blank pre inc mex cpp_guards main real_t) "stdio.h" E.relative_path_default)
    "mex.h" E.relative_path_default
  cases main <;> cases mex
  · exact ⟨[], "", rfl⟩
  · exact ⟨X1, Y1, by simp [CodeGenerator.blank] at h1 ⊢; exact h1⟩
  · exact ⟨X, Y, by simp [CodeGenerator.blank] at h ⊢; rw [h]; simp⟩
  · refine ⟨X2, Y2, ?_⟩
    rw [h] at h2
    simp [CodeGenerator.blank] at h h2 ⊢
    rw [h]
    simpa using h2

theorem init_intPoolWF (E : Env) (pre inc : String) (mex cpp_guards main : Bool)
    (real_t : String) :
    IntPoolWF E (CodeGenerator.init E pre inc mex cpp_guards main real_t) := by
  obtain ⟨X, Y, h⟩ := CodeGenerator.init_frame E pre inc mex cpp_guards main real_t
  rw [h]
  exact ⟨PoolIndexed.nil _, List.nodup_nil⟩

theorem init_doublePoolWF (E : Env) (pre inc : String) (mex cpp_guards main : Bool)
    (real_t : String) :
    DoublePoolWF E (CodeGenerator.init E pre inc mex cpp_guards main real_t) := by
  obtain ⟨X, Y, h⟩ := CodeGenerator.init_frame E pre inc mex cpp_guards main real_t
  rw [h]
  exact ⟨PoolIndexed.nil _, List.nodup_nil⟩

/-- In every reachable session the integer pool is exactly indexed and duplicate-free. -/
theorem Reachable.intPoolWF (E : Env) (s : CodeGenerator) (h : Reachable E s) :
    IntPoolWF E s := by
  obtain ⟨pre, inc, mex, g, mn, rt, p, rfl⟩ := h
  exact run_preserves E (IntPoolWF E) (fun c s h => Call.exec_intPoolWF E c s h)
    (fun s m h => h) p _ (init_intPoolWF E pre inc mex g mn rt)

/-- In every reachable session the floating pool is exactly indexed and duplicate-free. -/
theorem Reachable.doublePoolWF (E : Env) (s : CodeGenerator) (h : Reachable E s) :
    DoublePoolWF E s := by
  obtain ⟨pre, inc, mex, g, mn, rt, p, rfl⟩ := h
  exact run_preserves E (DoublePoolWF E) (fun c s h => Call.exec_doublePoolWF E c s h)
    (fun s m h => h) p _ (init_doublePoolWF E pre inc mex g mn rt)

/-! ## Interning a vector -/

theorem sampleSession_reachable : Reachable sampleEnv sampleSession :=
  ⟨"", "", false, true, false, "double", sampleProg, rfl⟩

/-- In an exactly indexed pool a vector that is present is found, and the session is left as
it is, whether adding is allowed or not. -/
theorem getConstantInt_of_mem (E : Env) (s : CodeGenerator) (v : List Int) (a : Bool)
    (h : IntPoolInv E s) (hv : v ∈ s.integer_constants_) :
    ∃ i, getConstantInt E s v a = ⟨.ok i, s⟩ ∧ s.integer_constants_[i]? = some v := by
  obtain ⟨i, hi⟩ := PoolIndexed.locate_of_mem _ _ _ v _ rfl h hv
  exact ⟨i, getConstantInt_found E s v a i hi, (locate_some _ _ _ _ hi).1⟩

theorem getConstantDouble_of_mem (E : Env) (s : CodeGenerator) (v : List Double) (a : Bool)
    (k : Nat) (hk : hashDouble E v = .ok k)
    (h : DoublePoolInv E s) (hv : v ∈ s.double_constants_) :
    ∃ i, getConstantDouble E s v a = ⟨.ok i, s⟩ ∧ s.double_constants_[i]? = some v := by
  obtain ⟨i, hi⟩ := PoolIndexed.locate_of_mem _ _ _ v k hk h hv
  exact ⟨i, getConstantDouble_found E s v a k i hk hi, (locate_some _ _ _ _ hi).1⟩

/-- With adding allowed, in an exactly indexed pool: a present vector is found and nothing
changes; an absent vector is appended and its index is the former length. -/
theorem getConstantInt_true_wf (E : Env) (s : CodeGenerator) (v : List Int)
    (h : IntPoolInv E s) :
    (v ∈ s.integer_constants_ ∧
      ∃ i, getConstantInt E s v true = ⟨.ok i, s⟩ ∧ s.integer_constants_[i]? = some v) ∨
    (v ∉ s.integer_constants_ ∧
      getConstantInt E s v true = ⟨.ok s.integer_constants_.length, { s with
        integer_constants_ := s.integer_constants_ ++ [v]
        added_integer_constants_ :=
          s.added_integer_constants_ ++ [(hashInt E v, s.integer_constants_.length)] }⟩) := by
  by_cases hv : v ∈ s.integer_constants_
  · exact Or.inl ⟨hv, getConstantInt_of_mem E s v true h hv⟩
  · exact Or.inr ⟨hv, getConstantInt_add E s v (locate_eq_none_of_not_mem _ _ _ hv)⟩

theorem getConstantDouble_true_wf (E : Env) (s : CodeGenerator) (v : List Double) (k : Nat)
    (hk : hashDouble E v = .ok k) (h : DoublePoolInv E s) :
    (v ∈ s.double_constants_ ∧
      ∃ i, getConstantDouble E s v true = ⟨.ok i, s⟩ ∧ s.double_constants_[i]? = some v) ∨
    (v ∉ s.double_constants_ ∧
      getConstantDouble E s v true = ⟨.ok s.double_constants_.length, { s with
        double_constants_ := s.double_constants_ ++ [v]
        added_double_constants_ :=
          s.added_double_constants_ ++ [(k, s.double_constants_.length)] }⟩) := by
  by_cases hv : v ∈ s.double_constants_
  · exact Or.inl ⟨hv, getConstantDouble_of_mem E s v true k hk h hv⟩
  · exact Or.inr ⟨hv, getConstantDouble_add E s v k hk (locate_eq_none_of_not_mem _ _ _ hv)⟩

/-- Where a vector absent from `pool` sits in `pool ++ [v]`. -/
theorem index_of_appended {α : Type} (pool : List (List α)) (v : List α) (i : Nat)
    (hv : v ∉ pool) (hi : (pool ++ [v])[i]? = some v) : i = pool.length := by
  by_contra hne
  by_cases hlt : i < pool.length
  · rw [List.getElem?_append_left hlt] at hi
    exact hv (List.mem_iff_getElem?.mpr ⟨i, hi⟩)
  · rw [List.getElem?_eq_none (by simp; omega)] at hi
    cases hi

theorem getConstantInt_repeat_fixed (E : Env) (s : CodeGenerator) (v : List Int) (i : Nat)
    (h : getConstantInt E s v true = ⟨.ok i, s⟩) (k : Nat) :
    getConstantInt_repeat E v k s = s := by
  induction k with
  | zero => rfl
  | succ k ih => simp only [getConstantInt_repeat, h]; exact ih

theorem getConstantDouble_repeat_fixed (E : Env) (s : CodeGenerator) (v : List Double)
    (i : Nat) (h : getConstantDouble E s v true = ⟨.ok i, s⟩) (k : Nat) :
    getConstantDouble_repeat E v k s = s := by
  induction k with
  | zero => rfl
  | succ k ih => simp only [getConstantDouble_repeat, h]; exact ih

/-- The outcome of repeated interning on an exactly indexed integer pool. -/
theorem getConstantInt_repeat_spec (E : Env) (s : CodeGenerator) (v : List Int)
    (h : IntPoolInv E s) :
    ∃ i, ∀ k,
      (getConstantInt E (getConstantInt_repeat E v k s) v true).val = .ok i ∧
      (getConstantInt_repeat E v (k + 1) s).integer_constants_ =
        (if v ∈ s.integer_constants_ then s.integer_constants_
         else s.integer_constants_ ++ [v]) := by
  rcases getConstantInt_true_wf E s v h with ⟨hv, i, hi, _⟩ | ⟨hv, hadd⟩
  · refine ⟨i, fun k => ?_⟩
    rw [getConstantInt_repeat_fixed E s v i hi, getConstantInt_repeat_fixed E s v i hi, hi]
    simp [hv]
  · refine ⟨s.integer_constants_.length, fun k => ?_⟩
    have h1 : IntPoolInv E (getConstantInt E s v true).st := getConstantInt_inv E s v true h
    have hmem : v ∈ (getConstantInt E s v true).st.integer_constants_ := by
      rw [hadd]; simp
    obtain ⟨j, hj, hjv⟩ := getConstantInt_of_mem E _ v true h1 hmem
    have hjl : j = s.integer_constants_.length := by
      rw [hadd] at hjv
      exact index_of_appended _ v j hv hjv
    subst hjl
    have hstep : ∀ n, getConstantInt_repeat E v (n + 1) s = (getConstantInt E s v true).st := by
      intro n
      simp only [getConstantInt_repeat]
      exact getConstantInt_repeat_fixed E _ v _ hj n
    constructor
    · cases k with
      | zero => simp only [getConstantInt_repeat]; rw [hadd]
      | succ n => rw [hstep n, hj]
    · rw [hstep k, hadd]
      simp [hv]

/-- The outcome of repeated interning on an exactly indexed floating pool. -/
theorem getConstantDouble_repeat_spec (E : Env) (s : CodeGenerator) (v : List Double)
    (k0 : Nat) (hk : hashDouble E v = .ok k0) (h : DoublePoolInv E s) :
    ∃ i, ∀ k,
      (getConstantDouble E (getConstantDouble_repeat E v k s) v true).val = .ok i ∧
      (getConstantDouble_repeat E v (k + 1) s).double_constants_ =
        (if v ∈ s.double_constants_ then s.double_constants_
         else s.double_constants_ ++ [v]) := by
  rcases getConstantDouble_true_wf E s v k0 hk h with ⟨hv, i, hi, _⟩ | ⟨hv, hadd⟩
  · refine ⟨i, fun k => ?_⟩
    rw [getConstantDouble_repeat_fixed E s v i hi, getConstantDouble_repeat_fixed E s v i hi, hi]
    simp [hv]
  · refine ⟨s.double_constants_.length, fun k => ?_⟩
    have h1 : DoublePoolInv E (getConstantDouble E s v true).st := by
      rw [hadd]; exact PoolIndexed.push _ _ _ v k0 hk h
    have hmem : v ∈ (getConstantDouble E s v true).st.double_constants_ := by
      rw [hadd]; simp
    obtain ⟨j, hj, hjv⟩ := getConstantDouble_of_mem E _ v true k0 hk h1 hmem
    have hjl : j = s.double_constants_.length := by
      rw [hadd] at hjv
      exact index_of_appended _ v j hv hjv
    subst hjl
    have hstep : ∀ n,
        getConstantDouble_repeat E v (n + 1) s = (getConstantDouble E s v true).st := by
      intro n
      simp only [getConstantDouble_repeat]
      exact getConstantDouble_repeat_fixed E _ v _ hj n
    constructor
    · cases k with
      | zero => simp only [getConstantDouble_repeat]; rw [hadd]
      | succ n => rw [hstep n, hj]
    · rw [hstep k, hadd]
      simp [hv]

theorem hashDouble_ok (E : Env) (hp : E.sizeof_double % E.sizeof_size_t = 0)
    (v : List Double) : ∃ k, hashDouble E v = .ok k := by
  unfold hashDouble
  by_cases hv : v.isEmpty
  · exact ⟨0, by simp [hv]⟩
  · exact ⟨((v.flatMap E.words).take (v.length * (E.sizeof_double / E.sizeof_size_t))).foldl
      E.hash_combine 0, by simp [hv, hp]⟩

/-- With adding allowed, on an exactly indexed floating pool, `getConstant` returns an index
at which the pool afterwards holds `v`, and the pool stays exactly indexed. -/
theorem getConstantDouble_true_entry (E : Env) (s : CodeGenerator) (v : List Double) (k : Nat)
    (hk : hashDouble E v = .ok k) (h : DoublePoolInv E s) :
    ∃ i, (getConstantDouble E s v true).val = .ok i ∧
      (getConstantDouble E s v true).st.double_constants_[i]? = some v ∧
      DoublePoolInv E (getConstantDouble E s v true).st := by
  rcases getConstantDouble_true_wf E s v k hk h with ⟨_, i, hi, hiv⟩ | ⟨_, hadd⟩
  · exact ⟨i, by rw [hi], by rw [hi]; exact hiv, by rw [hi]; exact h⟩
  · refine ⟨s.double_constants_.length, by rw [hadd], by rw [hadd]; simp, ?_⟩
    rw [hadd]
    exact PoolIndexed.push _ _ _ v k hk h

/-! ## Sessions only grow -/

theorem Grows.refl (s : CodeGenerator) : Grows s s :=
  ⟨⟨[], by simp⟩, ⟨[], by simp⟩, ⟨"", by simp⟩, ⟨"", by simp⟩, fun _ _ h => h, fun _ h => h,
    fun _ h => h⟩

theorem Grows.trans {s t u : CodeGenerator} (h1 : Grows s t) (h2 : Grows t u) : Grows s u := by
  obtain ⟨⟨a1, ha1⟩, ⟨b1, hb1⟩, ⟨c1, hc1⟩, ⟨d1, hd1⟩, e1, f1, g1⟩ := h1
  obtain ⟨⟨a2, ha2⟩, ⟨b2, hb2⟩, ⟨c2, hc2⟩, ⟨d2, hd2⟩, e2, f2, g2⟩ := h2
  exact ⟨⟨a1 ++ a2, by rw [ha2, ha1, List.append_assoc]⟩,
    ⟨b1 ++ b2, by rw [hb2, hb1, List.append_assoc]⟩,
    ⟨c1 ++ c2, by rw [hc2, hc1, String.append_assoc]⟩,
    ⟨d1 ++ d2, by rw [hd2, hd1, String.append_assoc]⟩,
    fun h i hh => e2 h i (e1 h i hh), fun f hf => f2 f (f1 f hf), fun n hn => g2 n (g1 n hn)⟩

theorem getConstantInt_grows (E : Env) (s : CodeGenerator) (v : List Int) (a : Bool) :
    Grows s (getConstantInt E s v a).st := by
  cases hl : locate v s.integer_constants_
      (equal_range s.added_integer_constants_ (hashInt E v)) with
  | some i => rw [getConstantInt_found E s v a i hl]; exact Grows.refl s
  | none =>
    cases a with
    | false => rw [getConstantInt_missing E s v hl]; exact Grows.refl s
    | true =>
      rw [getConstantInt_add E s v hl]
      exact ⟨⟨[v], rfl⟩, ⟨[], by simp⟩, ⟨"", by simp⟩, ⟨"", by simp⟩, fun _ _ h => h,
        fun _ h => h, fun _ h => h⟩

theorem getConstantDouble_grows (E : Env) (s : CodeGenerator) (v : List Double) (a : Bool) :
    Grows s (getConstantDouble E s v a).st := by
  cases hk : hashDouble E v with
  | error e => rw [getConstantDouble_throw E s v a e hk]; exact Grows.refl s
  | ok k =>
    cases hl : locate v s.double_constants_ (equal_range s.added_double_constants_ k) with
    | some i => rw [getConstantDouble_found E s v a k i hk hl]; exact Grows.refl s
    | none =>
      cases a with
      | false => rw [getConstantDouble_missing E s v k hk hl]; exact Grows.refl s
      | true =>
        rw [getConstantDouble_add E s v k hk hl]
        exact ⟨⟨[], by simp⟩, ⟨[v], rfl⟩, ⟨"", by simp⟩, ⟨"", by simp⟩, fun _ _ h => h,
          fun _ h => h, fun _ h => h⟩

theorem addSparsity_grows (E : Env) (s : CodeGenerator) (sp : Sparsity) :
    Grows s (addSparsity E s sp).st := by
  cases hf : PointerMap.find s.added_sparsities_ sp.get with
  | some i => rw [addSparsity_old E s sp i hf]; exact Grows.refl s
  | none =>
    obtain ⟨c, _, h⟩ := addSparsity_new E s sp hf
    rw [h]
    obtain ⟨h1, h2, h3, h4, _, h6, h7⟩ := getConstantInt_grows E s sp.compress true
    exact ⟨h1, h2, h3, h4,
      fun k i hk => PointerMap.find_append_of_some _ _ _ _ _ hk, h6, h7⟩

theorem addAuxiliary_grows (E : Env) (s : CodeGenerator) (f : Auxiliary) :
    Grows s (addAuxiliary E s f) := by
  obtain ⟨tags, order, h, _⟩ := addAuxiliary_eq E s f
  rw [h]
  exact ⟨⟨[], by simp⟩, ⟨[], by simp⟩, ⟨"", by simp⟩, ⟨emitted E order, rfl⟩, fun _ _ h => h,
    fun t ht => List.mem_append_left _ ht, fun _ h => h⟩

theorem addInclude_grows (s : CodeGenerator) (n : String) (r : Bool) :
    Grows s (addInclude s n r) := by
  unfold addInclude
  by_cases h : n ∈ s.added_includes_
  · simp only [h, if_true]; exact Grows.refl s
  · cases r
    · simp only [h, if_false, Bool.false_eq_true]
      exact ⟨⟨[], by simp⟩, ⟨[], by simp⟩,
        ⟨"#include <" ++ n ++ ">" ++ endl, by simp [String.append_assoc]⟩, ⟨"", by simp⟩,
        fun _ _ h => h, fun _ h => h, fun m hm => List.mem_append_left _ hm⟩
    · simp only [h, if_false, if_true]
      exact ⟨⟨[], by simp⟩, ⟨[], by simp⟩,
        ⟨"#include \"" ++ n ++ "\"" ++ endl, by simp [String.append_assoc]⟩, ⟨"", by simp⟩,
        fun _ _ h => h, fun _ h => h, fun m hm => List.mem_append_left _ hm⟩

theorem Call.exec_grows (E : Env) (c : Call) (s : CodeGenerator) :
    Grows s (Call.exec E s c).st := by
  cases c with
  | getConstantInt v a => exact getConstantInt_grows E s v a
  | getConstantDouble v a => exact getConstantDouble_grows E s v a
  | addSparsity sp => exact addSparsity_grows E s sp
  | getSparsity sp => exact Grows.refl s
  | getDependency g => exact Grows.refl s
  | addAuxiliary f => exact addAuxiliary_grows E s f
  | addInclude n r => exact addInclude_grows s n r
  | functions_write t => exact Grows.refl s
  | finalization_write t => exact Grows.refl s

/-- Along every run the session only grows. -/
theorem run_grows (E : Env) (p : Prog) (s : CodeGenerator) : Grows s (run E p s).st :=
  run_preserves E (fun t => Grows s t)
    (fun c t h => Grows.trans h (Call.exec_grows E c t)) (fun _ _ h => h) p s (Grows.refl s)

/-- With adding allowed `getConstant` returns an index at which the pool afterwards holds
`v`. -/
theorem getConstantInt_true_entry (E : Env) (s : CodeGenerator) (v : List Int) :
    ∃ i, (getConstantInt E s v true).val = .ok i ∧
      (getConstantInt E s v true).st.integer_constants_[i]? = some v := by
  rcases getConstantInt_true E s v with ⟨i, hi, hiv⟩ | ⟨_, hadd⟩
  · exact ⟨i, by rw [hi], by rw [hi]; exact hiv⟩
  · exact ⟨s.integer_constants_.length, by rw [hadd], by rw [hadd]; simp⟩

theorem getElem?_of_prefix {α : Type} (l x : List α) (i : Nat) (w : α)
    (h : l[i]? = some w) : (l ++ x)[i]? = some w := by
  have hlt : i < l.length := by
    by_contra hge
    rw [List.getElem?_eq_none (by omega)] at h
    cases h
  rw [List.getElem?_append_left hlt]
  exact h

theorem getSparsity_of_find (s : CodeGenerator) (sp : Sparsity) (i : Nat)
    (h : PointerMap.find s.added_sparsities_ sp.get = some i) : getSparsity s sp = .ok i := by
  simp [getSparsity, h]

/-! ## Histories -/

/-- A property of a session and the history of its run holds along every run if each kind
of event keeps it: a call, a repeated `addDependency`, a first `addDependency` up to the
invocation of the callback, and the return of `addDependency` once the callback is back. -/
theorem run_history (E : Env) (Q : CodeGenerator → List Event → Prop)
    (hcall : ∀ c s L, Q s L → Q (Call.exec E s c).st (L ++ [.call c]))
    (hold : ∀ s L g i, PointerMap.find s.added_dependencies_ g = some i → Q s L →
      Q s (L ++ [.addDependency g, .returned g i]))
    (hnew : ∀ s L g, PointerMap.find s.added_dependencies_ g = none → Q s L →
      Q { s with added_dependencies_ :=
            s.added_dependencies_ ++ [(g, s.added_dependencies_.length)] }
        (L ++ [.addDependency g,
          .generateFunction g ("f" ++ toString s.added_dependencies_.length)]))
    (hret : ∀ s L g name, Event.generateFunction g name ∈ L → Q s L →
      Q s (L ++ [.returned g ((PointerMap.find s.added_dependencies_ g).getD 0)])) :
    ∀ p s L, Q s L → Q (run E p s).st (L ++ (run E p s).log) := by
  intro p
  induction p with
  | done => intro s L h; simpa [run] using h
  | call c rest ih =>
    intro s L h
    have hc := hcall c s L h
    simp only [run]
    cases hv : (Call.exec E s c).val with
    | error e => simpa [hv] using hc
    | ok u =>
      have := ih _ _ hc
      simpa [hv, List.append_assoc] using this
  | attempt body rest ihb ihr =>
    intro s L h
    simp only [run]
    have := ihr _ _ (ihb _ _ h)
    simpa [List.append_assoc] using this
  | addDependency g gf rest ihg ihr =>
    intro s L h
    simp only [run]
    cases hf : PointerMap.find s.added_dependencies_ g with
    | some i =>
      rw [addDependency_old s g i _ hf]
      have := ihr _ _ (hold s L g i hf h)
      simpa [List.append_assoc] using this
    | none =>
      rw [addDependency_new s g _ hf]
      simp only
      have h1 := hnew s L g hf h
      have h2 := ihg ("f" ++ toString s.added_dependencies_.length) _ _ h1
      cases hv : (run E (gf ("f" ++ toString s.added_dependencies_.length))
          { s with added_dependencies_ :=
              s.added_dependencies_ ++ [(g, s.added_dependencies_.length)] }).val with
      | error e =>
        simp only [hv]
        simpa [List.append_assoc] using h2
      | ok u =>
        simp only [hv]
        have h3 := hret _ _ g ("f" ++ toString s.added_dependencies_.length)
          (by simp) h2
        have := ihr _ _ h3
        simpa [List.append_assoc] using this

/-! ## The registries and the history -/

theorem PointerMap.find_append_isSome (m : List (Nat × Nat)) (h k v : Nat) :
    (PointerMap.find (m ++ [(k, v)]) h).isSome ↔ (h = k ∨ (PointerMap.find m h).isSome) := by
  rw [PointerMap.find_append]
  cases hf : PointerMap.find m h with
  | some i => simp
  | none =>
    by_cases hk : h = k
    · simp [hk]
    · simp [hk]

theorem addSparsity_keys (E : Env) (s : CodeGenerator) (sp : Sparsity) (h : Nat) :
    (PointerMap.find (addSparsity E s sp).st.added_sparsities_ h).isSome ↔
      (h = sp.get ∨ (PointerMap.find s.added_sparsities_ h).isSome) := by
  cases hf : PointerMap.find s.added_sparsities_ sp.get with
  | some i =>
    rw [addSparsity_old E s sp i hf]
    constructor
    · intro hh; exact Or.inr hh
    · rintro (rfl | hh)
      · simp [hf]
      · exact hh
  | none =>
    obtain ⟨c, _, hs⟩ := addSparsity_new E s sp hf
    rw [hs]
    exact PointerMap.find_append_isSome _ _ _ _

theorem Call.exec_dependencies (E : Env) (c : Call) (s : CodeGenerator) :
    (Call.exec E s c).st.added_dependencies_ = s.added_dependencies_ := by
  cases c with
  | getConstantInt v a =>
    obtain ⟨X, Y, hxy⟩ := getConstantInt_frame E s v a
    simp [Call.exec, hxy]
  | getConstantDouble v a =>
    obtain ⟨X, Y, hxy⟩ := getConstantDouble_frame E s v a
    simp [Call.exec, hxy]
  | addSparsity sp =>
    obtain ⟨X, Y, Z, hxy⟩ := addSparsity_frame E s sp
    simp [Call.exec, hxy]
  | getSparsity sp => rfl
  | getDependency g => rfl
  | addAuxiliary f =>
    obtain ⟨X, Y, hxy⟩ := addAuxiliary_frame E s f
    simp [Call.exec, hxy]
  | addInclude n r =>
    obtain ⟨X, Y, hxy⟩ := addInclude_frame s n r
    simp [Call.exec, hxy]
  | functions_write t => rfl
  | finalization_write t => rfl

theorem Call.exec_sparsities (E : Env) (c : Call) (s : CodeGenerator)
    (hc : ∀ sp, c ≠ .addSparsity sp) :
    (Call.exec E s c).st.added_sparsities_ = s.added_sparsities_ := by
  cases c with
  | getConstantInt v a =>
    obtain ⟨X, Y, hxy⟩ := getConstantInt_frame E s v a
    simp [Call.exec, hxy]
  | getConstantDouble v a =>
    obtain ⟨X, Y, hxy⟩ := getConstantDouble_frame E s v a
    simp [Call.exec, hxy]
  | addSparsity sp => exact absurd rfl (hc sp)
  | getSparsity sp => rfl
  | getDependency g => rfl
  | addAuxiliary f =>
    obtain ⟨X, Y, hxy⟩ := addAuxiliary_frame E s f
    simp [Call.exec, hxy]
  | addInclude n r =>
    obtain ⟨X, Y, hxy⟩ := addInclude_frame s n r
    simp [Call.exec, hxy]
  | functions_write t => rfl
  | finalization_write t => rfl

/-- Along a run, the keys of the sparsity registry are the patterns passed to `addSparsity`
and the keys of the dependency registry are the functions passed to `addDependency`. -/
theorem run_registries (E : Env) (p : Prog) (s : CodeGenerator) (L : List Event)
    (hs : ∀ h, (PointerMap.find s.added_sparsities_ h).isSome ↔
      ∃ sp, Event.call (.addSparsity sp) ∈ L ∧ sp.get = h)
    (hd : ∀ g, (PointerMap.find s.added_dependencies_ g).isSome ↔ Event.addDependency g ∈ L) :
    (∀ h, (PointerMap.find (run E p s).st.added_sparsities_ h).isSome ↔
      ∃ sp, Event.call (.addSparsity sp) ∈ L ++ (run E p s).log ∧ sp.get = h) ∧
    (∀ g, (PointerMap.find (run E p s).st.added_dependencies_ g).isSome ↔
      Event.addDependency g ∈ L ++ (run E p s).log) := by
  refine run_history E
    (fun s L => (∀ h, (PointerMap.find s.added_sparsities_ h).isSome ↔
        ∃ sp, Event.call (.addSparsity sp) ∈ L ∧ sp.get = h) ∧
      (∀ g, (PointerMap.find s.added_dependencies_ g).isSome ↔ Event.addDependency g ∈ L))
    ?_ ?_ ?_ ?_ p s L ⟨hs, hd⟩
  · rintro c s L ⟨h1, h2⟩
    constructor
    · intro h
      by_cases hc : ∃ sp, c = .addSparsity sp
      · obtain ⟨sp0, rfl⟩ := hc
        have : (Call.exec E s (.addSparsity sp0)).st = (addSparsity E s sp0).st := rfl
        rw [this, addSparsity_keys, h1]
        constructor
        · rintro (rfl | ⟨sp, hm, rfl⟩)
          · exact ⟨sp0, by simp, rfl⟩
          · exact ⟨sp, by simp [hm], rfl⟩
        · rintro ⟨sp, hm, rfl⟩
          simp only [List.mem_append, List.mem_singleton, Event.call.injEq,
            Call.addSparsity.injEq] at hm
          rcases hm with hm | rfl
          · exact Or.inr ⟨sp, hm, rfl⟩
          · exact Or.inl rfl
      · have hc1 : ∀ sp, c ≠ .addSparsity sp := fun sp hsp => hc ⟨sp, hsp⟩
        rw [Call.exec_sparsities E c s hc1, h1]
        constructor
        · rintro ⟨sp, hm, rfl⟩
          exact ⟨sp, by simp [hm], rfl⟩
        · rintro ⟨sp, hm, rfl⟩
          simp only [List.mem_append, List.mem_singleton, Event.call.injEq] at hm
          rcases hm with hm | hm
          · exact ⟨sp, hm, rfl⟩
          · exact absurd hm.symm (hc1 sp)
    · intro g
      rw [Call.exec_dependencies, h2]
      simp
  · rintro s L g i hf ⟨h1, h2⟩
    constructor
    · intro h
      rw [h1]
      simp
    · intro g1
      rw [h2]
      simp only [List.mem_append, List.mem_cons, Event.addDependency.injEq, List.mem_singleton,
        reduceCtorEq, or_false, List.not_mem_nil]
      constructor
      · intro hm; exact Or.inl hm
      · rintro (hm | rfl)
        · exact hm
        · exact (h2 g1).mp (by simp [hf])
  · rintro s L g hf ⟨h1, h2⟩
    constructor
    · intro h
      rw [h1]
      simp
    · intro g1
      simp only
      rw [PointerMap.find_append_isSome, h2]
      simp only [List.mem_append, List.mem_cons, Event.addDependency.injEq, List.mem_singleton,
        reduceCtorEq, or_false, List.not_mem_nil]
      exact Or.comm
  · rintro s L g name _ ⟨h1, h2⟩
    constructor
    · intro h
      rw [h1]
      simp
    · intro g1
      rw [h2]
      simp

theorem CodeGenerator.init_registries (E : Env) (pre inc : String) (mex cpp_guards main : Bool)
    (real_t : String) :
    (CodeGenerator.init E pre inc mex cpp_guards main real_t).added_sparsities_ = [] ∧
    (CodeGenerator.init E pre inc mex cpp_guards main real_t).added_dependencies_ = [] ∧
    (CodeGenerator.init E pre inc mex cpp_guards main real_t).added_auxiliaries_ = [] ∧
    (CodeGenerator.init E pre inc mex cpp_guards main real_t).auxiliaries_ = "" := by
  obtain ⟨X, Y, h⟩ := CodeGenerator.init_frame E pre inc mex cpp_guards main real_t
  rw [h]
  exact ⟨rfl, rfl, rfl, rfl⟩

theorem getSparsity_error_iff (s : CodeGenerator) (sp : Sparsity) :
    (∃ e, getSparsity s sp = .error e) ↔
      (PointerMap.find s.added_sparsities_ sp.get).isSome = false := by
  cases hf : PointerMap.find s.added_sparsities_ sp.get with
  | none => simp [getSparsity, hf]
  | some i => simp [getSparsity, hf]

theorem getDependency_error_iff (s : CodeGenerator) (f_get : Nat) :
    (∃ e, getDependency s f_get = .error e) ↔
      (PointerMap.find s.added_dependencies_ f_get).isSome = false := by
  cases hf : PointerMap.find s.added_dependencies_ f_get with
  | none => simp [getDependency, hf]
  | some i => simp [getDependency, hf]

/-! ## Dependencies -/

theorem invocations_append (g : Nat) (L M : List Event) :
    invocations g (L ++ M) = invocations g L + invocations g M := by
  simp [invocations, List.countP_append]

theorem PointerMap.mem_of_find (m : List (Nat × Nat)) (h i : Nat)
    (hf : PointerMap.find m h = some i) : (h, i) ∈ m := by
  induction m with
  | nil => simp [PointerMap.find] at hf
  | cons p rest ih =>
    obtain ⟨a, b⟩ := p
    simp only [PointerMap.find, List.lookup] at hf ih
    cases hab : h == a with
    | true =>
      rw [hab] at hf
      have : h = a := by simpa using hab
      subst this
      simp only [Option.some.injEq] at hf
      subst hf
      simp
    | false =>
      rw [hab] at hf
      exact List.mem_cons_of_mem _ (ih hf)

/-- In a registry whose indices are `0, 1, ...` two keys with the same index are equal. -/
theorem PointerMap.key_unique (m : List (Nat × Nat)) (g1 g2 i : Nat)
    (hr : m.map Prod.snd = List.range m.length)
    (h1 : PointerMap.find m g1 = some i) (h2 : PointerMap.find m g2 = some i) : g1 = g2 := by
  have hnd : (m.map Prod.snd).Nodup := by rw [hr]; exact List.nodup_range _
  have := List.inj_on_of_nodup_map hnd (PointerMap.mem_of_find m g1 i h1)
    (PointerMap.mem_of_find m g2 i h2) rfl
  exact congrArg Prod.fst this

theorem Call.exec_depHistory (E : Env) (c : Call) (s : CodeGenerator) (L : List Event)
    (h : DepHistory s L) : DepHistory (Call.exec E s c).st (L ++ [.call c]) := by
  obtain ⟨h1, h2, h3, h4⟩ := h
  unfold DepHistory
  rw [Call.exec_dependencies]
  refine ⟨h1, ?_, ?_, ?_⟩
  · intro g i hm
    exact h2 g i (by simpa using hm)
  · intro g name hm
    exact h3 g name (by simpa using hm)
  · intro g
    rw [invocations_append, h4 g]
    simp [invocations, generated]

theorem depHistory_old (s : CodeGenerator) (L : List Event) (g i : Nat)
    (hf : PointerMap.find s.added_dependencies_ g = some i) (h : DepHistory s L) :
    DepHistory s (L ++ [.addDependency g, .returned g i]) := by
  obtain ⟨h1, h2, h3, h4⟩ := h
  refine ⟨h1, ?_, ?_, ?_⟩
  · intro g1 i1 hm
    simp only [List.mem_append, List.mem_cons, reduceCtorEq, Event.returned.injEq,
      List.mem_singleton, false_or, List.not_mem_nil, or_false] at hm
    rcases hm with hm | ⟨rfl, rfl⟩
    · exact h2 g1 i1 hm
    · exact hf
  · intro g1 name hm
    exact h3 g1 name (by simpa using hm)
  · intro g1
    rw [invocations_append, h4 g1]
    simp [invocations, generated]

theorem depHistory_new (s : CodeGenerator) (L : List Event) (g : Nat)
    (hf : PointerMap.find s.added_dependencies_ g = none) (h : DepHistory s L) :
    DepHistory { s with added_dependencies_ :=
        s.added_dependencies_ ++ [(g, s.added_dependencies_.length)] }
      (L ++ [.addDependency g,
        .generateFunction g ("f" ++ toString s.added_dependencies_.length)]) := by
  obtain ⟨h1, h2, h3, h4⟩ := h
  refine ⟨?_, ?_, ?_, ?_⟩
  · simp only [List.map_append, List.map_cons, List.map_nil, List.length_append,
      List.length_singleton, h1, List.range_succ]
  · intro g1 i1 hm
    simp only [List.mem_append, List.mem_cons, reduceCtorEq, List.mem_singleton,
      List.not_mem_nil, or_false] at hm
    exact PointerMap.find_append_of_some _ _ _ _ _ (h2 g1 i1 hm)
  · intro g1 name hm
    simp only [List.mem_append, List.mem_cons, reduceCtorEq, Event.generateFunction.injEq,
      List.mem_singleton, false_or, List.not_mem_nil, or_false] at hm
    rcases hm with hm | ⟨rfl, rfl⟩
    · obtain ⟨i, hi, hn⟩ := h3 g1 name hm
      exact ⟨i, PointerMap.find_append_of_some _ _ _ _ _ hi, hn⟩
    · exact ⟨_, PointerMap.find_append_self _ _ _ hf, rfl⟩
  · intro g1
    rw [invocations_append, h4 g1]
    simp only
    by_cases hg : g1 = g
    · subst hg
      simp [hf, PointerMap.find_append_self _ _ _ hf, invocations, generated]
    · have hne : ¬ g = g1 := fun hc => hg hc.symm
      have : (PointerMap.find (s.added_dependencies_ ++ [(g, s.added_dependencies_.length)])
          g1).isSome = (PointerMap.find s.added_dependencies_ g1).isSome := by
        rw [Bool.eq_iff_iff, PointerMap.find_append_isSome]
        simp [hg]
      rw [this]
      simp [invocations, generated, hne]

theorem depHistory_returned (s : CodeGenerator) (L : List Event) (g : Nat) (name : String)
    (hm : Event.generateFunction g name ∈ L) (h : DepHistory s L) :
    DepHistory s (L ++ [.returned g ((PointerMap.find s.added_dependencies_ g).getD 0)]) := by
  obtain ⟨h1, h2, h3, h4⟩ := h
  obtain ⟨i, hi, _⟩ := h3 g name hm
  refine ⟨h1, ?_, ?_, ?_⟩
  · intro g1 i1 hm1
    simp only [List.mem_append, List.mem_singleton, Event.returned.injEq] at hm1
    rcases hm1 with hm1 | ⟨rfl, rfl⟩
    · exact h2 g1 i1 hm1
    · rw [hi]; rfl
  · intro g1 name1 hm1
    exact h3 g1 name1 (by simpa using hm1)
  · intro g1
    rw [invocations_append, h4 g1]
    simp [invocations, generated]

/-- The dependency registry agrees with the history along every run. -/
theorem run_depHistory (E : Env) (p : Prog) (s : CodeGenerator) (L : List Event)
    (h : DepHistory s L) : DepHistory (run E p s).st (L ++ (run E p s).log) :=
  run_history E DepHistory (fun c s L h => Call.exec_depHistory E c s L h)
    (fun s L g i hf h => depHistory_old s L g i hf h)
    (fun s L g hf h => depHistory_new s L g hf h)
    (fun s L g name hm h => depHistory_returned s L g name hm h) p s L h

theorem init_depHistory (E : Env) (pre inc : String) (mex cpp_guards main : Bool)
    (real_t : String) :
    DepHistory (CodeGenerator.init E pre inc mex cpp_guards main real_t) [] := by
  obtain ⟨_, h2, _, _⟩ := CodeGenerator.init_registries E pre inc mex cpp_guards main real_t
  unfold DepHistory
  rw [h2]
  simp [PointerMap.find, invocations]

/-- Appending events that are no invocations keeps `InvokedOnFirst`. -/
theorem invokedOnFirst_append (L X : List Event) (h : InvokedOnFirst L)
    (hX : ∀ k g name, X[k]? = some (Event.generateFunction g name) →
      ∃ j, k = j + 1 ∧ X[j]? = some (Event.addDependency g) ∧ Event.addDependency g ∉ L ∧
        ∀ j1, j1 < j → X[j1]? ≠ some (Event.addDependency g)) :
    InvokedOnFirst (L ++ X) := by
  intro k g name hk
  by_cases hlt : k < L.length
  · rw [List.getElem?_append_left hlt] at hk
    obtain ⟨j, hj, hjd, hfirst⟩ := h k g name hk
    refine ⟨j, hj, ?_, ?_⟩
    · rw [List.getElem?_append_left (by omega)]
      exact hjd
    · intro j1 hj1
      rw [List.getElem?_append_left (by omega)]
      exact hfirst j1 hj1
  · rw [List.getElem?_append_right (by omega)] at hk
    obtain ⟨j, hj, hjd, hnot, hfirst⟩ := hX _ g name hk
    refine ⟨L.length + j, by omega, ?_, ?_⟩
    · rw [List.getElem?_append_right (by omega)]
      simpa using hjd
    · intro j1 hj1
      by_cases hj1l : j1 < L.length
      · rw [List.getElem?_append_left hj1l]
        intro hc
        exact hnot (List.mem_iff_getElem?.mpr ⟨j1, hc⟩)
      · rw [List.getElem?_append_right (by omega)]
        exact hfirst _ (by omega)

/-- Along a run every callback is invoked directly after the first `addDependency` of its
function. -/
theorem run_invokedOnFirst (E : Env) (p : Prog) (s : CodeGenerator) (L : List Event)
    (hd : ∀ g, (PointerMap.find s.added_dependencies_ g).isSome ↔ Event.addDependency g ∈ L)
    (h : InvokedOnFirst L) : InvokedOnFirst (L ++ (run E p s).log) := by
  refine (run_history E
    (fun s L => (∀ g, (PointerMap.find s.added_dependencies_ g).isSome ↔
        Event.addDependency g ∈ L) ∧ InvokedOnFirst L)
    ?_ ?_ ?_ ?_ p s L ⟨hd, h⟩).2
  · rintro c s L ⟨h1, h2⟩
    refine ⟨fun g => by rw [Call.exec_dependencies, h1]; simp, ?_⟩
    apply invokedOnFirst_append L _ h2
    intro k g name hk
    cases k with
    | zero => simp at hk
    | succ n => simp at hk
  · rintro s L g i hf ⟨h1, h2⟩
    constructor
    · intro g1
      rw [h1]
      simp only [List.mem_append, List.mem_cons, Event.addDependency.injEq, List.mem_singleton,
        reduceCtorEq, or_false, List.not_mem_nil]
      constructor
      · intro hm; exact Or.inl hm
      · rintro (hm | rfl)
        · exact hm
        · exact (h1 g1).mp (by simp [hf])
    · apply invokedOnFirst_append L _ h2
      intro k g1 name hk
      match k with
      | 0 => simp at hk
      | 1 => simp at hk
      | n + 2 => simp at hk
  · rintro s L g hf ⟨h1, h2⟩
    constructor
    · intro g1
      simp only
      rw [PointerMap.find_append_isSome, h1]
      simp only [List.mem_append, List.mem_cons, Event.addDependency.injEq, List.mem_singleton,
        reduceCtorEq, or_false, List.not_mem_nil]
      exact Or.comm
    · apply invokedOnFirst_append L _ h2
      intro k g1 name hk
      match k with
      | 0 => simp at hk
      | 1 =>
        simp only [List.getElem?_cons_succ, List.getElem?_cons_zero, Option.some.injEq,
          Event.generateFunction.injEq] at hk
        obtain ⟨rfl, _⟩ := hk
        refine ⟨0, rfl, by simp, ?_, fun j1 hj1 => absurd hj1 (Nat.not_lt_zero _)⟩
        intro hc
        have := (h1 g).mpr hc
        rw [hf] at this
        simp at this
      | n + 2 => simp at hk
  · rintro s L g name _ ⟨h1, h2⟩
    refine ⟨fun g1 => by rw [h1]; simp, ?_⟩
    apply invokedOnFirst_append L _ h2
    intro k g1 name1 hk
    cases k with
    | zero => simp at hk
    | succ n => simp at hk

/-! ## The auxiliary section -/

theorem emitted_append (E : Env) (l m : List Auxiliary) :
    emitted E (l ++ m) = emitted E l ++ emitted E m := by
  induction l with
  | nil => simp [emitted]
  | cons t ts ih => simp [emitted, ih, String.append_assoc]

/-- The session after `addAuxiliary(f)`, in terms of the tags newly written. -/
theorem addAuxiliary_newAux (E : Env) (s : CodeGenerator) (f : Auxiliary) :
    addAuxiliary E s f = { s with
      added_auxiliaries_ := s.added_auxiliaries_ ++ (newAux s.added_auxiliaries_ f).reverse
      auxiliaries_ := s.auxiliaries_ ++ emitted E (newAux s.added_auxiliaries_ f) } := by
  unfold newAux
  by_cases h : f ∈ s.added_auxiliaries_
  · rw [addAuxiliary_of_mem E s f h]
    simp [h, emitted]
  · by_cases hf : f = .AUX_FROM_MEX
    · subst hf
      by_cases hn : Auxiliary.AUX_FILL_N ∈ s.added_auxiliaries_
      · rw [addAuxiliary_from_mex E s h, addAuxiliary_of_mem _ _ _ (by simp [hn])]
        simp [h, hn, auxiliaries_write, emitted, auxText]
      · rw [addAuxiliary_from_mex E s h, addAuxiliary_simple _ _ _ (by simp [hn]) (by simp)]
        simp [h, hn, auxiliaries_write, emitted, auxText, String.append_assoc]
    · rw [addAuxiliary_simple E s f h hf]
      simp [h, hf, emitted]

theorem addAuxiliary_auxOrdered (E : Env) (s : CodeGenerator) (f : Auxiliary)
    (h : AuxOrdered E s) : AuxOrdered E (addAuxiliary E s f) := by
  obtain ⟨order, hnd, hmem, htext, hbefore⟩ := h
  rw [addAuxiliary_newAux]
  unfold newAux
  by_cases hf : f ∈ s.added_auxiliaries_
  · refine ⟨order, hnd, ?_, ?_, hbefore⟩
    · simpa [hf] using hmem
    · simp [hf, emitted, htext]
  · by_cases hm : f = .AUX_FROM_MEX ∧ Auxiliary.AUX_FILL_N ∉ s.added_auxiliaries_
    · obtain ⟨rfl, hn⟩ := hm
      refine ⟨order ++ [.AUX_FILL_N, .AUX_FROM_MEX], ?_, ?_, ?_, ?_⟩
      · rw [List.nodup_append]
        refine ⟨hnd, by simp, ?_⟩
        intro t ht ht2
        simp only [List.mem_cons, List.mem_singleton, List.not_mem_nil, or_false] at ht2
        rcases ht2 with rfl | rfl
        · exact hn ((hmem _).mp ht)
        · exact hf ((hmem _).mp ht)
      · intro t
        simp only [hf, hn, if_false, not_false_eq_true, and_self, if_true, List.mem_append,
          hmem t, List.mem_reverse]
      · simp only [hf, hn, if_false, not_false_eq_true, and_self, if_true, htext,
          emitted_append]
      · intro _
        exact ⟨order, [], [], by simp⟩
    · refine ⟨order ++ [f], ?_, ?_, ?_, ?_⟩
      · rw [List.nodup_append]
        refine ⟨hnd, by simp, ?_⟩
        intro t ht ht2
        simp only [List.mem_singleton] at ht2
        subst ht2
        exact hf ((hmem _).mp ht)
      · intro t
        simp only [hf, hm, if_false, List.mem_append, hmem t, List.reverse_cons,
          List.reverse_nil, List.nil_append]
      · simp only [hf, hm, if_false, htext, emitted_append]
      · intro hin
        rcases List.mem_append.mp hin with hin | hin
        · obtain ⟨pre, mid, post, ho⟩ := hbefore hin
          exact ⟨pre, mid, post ++ [f], by rw [ho]; simp⟩
        · simp only [List.mem_singleton] at hin
          subst hin
          have hfill : Auxiliary.AUX_FILL_N ∈ s.added_auxiliaries_ := by
            by_contra hc
            exact hm ⟨rfl, hc⟩
          obtain ⟨pre, mid, ho⟩ := List.append_of_mem ((hmem _).mpr hfill)
          exact ⟨pre, mid, [], by rw [ho]⟩

theorem auxOrdered_congr (E : Env) (s t : CodeGenerator)
    (h1 : t.added_auxiliaries_ = s.added_auxiliaries_) (h2 : t.auxiliaries_ = s.auxiliaries_)
    (h : AuxOrdered E s) : AuxOrdered E t := by
  unfold AuxOrdered at *
  rw [h1, h2]
  exact h

theorem Call.exec_auxOrdered (E : Env) (c : Call) (s : CodeGenerator) (h : AuxOrdered E s) :
    AuxOrdered E (Call.exec E s c).st := by
  cases c with
  | getConstantInt v a =>
    obtain ⟨X, Y, hxy⟩ := getConstantInt_frame E s v a
    exact auxOrdered_congr E s _ (by simp [Call.exec, hxy]) (by simp [Call.exec, hxy]) h
  | getConstantDouble v a =>
    obtain ⟨X, Y, hxy⟩ := getConstantDouble_frame E s v a
    exact auxOrdered_congr E s _ (by simp [Call.exec, hxy]) (by simp [Call.exec, hxy]) h
  | addSparsity sp =>
    obtain ⟨X, Y, Z, hxy⟩ := addSparsity_frame E s sp
    exact auxOrdered_congr E s _ (by simp [Call.exec, hxy]) (by simp [Call.exec, hxy]) h
  | getSparsity sp => exact h
  | getDependency g => exact h
  | addAuxiliary f => exact addAuxiliary_auxOrdered E s f h
  | addInclude n r =>
    obtain ⟨X, Y, hxy⟩ := addInclude_frame s n r
    exact auxOrdered_congr E s _ (by simp [Call.exec, hxy]) (by simp [Call.exec, hxy]) h
  | functions_write t => exact h
  | finalization_write t => exact h

theorem init_auxOrdered (E : Env) (pre inc : String) (mex cpp_guards main : Bool)
    (real_t : String) :
    AuxOrdered E (CodeGenerator.init E pre inc mex cpp_guards main real_t) := by
  obtain ⟨_, _, h3, h4⟩ := CodeGenerator.init_registries E pre inc mex cpp_guards main real_t
  exact ⟨[], List.nodup_nil, by simp [h3], by simp [h4, emitted], by simp⟩

/-- In every reachable session the auxiliary section is the texts of the auxiliary set. -/
theorem Reachable.auxOrdered (E : Env) (s : CodeGenerator) (h : Reachable E s) :
    AuxOrdered E s := by
  obtain ⟨pre, inc, mex, g, mn, rt, p, rfl⟩ := h
  exact run_preserves E (AuxOrdered E) (fun c s h => Call.exec_auxOrdered E c s h)
    (fun _ _ h => h) p _ (init_auxOrdered E pre inc mex g mn rt)

theorem foldl_addAuxiliary_auxOrdered (E : Env) (ts : List Auxiliary) (s : CodeGenerator)
    (h : AuxOrdered E s) : AuxOrdered E (ts.foldl (addAuxiliary E) s) := by
  induction ts generalizing s with
  | nil => exact h
  | cons t rest ih => exact ih _ (addAuxiliary_auxOrdered E s t h)

theorem mem_addAuxiliary (E : Env) (s : CodeGenerator) (f : Auxiliary) :
    f ∈ (addAuxiliary E s f).added_auxiliaries_ := by
  obtain ⟨tags, order, h, hperm, _, _, hf, _⟩ := addAuxiliary_eq E s f
  rw [h]
  rcases hf with hf | hf
  · exact List.mem_append_left _ hf
  · exact List.mem_append_right _ (hperm.mem_iff.mpr hf)

/-- How often a tag occurs in a duplicate-free list. -/
theorem count_of_nodup (order : List Auxiliary) (hnd : order.Nodup) (t : Auxiliary) :
    order.count t = if t ∈ order then 1 else 0 := by
  by_cases ht : t ∈ order
  · rw [if_pos ht]
    exact List.count_eq_one_of_mem hnd ht
  · rw [if_neg ht]
    exact List.count_eq_zero_of_not_mem ht

/-- In a duplicate-free list `pre ++ a :: mid ++ b :: post` neither `a` nor `b` is among
`pre`, `mid` and `post`. -/
theorem nodup_split (pre mid post : List Auxiliary) (a b : Auxiliary)
    (h : (pre ++ a :: mid ++ b :: post).Nodup) :
    ∀ t, t ∈ pre ∨ t ∈ mid ∨ t ∈ post → t ≠ a ∧ t ≠ b := by
  intro t ht
  have ha : (pre ++ a :: mid ++ b :: post).count a ≤ 1 := List.nodup_iff_count_le_one.mp h a
  have hb : (pre ++ a :: mid ++ b :: post).count b ≤ 1 := List.nodup_iff_count_le_one.mp h b
  simp only [List.count_append, List.count_cons, beq_self_eq_true, if_true] at ha hb
  constructor
  · rintro rfl
    rcases ht with ht | ht | ht
    · have := List.count_pos_iff.mpr ht; omega
    · have := List.count_pos_iff.mpr ht; omega
    · have := List.count_pos_iff.mpr ht; omega
  · rintro rfl
    rcases ht with ht | ht | ht
    · have := List.count_pos_iff.mpr ht; omega
    · have := List.count_pos_iff.mpr ht; omega
    · have := List.count_pos_iff.mpr ht; omega

/-! ## Reachable sessions are closed under calls -/

theorem reachable_exec (E : Env) (s : CodeGenerator) (c : Call) (h : Reachable E s) :
    Reachable E (Call.exec E s c).st := by
  obtain ⟨pre, inc, mex, g, mn, rt, p, rfl⟩ := h
  refine ⟨pre, inc, mex, g, mn, rt, .attempt p (.call c .done), ?_⟩
  simp only [run]
  split <;> rfl

/-- The session after `copy_n`: untouched for a single element, and the copy auxiliary
ensured otherwise. -/
theorem copy_n_state (E : Env) (s : CodeGenerator) (arg : String) (arg_off n : Nat)
    (res : String) (res_off : Nat) :
    (copy_n E s arg arg_off n res res_off).2 =
      if n = 1 then s else addAuxiliary E s .AUX_COPY_N := by
  by_cases hn : n = 1
  · rw [copy_n]; simp [hn]
  · have base : ∀ a r, (copy_n E s a 0 n r 0).2 = addAuxiliary E s .AUX_COPY_N := by
      intro a r
      rw [copy_n]; simp [hn]
    have step : ∀ a r ro, (copy_n E s a 0 n r ro).2 = addAuxiliary E s .AUX_COPY_N := by
      intro a r ro
      by_cases hro : ro = 0
      · subst hro; exact base a r
      · rw [copy_n]; simp only [hn, if_false, ne_eq, not_true_eq_false, hro, not_false_eq_true,
          if_true]
        exact base _ _
    rw [if_neg hn]
    by_cases hao : arg_off = 0
    · subst hao; exact step arg res res_off
    · rw [copy_n]; simp only [hn, if_false, ne_eq, hao, not_false_eq_true, if_true]
      exact step _ _ _

/-- Reachable sessions are closed under `copy_n`. -/
theorem reachable_copy_n (E : Env) (s : CodeGenerator) (arg : String) (arg_off n : Nat)
    (res : String) (res_off : Nat) (h : Reachable E s) :
    Reachable E (casadi.copy_n E s arg arg_off n res res_off).2 := by
  rw [copy_n_state]
  split
  · exact h
  · exact reachable_exec E s (.addAuxiliary .AUX_COPY_N) h

/-! ## Workspace references -/

/-- A positive `int` is printed as the decimal digits of its value. -/
theorem numToString_pos (n : Int) (h : 0 ≤ n) : numToString n = toString n.toNat := by
  cases n with
  | ofNat m => rfl
  | negSucc m => exact absurd h (by simp [Int.negSucc_lt_zero])

/-! ## `copy_n` -/

/-- An offset in the range of `int` is printed in full by `numToString`. -/
theorem numToString_toInt (o : Nat) (h : o < 2 ^ 31) : numToString (toInt o) = toString o := by
  have h1 : o % 2 ^ 32 = o := Nat.mod_eq_of_lt (by omega)
  unfold toInt
  rw [h1, if_pos h]
  rfl

/-- The text `copy_n` returns for a count other than one: the call on the folded buffers. -/
theorem copy_n_text (E : Env) (s : CodeGenerator) (arg : String) (arg_off n : Nat)
    (res : String) (res_off : Nat) (hn : n ≠ 1) :
    (copy_n E s arg arg_off n res res_off).1 =
      "casadi_copy_n(" ++ foldOffset arg arg_off ++ ", " ++ toString n ++ ", "
        ++ foldOffset res res_off ++ ");" := by
  have base : ∀ a r, (copy_n E s a 0 n r 0).1 =
      "casadi_copy_n(" ++ a ++ ", " ++ toString n ++ ", " ++ r ++ ");" := by
    intro a r
    rw [copy_n]; simp [hn]
  have step : ∀ a r ro, (copy_n E s a 0 n r ro).1 =
      "casadi_copy_n(" ++ a ++ ", " ++ toString n ++ ", " ++ foldOffset r ro ++ ");" := by
    intro a r ro
    by_cases hro : ro = 0
    · subst hro; simpa [foldOffset] using base a r
    · rw [copy_n]
      simp only [hn, if_false, ne_eq, not_true_eq_false, hro, not_false_eq_true, if_true]
      simpa [foldOffset, hro] using base a _
  by_cases hao : arg_off = 0
  · subst hao; simpa [foldOffset] using step arg res res_off
  · rw [copy_n]
    simp only [hn, if_false, ne_eq, hao, not_false_eq_true, if_true]
    simpa [foldOffset, hao] using step _ res res_off

/-- For offsets in the range of `int` the recursive `copy_n` is its direct form. -/
theorem copy_n_eq_direct (E : Env) (s : CodeGenerator) (arg : String) (arg_off n : Nat)
    (res : String) (res_off : Nat) (hn : n ≠ 1) (ha : arg_off < 2 ^ 31)
    (hr : res_off < 2 ^ 31) :
    copy_n E s arg arg_off n res res_off = copy_n_direct E s arg arg_off n res res_off := by
  apply Prod.ext
  · rw [copy_n_text E s arg arg_off n res res_off hn]
    simp only [copy_n_direct, foldOffset, numToString_toInt _ ha, numToString_toInt _ hr]
  · rw [copy_n_state]
    simp [hn, copy_n_direct]

/-! ## `project` -/

/-- After `copy_n` with a count other than one on a reachable session the copy auxiliary is
in the auxiliary set and its text stands once in the auxiliary section. -/
theorem copy_n_ensures_auxiliary (E : Env) (s : CodeGenerator) (arg : String)
    (arg_off n : Nat) (res : String) (res_off : Nat) (hr : Reachable E s) (hn : n ≠ 1) :
    Auxiliary.AUX_COPY_N ∈ (copy_n E s arg arg_off n res res_off).2.added_auxiliaries_ ∧
    ∃ order : List Auxiliary,
      (copy_n E s arg arg_off n res res_off).2.auxiliaries_ = emitted E order ∧
      order.count .AUX_COPY_N = 1 := by
  rw [copy_n_state, if_neg hn]
  have hmem := mem_addAuxiliary E s .AUX_COPY_N
  obtain ⟨order, hnd, hm, htext, _⟩ :=
    addAuxiliary_auxOrdered E s .AUX_COPY_N (Reachable.auxOrdered E s hr)
  exact ⟨hmem, order, htext, List.count_eq_one_of_mem hnd ((hm _).mpr hmem)⟩

/-- The name `sparsity(sp)` returns is `s` followed by the index `addSparsity(sp)` returns,
and the session is the one `addSparsity(sp)` leaves. -/
theorem sparsity_eq (E : Env) (s : CodeGenerator) (sp : Sparsity) :
    ∃ i, (addSparsity E s sp).val = .ok i ∧
      sparsity E s sp = ⟨.ok ("s" ++ toString i), (addSparsity E s sp).st⟩ ∧
      getSparsity (addSparsity E s sp).st sp = .ok i := by
  cases hf : PointerMap.find s.added_sparsities_ sp.get with
  | some i =>
    refine ⟨i, by rw [addSparsity_old E s sp i hf], ?_, ?_⟩
    · simp only [sparsity, addSparsity_old E s sp i hf, Except.map]
      rw [numToString_pos _ (by omega)]
      rfl
    · rw [addSparsity_old E s sp i hf]
      exact getSparsity_of_find s sp i hf
  | none =>
    obtain ⟨c, _, h⟩ := addSparsity_new E s sp hf
    refine ⟨c, by rw [h], ?_, ?_⟩
    · simp only [sparsity, h, Except.map]
      rw [numToString_pos _ (by omega)]
      rfl
    · rw [h]
      exact getSparsity_of_find _ sp c (PointerMap.find_append_self _ _ _ hf)

theorem project_same (E : Env) (s : CodeGenerator) (arg : String) (arg_off : Nat)
    (sp_arg : Sparsity) (res : String) (res_off : Nat) (sp_res : Sparsity) (w : String)
    (h : sp_arg.equals sp_res = true) :
    project E s arg arg_off sp_arg res res_off sp_res w =
      ⟨.ok (copy_n E s arg arg_off sp_arg.nnz res res_off).1,
        (copy_n E s arg arg_off sp_arg.nnz res res_off).2⟩ := by
  rw [project]
  simp [h]

/-- The outcome of `project` for two patterns that are not equal: the auxiliary is ensured,
both patterns are registered, and the text is the call on the folded buffers and the two
pattern names, the workspace reference following the second name directly. -/
theorem project_distinct (E : Env) (s : CodeGenerator) (arg : String) (arg_off : Nat)
    (sp_arg : Sparsity) (res : String) (res_off : Nat) (sp_res : Sparsity) (w : String)
    (h : sp_arg.equals sp_res = false) :
    ∃ i j,
      project E s arg arg_off sp_arg res res_off sp_res w =
        ⟨.ok ("  casadi_project(" ++ foldOffset arg arg_off ++ ", " ++ ("s" ++ toString i)
            ++ ", " ++ foldOffset res res_off ++ ", " ++ ("s" ++ toString j) ++ w ++ ");"),
          (addSparsity E (addSparsity E (addAuxiliary E s .AUX_PROJECT) sp_arg).st sp_res).st⟩ ∧
      (addSparsity E (addAuxiliary E s .AUX_PROJECT) sp_arg).val = .ok i ∧
      (addSparsity E (addSparsity E (addAuxiliary E s .AUX_PROJECT) sp_arg).st sp_res).val
        = .ok j := by
  obtain ⟨i, hi, hs1, _⟩ := sparsity_eq E (addAuxiliary E s .AUX_PROJECT) sp_arg
  obtain ⟨j, hj, hs2, _⟩ :=
    sparsity_eq E (addSparsity E (addAuxiliary E s .AUX_PROJECT) sp_arg).st sp_res
  refine ⟨i, j, ?_, hi, hj⟩
  have base : ∀ a r, project E s a 0 sp_arg r 0 sp_res w =
      ⟨.ok ("  casadi_project(" ++ a ++ ", " ++ ("s" ++ toString i)
          ++ ", " ++ r ++ ", " ++ ("s" ++ toString j) ++ w ++ ");"),
        (addSparsity E (addSparsity E (addAuxiliary E s .AUX_PROJECT) sp_arg).st sp_res).st⟩ := by
    intro a r
    rw [project]
    simp only [h, Bool.false_eq_true, if_false, ne_eq, not_true_eq_false, hs1, hs2]
  have step : ∀ a r ro, project E s a 0 sp_arg r ro sp_res w =
      ⟨.ok ("  casadi_project(" ++ a ++ ", " ++ ("s" ++ toString i)
          ++ ", " ++ foldOffset r ro ++ ", " ++ ("s" ++ toString j) ++ w ++ ");"),
        (addSparsity E (addSparsity E (addAuxiliary E s .AUX_PROJECT) sp_arg).st sp_res).st⟩ := by
    intro a r ro
    by_cases hro : ro = 0
    · subst hro; simpa [foldOffset] using base a r
    · rw [project]
      simp only [h, Bool.false_eq_true, if_false, ne_eq, not_true_eq_false, hro,
        not_false_eq_true, if_true]
      simpa [foldOffset, hro] using base a _
  by_cases hao : arg_off = 0
  · subst hao; simpa [foldOffset] using step arg res res_off
  · rw [project]
    simp only [h, Bool.false_eq_true, if_false, ne_eq, hao, not_false_eq_true, if_true]
    simpa [foldOffset, hao] using step _ res res_off

/-! ## Numeric literals -/

theorem wrapInt_range (x : Int) : -(2 ^ 31) ≤ wrapInt x ∧ wrapInt x < 2 ^ 31 := by
  unfold wrapInt
  have h1 : (0 : Int) ≤ (x + 2 ^ 31) % 2 ^ 32 := Int.emod_nonneg _ (by norm_num)
  have h2 : (x + 2 ^ 31) % 2 ^ 32 < 2 ^ 32 := Int.emod_lt_of_pos _ (by norm_num)
  constructor <;> omega

/-- A finite value outside the range of `int` is written in scientific format, whatever the
conversion to `int` yields. -/
theorem constant_out_of_range (E : Env) (v : Double) (hn : v.isnan = false)
    (hi : v.isinf = false) (hr : ¬ (-(2 ^ 31) ≤ v.trunc ∧ v.trunc < 2 ^ 31)) :
    constant E v = scientific v := by
  unfold constant double_to_int
  simp only [hn, hi, Bool.false_eq_true, if_false, hr]
  have hw := wrapInt_range (E.double_to_int_ub v)
  have hne : v.trunc ≠ wrapInt (E.double_to_int_ub v) := by
    intro hc
    rw [hc] at hr
    exact hr hw
  have : (v.trunc == wrapInt (E.double_to_int_ub v)) = false := by
    simpa using hne
  simp [this]

/-- An integer-valued finite value in the range of `int` is written as that integer and a
point. -/
theorem constant_integer (E : Env) (v : Double) (hn : v.isnan = false) (hi : v.isinf = false)
    (hz : v.isInteger = true) (hr : -(2 ^ 31) ≤ v.trunc ∧ v.trunc < 2 ^ 31) :
    constant E v = toString v.trunc ++ "." := by
  unfold constant double_to_int
  rw [if_pos hr]
  simp [hn, hi, hz]

/-! ## The document -/

theorem foldl_append_string (acc : String) (l : List String) :
    l.foldl (fun r s => r ++ s) acc = acc ++ l.foldl (fun r s => r ++ s) "" := by
  induction l generalizing acc with
  | nil => simp
  | cons a l ih =>
    simp only [List.foldl_cons]
    rw [ih (acc ++ a), ih ("" ++ a)]
    simp [String.append_assoc]

theorem join_cons_string (a : String) (l : List String) :
    String.join (a :: l) = a ++ String.join l := by
  unfold String.join
  simp only [List.foldl_cons]
  rw [foldl_append_string]
  simp

theorem intercalate_go_eq (acc sep : String) (l : List String) :
    String.intercalate.go acc sep l = acc ++ String.join (l.map (fun x => sep ++ x)) := by
  induction l generalizing acc with
  | nil => simp [String.intercalate.go, String.join]
  | cons a l ih =>
    simp only [String.intercalate.go, List.map_cons, join_cons_string]
    rw [ih]
    simp [String.append_assoc]

theorem printElements_succ {α : Type} (f : α → String) (i : Nat) (l : List α) :
    printElements f (i + 1) l = String.join (l.map (fun x => ", " ++ f x)) := by
  induction l generalizing i with
  | nil => simp [printElements, String.join]
  | cons a l ih =>
    simp only [printElements, List.map_cons, join_cons_string]
    rw [ih]
    simp [String.append_assoc]

/-- The loop of `printVector` writes the elements separated by a comma and a blank. -/
theorem printElements_zero {α : Type} (f : α → String) (l : List α) :
    printElements f 0 l = ", ".intercalate (l.map f) := by
  cases l with
  | nil => simp [printElements, String.intercalate]
  | cons a l =>
    simp only [printElements, List.map_cons, String.intercalate]
    rw [printElements_succ, intercalate_go_eq]
    simp [List.map_map, Function.comp_def]

theorem printIntegerConstants_eq (i : Nat) (l : List (List Int)) :
    printIntegerConstants i l = String.join ((l.enumFrom i).map (fun p =>
      "int " ++ ("s" ++ toString p.1) ++ "[] = \x7b"
        ++ ", ".intercalate (p.2.map (fun x : Int => toString x)) ++ "\x7d;\n")) := by
  induction l generalizing i with
  | nil => simp [printIntegerConstants, String.join]
  | cons v l ih =>
    simp only [printIntegerConstants, List.enumFrom_cons, List.map_cons, join_cons_string]
    rw [ih]
    simp [printVectorInt, printElements_zero, endl, String.append_assoc]

theorem printDoubleConstants_eq (E : Env) (i : Nat) (l : List (List Double)) :
    printDoubleConstants E i l = String.join ((l.enumFrom i).map (fun p =>
      "d " ++ ("c" ++ toString p.1) ++ "[] = \x7b"
        ++ ", ".intercalate (p.2.map (constant E)) ++ "\x7d;\n")) := by
  induction l generalizing i with
  | nil => simp [printDoubleConstants, String.join]
  | cons v l ih =>
    simp only [printDoubleConstants, List.enumFrom_cons, List.map_cons, join_cons_string]
    rw [ih]
    simp [printVectorDouble, printElements_zero, endl, String.append_assoc]

/-- The document does not depend on the member `real_t`. -/
theorem generate_real_t (E : Env) (g : CodeGenerator) (T : String) :
    generate E { g with real_t := T } = generate E g := rfl

/-! ## The constructor -/

theorem readOption_unknown (E : Env) (s : CodeGenerator) (it : String × GenericType)
    (h : it.1 ∉ optionKeys) :
    CodeGenerator.readOption E s it = .error (.error ("Unrecongnized option: " ++ it.1)) := by
  simp only [optionKeys, List.mem_cons, List.mem_singleton, List.not_mem_nil, or_false,
    not_or] at h
  obtain ⟨h1, h2, h3, h4, h5, h6⟩ := h
  simp [CodeGenerator.readOption, h1, h2, h3, h4, h5, h6]

theorem lookup_none_of_not_mem (opts : List (String × GenericType)) (key : String)
    (h : key ∉ opts.map Prod.fst) : opts.lookup key = none := by
  rw [List.lookup_eq_none_iff]
  intro p hp
  simp only [bne_iff_ne, ne_eq]
  intro hc
  exact h (List.mem_map.mpr ⟨p, hp, hc.symm⟩)

theorem lookup_cons_ne (opts : List (String × GenericType)) (k key : String)
    (v : GenericType) (h : key ≠ k) : ((k, v) :: opts).lookup key = opts.lookup key := by
  rw [List.lookup_cons]
  have : (key == k) = false := by simpa using h
  rw [this]

/-- Reading a dictionary of recognized keys, each given once, sets the options given. -/
theorem readOptions_known (E : Env) (opts : List (String × GenericType))
    (s : CodeGenerator) (hk : ∀ it ∈ opts, it.1 ∈ optionKeys)
    (hnd : (opts.map Prod.fst).Nodup) :
    CodeGenerator.readOptions E s opts = .ok (applyOptions E s opts) := by
  induction opts generalizing s with
  | nil => rfl
  | cons it rest ih =>
    obtain ⟨k, v⟩ := it
    have hrest : ∀ it ∈ rest, it.1 ∈ optionKeys := fun it hit => hk it (List.mem_cons_of_mem _ hit)
    simp only [List.map_cons, List.nodup_cons] at hnd
    obtain ⟨hnot, hnd⟩ := hnd
    have hnone := lookup_none_of_not_mem rest k hnot
    have hkey := hk (k, v) (List.mem_cons_self _ _)
    simp only [optionKeys, List.mem_cons, List.mem_singleton, List.not_mem_nil, or_false]
      at hkey
    simp only [CodeGenerator.readOptions]
    rcases hkey with rfl | rfl | rfl | rfl | rfl | rfl <;>
      simp [CodeGenerator.readOption, ih _ hrest hnd, applyOptions, optionString, optionBool,
        hnone, lookup_cons_ne, List.lookup_cons_self]

/-- Reading a dictionary stops at its first unrecognized key. -/
theorem readOptions_unknown (E : Env) (opts : List (String × GenericType))
    (s : CodeGenerator) (h : ∃ it ∈ opts, it.1 ∉ optionKeys) :
    ∃ it ∈ opts, it.1 ∉ optionKeys ∧
      CodeGenerator.readOptions E s opts
        = .error (.error ("Unrecongnized option: " ++ it.1)) := by
  induction opts generalizing s with
  | nil =>
    obtain ⟨it, hit, _⟩ := h
    cases hit
  | cons it rest ih =>
    by_cases hit : it.1 ∈ optionKeys
    · have hrest : ∃ it ∈ rest, it.1 ∉ optionKeys := by
        obtain ⟨it1, hmem, hn⟩ := h
        rcases List.mem_cons.mp hmem with rfl | hmem
        · exact absurd hit hn
        · exact ⟨it1, hmem, hn⟩
      cases hro : CodeGenerator.readOption E s it with
      | error e =>
        exfalso
        simp only [optionKeys, List.mem_cons, List.mem_singleton, List.not_mem_nil, or_false]
          at hit
        rcases hit with h1 | h1 | h1 | h1 | h1 | h1 <;>
          simp [CodeGenerator.readOption, h1] at hro
      | ok s1 =>
        obtain ⟨it1, hmem, hn, he⟩ := ih s1 hrest
        refine ⟨it1, List.mem_cons_of_mem _ hmem, hn, ?_⟩
        simp only [CodeGenerator.readOptions, hro]
        exact he
    · refine ⟨it, List.mem_cons_self _ _, hit, ?_⟩
      simp only [CodeGenerator.readOptions, readOption_unknown E s it hit]

/-- The members of a freshly constructed session: the options as given, the include section
with the line of `stdio.h` if `main` and the line of `mex.h` if `mex`. -/
theorem init_members (E : Env) (pre inc : String) (mex cpp_guards main : Bool)
    (real_t : String) :
    CodeGenerator.init E pre inc mex cpp_guards main real_t =
      { CodeGenerator.blank pre inc mex cpp_guards main real_t with
        added_includes_ := (if main then ["stdio.h"] else []) ++ (if mex then ["mex.h"] else [])
        includes_ := (if main then includeLine E "stdio.h" else "")
          ++ (if mex then includeLine E "mex.h" else "") } := by
  cases main <;> cases mex <;> cases hr : E.relative_path_default <;>
    simp [CodeGenerator.init, CodeGenerator.blank, addInclude, includeLine, hr,
      String.append_assoc]

/-- The constructor on a dictionary of recognized keys, each given once. -/
theorem construct_known (E : Env) (opts : List (String × GenericType))
    (hk : ∀ it ∈ opts, it.1 ∈ optionKeys) (hnd : (opts.map Prod.fst).Nodup) :
    CodeGenerator.construct E opts = .ok (CodeGenerator.init E
      (optionString E opts "prefix" "") (optionString E opts "include" "")
      (optionBool E opts "mex" false) (optionBool E opts "cppguards" true)
      (optionBool E opts "main" false) (optionString E opts "real_t" "double")) := by
  unfold CodeGenerator.construct
  simp only [readOptions_known E opts _ hk hnd]
  rfl

/-! ## The index `getConstant` returns -/

/-- In a duplicate-free list an element has one position. -/
theorem nodup_index_unique {α : Type} (l : List α) (a : α) (i j : Nat) (hnd : l.Nodup)
    (hi : l[i]? = some a) (hj : l[j]? = some a) : i = j := by
  have h := List.nodup_iff_getElem?_ne_getElem?.mp hnd
  have hil : i < l.length := by
    by_contra hc
    rw [List.getElem?_eq_none (by omega)] at hi
    cases hi
  have hjl : j < l.length := by
    by_contra hc
    rw [List.getElem?_eq_none (by omega)] at hj
    cases hj
  rcases Nat.lt_trichotomy i j with hlt | heq | hgt
  · exact absurd (hi.trans hj.symm) (h i j hlt hjl)
  · exact heq
  · exact absurd (hj.trans hi.symm) (h j i hgt hil)

theorem getElem?_lt_length {α : Type} (l : List α) (a : α) (i : Nat) (h : l[i]? = some a) :
    i < l.length := by
  by_contra hc
  rw [List.getElem?_eq_none (by omega)] at h
  cases h

/-- Reachable sessions are closed under `project`. -/
theorem reachable_project (E : Env) (s : CodeGenerator) (arg : String) (arg_off : Nat)
    (sp_arg : Sparsity) (res : String) (res_off : Nat) (sp_res : Sparsity) (w : String)
    (h : Reachable E s) :
    Reachable E (project E s arg arg_off sp_arg res res_off sp_res w).st := by
  cases he : sp_arg.equals sp_res with
  | true =>
    rw [project_same E s arg arg_off sp_arg res res_off sp_res w he]
    exact reachable_copy_n E s arg arg_off sp_arg.nnz res res_off h
  | false =>
    obtain ⟨i, j, hp, _, _⟩ := project_distinct E s arg arg_off sp_arg res res_off sp_res w he
    rw [hp]
    exact reachable_exec E _ (.addSparsity sp_res)
      (reachable_exec E _ (.addSparsity sp_arg)
        (reachable_exec E s (.addAuxiliary .AUX_PROJECT) h))

/-- A session the constructor returns is reachable. -/
theorem reachable_construct (E : Env) (opts : List (String × GenericType))
    (g : CodeGenerator) (hnd : (opts.map Prod.fst).Nodup)
    (h : CodeGenerator.construct E opts = .ok g) : Reachable E g := by
  by_cases hk : ∀ it ∈ opts, it.1 ∈ optionKeys
  · rw [construct_known E opts hk hnd] at h
    injection h with h
    exact ⟨_, _, _, _, _, _, .done, h.symm⟩
  · have hex : ∃ it ∈ opts, it.1 ∉ optionKeys := by
      by_contra hc
      apply hk
      intro it hit
      by_contra hn
      exact hc ⟨it, hit, hn⟩
    obtain ⟨it, _, _, he⟩ := readOptions_unknown E opts
      (CodeGenerator.blank "" "" false true false "double") hex
    unfold CodeGenerator.construct at h
    simp only [he] at h
    cases h

/-! ## Growth of the session under the emitters -/

/-- The session after `fill_n`: untouched for a single element, and the fill auxiliary
ensured otherwise. -/
theorem fill_n_state (E : Env) (s : CodeGenerator) (res : String) (res_off n : Nat)
    (v : String) :
    (fill_n E s res res_off n v).2 = if n = 1 then s else addAuxiliary E s .AUX_FILL_N := by
  by_cases hn : n = 1
  · rw [fill_n]; simp [hn]
  · have base : ∀ r, (fill_n E s r 0 n v).2 = addAuxiliary E s .AUX_FILL_N := by
      intro r
      rw [fill_n]; simp [hn]
    rw [if_neg hn]
    by_cases hro : res_off = 0
    · subst hro; exact base res
    · rw [fill_n]; simp only [hn, if_false, ne_eq, hro, not_false_eq_true, if_true]
      exact base _

/-- The session after `casadi_dot`: the dot-product auxiliary is ensured. -/
theorem casadi_dot_state (E : Env) (s : CodeGenerator) (n : Int) (x : String) (inc_x : Int)
    (y : String) (inc_y : Int) :
    (casadi_dot E s n x inc_x y inc_y).2 = addAuxiliary E s .AUX_DOT := rfl

/-- The session after `printf`: the header of the print function is ensured. -/
theorem printf_state (E : Env) (s : CodeGenerator) (str : String) (arg : List String) :
    (printf E s str arg).2 =
      addInclude s (if s.mex then "mex.h" else "stdio.h") E.relative_path_default := by
  unfold printf
  cases s.mex <;> rfl

theorem copy_n_grows (E : Env) (s : CodeGenerator) (arg : String) (arg_off n : Nat)
    (res : String) (res_off : Nat) : Grows s (copy_n E s arg arg_off n res res_off).2 := by
  rw [copy_n_state]
  split
  · exact Grows.refl s
  · exact addAuxiliary_grows E s _

theorem fill_n_grows (E : Env) (s : CodeGenerator) (res : String) (res_off n : Nat)
    (v : String) : Grows s (fill_n E s res res_off n v).2 := by
  rw [fill_n_state]
  split
  · exact Grows.refl s
  · exact addAuxiliary_grows E s _

theorem casadi_dot_grows (E : Env) (s : CodeGenerator) (n : Int) (x : String) (inc_x : Int)
    (y : String) (inc_y : Int) : Grows s (casadi_dot E s n x inc_x y inc_y).2 :=
  addAuxiliary_grows E s _

theorem printf_grows (E : Env) (s : CodeGenerator) (str : String) (arg : List String) :
    Grows s (printf E s str arg).2 := by
  rw [printf_state]
  exact addInclude_grows s _ _

theorem project_grows (E : Env) (s : CodeGenerator) (arg : String) (arg_off : Nat)
    (sp_arg : Sparsity) (res : String) (res_off : Nat) (sp_res : Sparsity) (w : String) :
    Grows s (project E s arg arg_off sp_arg res res_off sp_res w).st := by
  cases he : sp_arg.equals sp_res with
  | true =>
    rw [project_same E s arg arg_off sp_arg res res_off sp_res w he]
    exact copy_n_grows E s arg arg_off sp_arg.nnz res res_off
  | false =>
    obtain ⟨i, j, hp, _, _⟩ := project_distinct E s arg arg_off sp_arg res res_off sp_res w he
    rw [hp]
    exact ((addAuxiliary_grows E s _).trans (addSparsity_grows E _ sp_arg)).trans
      (addSparsity_grows E _ sp_res)

/-- In a session that has grown, the pool entries are where they were. -/
theorem Grows.keepsEntries {s t : CodeGenerator} (h : Grows s t) : KeepsEntries s t := by
  obtain ⟨⟨x, hx⟩, ⟨y, hy⟩, _⟩ := h
  constructor
  · intro i v hv
    rw [hx]
    exact getElem?_of_prefix _ x i v hv
  · intro i v hv
    rw [hy]
    exact getElem?_of_prefix _ y i v hv

/-- Reachable sessions are closed under `fill_n`. -/
theorem reachable_fill_n (E : Env) (s : CodeGenerator) (res : String) (res_off n : Nat)
    (v : String) (h : Reachable E s) : Reachable E (fill_n E s res res_off n v).2 := by
  rw [fill_n_state]
  split
  · exact h
  · exact reachable_exec E s (.addAuxiliary .AUX_FILL_N) h

/-- Reachable sessions are closed under `casadi_dot`. -/
theorem reachable_casadi_dot (E : Env) (s : CodeGenerator) (n : Int) (x : String)
    (inc_x : Int) (y : String) (inc_y : Int) (h : Reachable E s) :
    Reachable E (casadi_dot E s n x inc_x y inc_y).2 :=
  reachable_exec E s (.addAuxiliary .AUX_DOT) h

/-- Reachable sessions are closed under `printf`. -/
theorem reachable_printf (E : Env) (s : CodeGenerator) (str : String) (arg : List String)
    (h : Reachable E s) : Reachable E (printf E s str arg).2 := by
  rw [printf_state]
  exact reachable_exec E s (.addInclude _ _) h

/-! ## The sparsity registry and the history -/

theorem registeredAs_append (L M : List Event) (h : Nat) :
    registeredAs (L ++ M) h = (registeredAs L h).or (registeredAs M h) := by
  simp [registeredAs, List.findSome?_append]

/-- A pattern registered under an identity has that identity and was passed to
`addSparsity`. -/
theorem registeredAs_some (L : List Event) (h : Nat) (sp : Sparsity)
    (hr : registeredAs L h = some sp) : sp.get = h ∧ Event.call (.addSparsity sp) ∈ L := by
  unfold registeredAs at hr
  obtain ⟨e, he, hreg⟩ := List.exists_of_findSome?_eq_some hr
  cases e with
  | call c =>
    cases c with
    | addSparsity sp0 =>
      simp only [Event.registers] at hreg
      split at hreg
      · injection hreg with hreg
        subst hreg
        exact ⟨by assumption, he⟩
      · cases hreg
    | _ => simp [Event.registers] at hreg
  | _ => simp [Event.registers] at hreg

/-- Events that are not calls of `addSparsity` register nothing. -/
theorem registeredAs_append_other (L M : List Event) (h : Nat)
    (hM : ∀ e, e ∈ M → Event.registers h e = none) :
    registeredAs (L ++ M) h = registeredAs L h := by
  rw [registeredAs_append]
  have : registeredAs M h = none := by
    unfold registeredAs
    rw [List.findSome?_eq_none_iff]
    exact hM
  rw [this]
  simp

theorem sparsityTables_congr {s t : CodeGenerator} {L M : List Event}
    (h1 : t.added_sparsities_ = s.added_sparsities_)
    (h2 : t.integer_constants_ = s.integer_constants_)
    (h3 : ∀ h, registeredAs M h = registeredAs L h) (hs : SparsityTables s L) :
    SparsityTables t M := by
  intro h
  rw [h1, h2, h3]
  exact hs h

/-- A call keeps the agreement of the sparsity registry with the history. -/
theorem Call.exec_sparsityTables (E : Env) (c : Call) (s : CodeGenerator) (L : List Event)
    (hs : SparsityTables s L) : SparsityTables (Call.exec E s c).st (L ++ [.call c]) := by
  intro h
  obtain ⟨hnone, hsome⟩ := hs h
  obtain ⟨⟨x, hx⟩, _, _, _, hreg, _, _⟩ := Call.exec_grows E c s
  rw [registeredAs_append]
  cases hL : registeredAs L h with
  | some sp0 =>
    simp only [Option.or_some]
    refine ⟨fun hc => (by cases hc), fun sp hsp => ?_⟩
    injection hsp with hsp
    subst hsp
    obtain ⟨i, hi, hp⟩ := hsome sp0 hL
    exact ⟨i, hreg _ _ hi, by rw [hx]; exact getElem?_of_prefix _ x i _ hp⟩
  | none =>
    have hf := hnone hL
    simp only [Option.none_or]
    by_cases hc : ∃ sp, c = .addSparsity sp ∧ sp.get = h
    · obtain ⟨sp0, rfl, rfl⟩ := hc
      have hreg0 : registeredAs [Event.call (.addSparsity sp0)] sp0.get = some sp0 := by
        simp [registeredAs, Event.registers]
      rw [hreg0]
      refine ⟨fun hc => (by cases hc), fun sp hsp => ?_⟩
      injection hsp with hsp
      subst hsp
      obtain ⟨k, hk, hst⟩ := addSparsity_new E s sp0 hf
      obtain ⟨i, hi, hent⟩ := getConstantInt_true_entry E s sp0.compress
      have hki : k = i := by
        rw [hk] at hi
        injection hi
      subst hki
      have hexec : (Call.exec E s (.addSparsity sp0)).st = (casadi.addSparsity E s sp0).st := rfl
      rw [hexec, hst]
      exact ⟨k, PointerMap.find_append_self _ _ _ hf, hent⟩
    · have hreg0 : registeredAs [Event.call c] h = none := by
        cases c with
        | addSparsity sp0 =>
          have : sp0.get ≠ h := fun hh => hc ⟨sp0, rfl, hh⟩
          simp [registeredAs, Event.registers, this]
        | _ => simp [registeredAs, Event.registers]
      rw [hreg0]
      refine ⟨fun _ => ?_, fun sp hsp => by cases hsp⟩
      by_cases hc1 : ∃ sp, c = .addSparsity sp
      · obtain ⟨sp0, rfl⟩ := hc1
        have hne : h ≠ sp0.get := fun hh => hc ⟨sp0, rfl, hh.symm⟩
        have hexec : (Call.exec E s (.addSparsity sp0)).st = (casadi.addSparsity E s sp0).st := rfl
        have hk := addSparsity_keys E s sp0 h
        rw [hexec]
        cases hfind : PointerMap.find (casadi.addSparsity E s sp0).st.added_sparsities_ h with
        | none => rfl
        | some j =>
          rw [hfind] at hk
          rcases hk.1 rfl with hh | hh
          · exact absurd hh hne
          · rw [hf] at hh
            cases hh
      · rw [Call.exec_sparsities E c s (fun sp hsp => hc1 ⟨sp, hsp⟩)]
        exact hf

/-- Along a run the sparsity registry agrees with the history. -/
theorem run_sparsityTables (E : Env) (p : Prog) (s : CodeGenerator) (L : List Event)
    (hs : SparsityTables s L) : SparsityTables (run E p s).st (L ++ (run E p s).log) := by
  refine run_history E SparsityTables ?_ ?_ ?_ ?_ p s L hs
  · intro c s L h
    exact Call.exec_sparsityTables E c s L h
  · intro s L g i _ h
    exact sparsityTables_congr rfl rfl
      (fun h => registeredAs_append_other _ _ h (by simp [Event.registers])) h
  · intro s L g _ h
    exact sparsityTables_congr rfl rfl
      (fun h => registeredAs_append_other _ _ h (by simp [Event.registers])) h
  · intro s L g name _ h
    exact sparsityTables_congr rfl rfl
      (fun h => registeredAs_append_other _ _ h (by simp [Event.registers])) h

/-- In a freshly constructed session nothing is registered. -/
theorem init_sparsityTables (E : Env) (pre inc : String) (mex cpp_guards main : Bool)
    (real_t : String) :
    SparsityTables (CodeGenerator.init E pre inc mex cpp_guards main real_t) [] := by
  intro h
  have h1 := (CodeGenerator.init_registries E pre inc mex cpp_guards main real_t).1
  refine ⟨fun _ => by rw [h1]; rfl, fun sp hsp => ?_⟩
  simp [registeredAs] at hsp

/-! ## Decimal numerals -/

/-- The code of a decimal digit character, less the code of the digit zero, is the digit. -/
theorem digitChar_toNat (m : Nat) (h : m < 10) : (Nat.digitChar m).toNat - 48 = m := by
  interval_cases m <;> rfl

theorem toDigitsCore_value (fuel : Nat) :
    ∀ (n : Nat) (ds : List Char), n < fuel →
      (Nat.toDigitsCore 10 fuel n ds).foldl (fun a c => 10 * a + (c.toNat - 48)) 0
        = ds.foldl (fun a c => 10 * a + (c.toNat - 48)) n := by
  induction fuel with
  | zero => intro n ds h; omega
  | succ fuel ih =>
    intro n ds h
    simp only [Nat.toDigitsCore]
    split
    · rename_i h0
      have hn : n % 10 = n := by omega
      simp only [List.foldl_cons, digitChar_toNat (n % 10) (Nat.mod_lt _ (by decide))]
      rw [hn]
      simp
    · rename_i h0
      rw [ih (n / 10) _ (by omega)]
      simp only [List.foldl_cons, digitChar_toNat (n % 10) (Nat.mod_lt _ (by decide))]
      have : 10 * (n / 10) + n % 10 = n := Nat.div_add_mod n 10
      rw [this]

/-- Distinct numbers have distinct decimal numerals. -/
theorem toString_nat_injective (i j : Nat) (h : toString i = toString j) : i = j := by
  have h1 : (Nat.toDigits 10 i).asString = (Nat.toDigits 10 j).asString := h
  have h2 : Nat.toDigits 10 i = Nat.toDigits 10 j := by
    have := congrArg String.data h1
    simpa [List.asString] using this
  have hi := toDigitsCore_value (i + 1) i [] (by omega)
  have hj := toDigitsCore_value (j + 1) j [] (by omega)
  simp only [List.foldl_nil] at hi hj
  unfold Nat.toDigits at h2
  rw [← hi, ← hj, h2]

theorem name_injective (c : String) (i j : Nat) (h : c ++ toString i = c ++ toString j) :
    i = j := by
  apply toString_nat_injective
  have := congrArg String.data h
  simp only [String.data_append] at this
  exact String.ext (List.append_cancel_left this)

theorem name_s_ne_c (x y : String) : "s" ++ x ≠ "c" ++ y := by
  intro h
  have := congrArg String.data h
  simp only [String.data_append] at this
  simp at this

/-! ## The declarations of the document -/

theorem integerDeclarations_names (i : Nat) (l : List (List Int)) :
    (integerDeclarations i l).map (fun d => d.1)
      = (List.range' i l.length).map (fun k => "s" ++ toString k) := by
  induction l generalizing i with
  | nil => rfl
  | cons v l ih => simp [integerDeclarations, List.range'_succ, ih]

theorem doubleDeclarations_names (i : Nat) (l : List (List Double)) :
    (doubleDeclarations i l).map (fun d => d.1)
      = (List.range' i l.length).map (fun k => "c" ++ toString k) := by
  induction l generalizing i with
  | nil => rfl
  | cons v l ih => simp [doubleDeclarations, List.range'_succ, ih]

/-- No two tables of the document have the same name. -/
theorem declaredNames_nodup (g : CodeGenerator) : (declaredNames g).Nodup := by
  unfold declaredNames
  rw [integerDeclarations_names, doubleDeclarations_names]
  refine List.Nodup.append ?_ ?_ ?_
  · exact (List.nodup_range' _ _).map (fun i j h => name_injective "s" i j h)
  · exact (List.nodup_range' _ _).map (fun i j h => name_injective "c" i j h)
  · intro x hx hy
    simp only [List.mem_map] at hx hy
    obtain ⟨i, _, rfl⟩ := hx
    obtain ⟨j, _, hj⟩ := hy
    exact name_s_ne_c _ _ hj.symm

/-- The entry `i` of the pool is declared under the name `s` followed by `i`. -/
theorem integerDeclarations_mem (k : Nat) (l : List (List Int)) (i : Nat) (v : List Int)
    (h : l[i]? = some v) : ("s" ++ toString (k + i), v) ∈ integerDeclarations k l := by
  induction l generalizing k i with
  | nil => simp at h
  | cons w l ih =>
    cases i with
    | zero =>
      simp only [List.getElem?_cons_zero, Option.some.injEq] at h
      subst h
      simp [integerDeclarations]
    | succ i =>
      simp only [List.getElem?_cons_succ] at h
      have := ih (k + 1) i h
      simp only [integerDeclarations, List.mem_cons]
      right
      rw [show k + (i + 1) = k + 1 + i by omega]
      exact this

theorem printIntegerConstants_declarations (k : Nat) (l : List (List Int)) :
    printIntegerConstants k l
      = String.join ((integerDeclarations k l).map (fun d => printVectorInt d.1 d.2)) := by
  induction l generalizing k with
  | nil => simp [printIntegerConstants, integerDeclarations, String.join]
  | cons v l ih =>
    simp only [printIntegerConstants, integerDeclarations, List.map_cons, join_cons_string]
    rw [ih]

theorem printDoubleConstants_declarations (E : Env) (k : Nat) (l : List (List Double)) :
    printDoubleConstants E k l
      = String.join ((doubleDeclarations k l).map (fun d => printVectorDouble E d.1 d.2)) := by
  induction l generalizing k with
  | nil => simp [printDoubleConstants, doubleDeclarations, String.join]
  | cons v l ih =>
    simp only [printDoubleConstants, doubleDeclarations, List.map_cons, join_cons_string]
    rw [ih]

/-- The declarations of the integer pool around the entry `i`. -/
theorem printIntegerConstants_split (k : Nat) (l : List (List Int)) (i : Nat) (v : List Int)
    (h : l[i]? = some v) :
    printIntegerConstants k l = printIntegerConstants k (l.take i)
      ++ (printVectorInt ("s" ++ toString (k + i)) v
        ++ printIntegerConstants (k + i + 1) (l.drop (i + 1))) := by
  induction l generalizing k i with
  | nil => simp at h
  | cons w l ih =>
    cases i with
    | zero =>
      simp only [List.getElem?_cons_zero, Option.some.injEq] at h
      subst h
      simp [printIntegerConstants]
    | succ i =>
      simp only [List.getElem?_cons_succ] at h
      have := ih (k + 1) i h
      simp only [printIntegerConstants, List.take_succ_cons, List.drop_succ_cons]
      rw [this, show k + (i + 1) = k + 1 + i by omega, String.append_assoc]

/-- The declarations of the integer pool are whole lines. -/
theorem printIntegerConstants_lines (k : Nat) (l : List (List Int)) :
    printIntegerConstants k l = "" ∨ ∃ u, printIntegerConstants k l = u ++ "\n" := by
  induction l generalizing k with
  | nil => left; rfl
  | cons v l ih =>
    right
    simp only [printIntegerConstants, printVectorInt, endl]
    rcases ih (k + 1) with h | ⟨u, h⟩
    · rw [h]
      exact ⟨_, String.append_empty _⟩
    · rw [h]
      exact ⟨_, (String.append_assoc _ _ _).symm⟩

theorem auxText_line (E : Env) (t : Auxiliary) : ∃ u, auxText E t = u ++ "\n" := by
  cases t
  case AUX_SQ => exact ⟨_, (String.append_assoc _ _ _).symm⟩
  case AUX_SIGN => exact ⟨_, (String.append_assoc _ _ _).symm⟩
  case AUX_TO_MEX =>
    have h : ("\x7d\n\n" : String) = "\x7d\n" ++ "\n" := by decide
    unfold auxText str_to_mex
    rw [h]
    exact ⟨_, (String.append_assoc _ _ _).symm⟩
  case AUX_FROM_MEX =>
    have h : ("\x7d\n\n" : String) = "\x7d\n" ++ "\n" := by decide
    unfold auxText str_from_mex
    rw [h]
    exact ⟨_, (String.append_assoc _ _ _).symm⟩
  all_goals exact ⟨_, rfl⟩

/-- The auxiliary texts are whole lines. -/
theorem emitted_lines (E : Env) (order : List Auxiliary) :
    emitted E order = "" ∨ ∃ u, emitted E order = u ++ "\n" := by
  induction order with
  | nil => left; rfl
  | cons t ts ih =>
    right
    obtain ⟨w, hw⟩ := auxText_line E t
    simp only [emitted]
    rcases ih with h | ⟨u, h⟩
    · rw [h, hw]
      exact ⟨_, String.append_empty _⟩
    · rw [h]
      exact ⟨_, (String.append_assoc _ _ _).symm⟩

/-- The document around its constant tables: what precedes the auxiliary text ends a line. -/
theorem generate_sections (E : Env) (g : CodeGenerator) :
    ∃ u back, generate E g = u ++ "\n" ++ g.auxiliaries_
      ++ printIntegerConstants 0 g.integer_constants_
      ++ printDoubleConstants E 0 g.double_constants_ ++ back := by
  refine ⟨"/* This function was automatically generated by CasADi */\n"
      ++ (if g.cpp_guards then "#ifdef __cplusplus\nextern \"C\" \x7b\n#endif\n\n" else "")
      ++ g.includes_ ++ "\n" ++ "#define d double\n",
    g.functions
      ++ (if g.mex then
          "void mexFunction(int resc, mxArray *resv[], int argc, const mxArray *argv[]) \x7b\n"
            ++ "  mex_eval(resc, resv, argc, argv);\n\x7d\n\n"
          else "")
      ++ (if g.main then
          "int main(int argc, char* argv[]) \x7b\n  return main_eval(argc, argv);\n\x7d\n\n"
          else "")
      ++ g.finalization_
      ++ (if g.cpp_guards then "#ifdef __cplusplus\n\x7d /* extern \"C\" */\n#endif\n" else "")
      ++ "\n", ?_⟩
  unfold generate
  cases g.cpp_guards <;> cases g.mex <;> cases g.main <;>
    simp [endl, String.append_assoc]

/-- In a reachable session, the pool entry `i` is declared on a line of its own in the
document. -/
theorem generate_line (E : Env) (g : CodeGenerator) (hr : Reachable E g) (i : Nat)
    (v : List Int) (h : g.integer_constants_[i]? = some v) :
    ∃ a b, generate E g = a ++ "\n"
      ++ ("int " ++ ("s" ++ toString i) ++ "[] = \x7b"
        ++ ", ".intercalate (v.map (fun x : Int => toString x)) ++ "\x7d;") ++ "\n" ++ b := by
  obtain ⟨u, back, hg⟩ := generate_sections E g
  obtain ⟨order, _, _, haux, _⟩ := Reachable.auxOrdered E g hr
  have hsplit := printIntegerConstants_split 0 g.integer_constants_ i v h
  simp only [Nat.zero_add] at hsplit
  have hpre : ∃ a, u ++ "\n" ++ g.auxiliaries_
      ++ printIntegerConstants 0 (g.integer_constants_.take i) = a ++ "\n" := by
    have h1 : ∃ a, u ++ "\n" ++ g.auxiliaries_ = a ++ "\n" := by
      rw [haux]
      rcases emitted_lines E order with h0 | ⟨w, h0⟩
      · rw [h0]; exact ⟨u, String.append_empty _⟩
      · rw [h0]; exact ⟨_, (String.append_assoc _ _ _).symm⟩
    obtain ⟨a, ha⟩ := h1
    rw [ha]
    rcases printIntegerConstants_lines 0 (g.integer_constants_.take i) with h0 | ⟨w, h0⟩
    · rw [h0]; exact ⟨a, String.append_empty _⟩
    · rw [h0]; exact ⟨_, (String.append_assoc _ _ _).symm⟩
  obtain ⟨a, ha⟩ := hpre
  refine ⟨a, printIntegerConstants (i + 1) (g.integer_constants_.drop (i + 1))
    ++ (printDoubleConstants E 0 g.double_constants_ ++ back), ?_⟩
  rw [hg, hsplit, ← ha]
  simp only [printVectorInt, printElements_zero, endl, String.append_assoc]

/-! # Main results -/

/-- C1: for every integer vector `v` and every session a program can be in, `getConstant(v,
true)` called twice in a row returns the same index `i` both times, and so does every further
call; after any number `k` of such calls the integer pool is at most one entry longer than
before the first call: it is the old pool with `v` appended if `v` was absent, and the old
pool itself if `v` was present. -/
theorem getConstant_int_repeated (E : Env) (s : CodeGenerator) (hr : Reachable E s)
    (v : List Int) :
    ∃ i,
      (getConstantInt E s v true).val = .ok i ∧
      (getConstantInt E (getConstantInt E s v true).st v true).val = .ok i ∧
      ∀ k,
        (getConstantInt E (getConstantInt_repeat E v k s) v true).val = .ok i ∧
        (getConstantInt_repeat E v k s).integer_constants_.length
          ≤ s.integer_constants_.length + 1 ∧
        (v ∉ s.integer_constants_ →
          (getConstantInt_repeat E v (k + 1) s).integer_constants_
            = s.integer_constants_ ++ [v]) ∧
        (v ∈ s.integer_constants_ →
          (getConstantInt_repeat E v k s).integer_constants_ = s.integer_constants_) := by
  obtain ⟨i, hi⟩ := getConstantInt_repeat_spec E s v (Reachable.intPoolWF E s hr).1
  have hlen : ∀ k, (getConstantInt_repeat E v k s).integer_constants_.length
      ≤ s.integer_constants_.length + 1 := by
    intro k
    cases k with
    | zero => simp [getConstantInt_repeat]
    | succ n =>
      rw [(hi n).2]
      split <;> simp
  refine ⟨i, (hi 0).1, (hi 1).1, fun k => ⟨(hi k).1, hlen k, ?_, ?_⟩⟩
  · intro hv
    rw [(hi k).2, if_neg hv]
  · intro hv
    cases k with
    | zero => rfl
    | succ n => rw [(hi n).2, if_pos hv]

/-- C1, at the sample session for a vector that collides with two pool entries. -/
theorem getConstant_int_repeated_witness :
    Reachable sampleEnv sampleSession ∧
    ∃ i,
      (getConstantInt sampleEnv sampleSession [5, 6] true).val = .ok i ∧
      (getConstantInt sampleEnv (getConstantInt sampleEnv sampleSession [5, 6] true).st
        [5, 6] true).val = .ok i :=
  ⟨sampleSession_reachable,
    match getConstant_int_repeated sampleEnv sampleSession sampleSession_reachable [5, 6] with
    | ⟨i, h1, h2, _⟩ => ⟨i, h1, h2⟩⟩

/-- C2: for every floating vector `v`, given by the bit patterns of its elements, and every
session a program can be in, on a platform where `sizeof(double)` is a multiple of
`sizeof(size_t)`: `getConstant(v, true)` called twice returns the same index `i`, as does
every further call; after any number of such calls the floating pool is the old pool, with
`v` appended if it was absent; and a second vector `w` interned afterwards receives the index
of `v` exactly if `w` and `v` have the same bit patterns. -/
theorem getConstant_double_repeated (E : Env) (s : CodeGenerator) (hr : Reachable E s)
    (hp : E.sizeof_double % E.sizeof_size_t = 0) (v : List Double) :
    ∃ i,
      (getConstantDouble E s v true).val = .ok i ∧
      (getConstantDouble E (getConstantDouble E s v true).st v true).val = .ok i ∧
      (∀ k,
        (getConstantDouble E (getConstantDouble_repeat E v k s) v true).val = .ok i ∧
        (getConstantDouble_repeat E v k s).double_constants_.length
          ≤ s.double_constants_.length + 1 ∧
        (v ∉ s.double_constants_ →
          (getConstantDouble_repeat E v (k + 1) s).double_constants_
            = s.double_constants_ ++ [v]) ∧
        (v ∈ s.double_constants_ →
          (getConstantDouble_repeat E v k s).double_constants_ = s.double_constants_)) ∧
      ∀ w, ∃ j,
        (getConstantDouble E (getConstantDouble E s v true).st w true).val = .ok j ∧
        (j = i ↔ w = v) := by
  have hinv := (Reachable.doublePoolWF E s hr).1
  obtain ⟨k0, hk0⟩ := hashDouble_ok E hp v
  obtain ⟨i, hi⟩ := getConstantDouble_repeat_spec E s v k0 hk0 hinv
  have hlen : ∀ k, (getConstantDouble_repeat E v k s).double_constants_.length
      ≤ s.double_constants_.length + 1 := by
    intro k
    cases k with
    | zero => simp [getConstantDouble_repeat]
    | succ n =>
      rw [(hi n).2]
      split <;> simp
  refine ⟨i, (hi 0).1, (hi 1).1, fun k => ⟨(hi k).1, hlen k, ?_, ?_⟩, ?_⟩
  · intro hv
    rw [(hi k).2, if_neg hv]
  · intro hv
    cases k with
    | zero => rfl
    | succ n => rw [(hi n).2, if_pos hv]
  · intro w
    obtain ⟨i1, hi1, hent, hinv1⟩ := getConstantDouble_true_entry E s v k0 hk0 hinv
    have hii : i1 = i := by
      have := (hi 0).1
      simp only [getConstantDouble_repeat] at this
      rw [hi1] at this
      injection this
    subst hii
    have hsecond : (getConstantDouble E (getConstantDouble E s v true).st v true).val
        = .ok i1 := (hi 1).1
    obtain ⟨kw, hkw⟩ := hashDouble_ok E hp w
    rcases getConstantDouble_true_wf E _ w kw hkw hinv1 with ⟨_, j, hj, hjw⟩ | ⟨hw, hadd⟩
    · refine ⟨j, by rw [hj], ?_⟩
      constructor
      · intro hji
        subst hji
        rw [hent] at hjw
        injection hjw with hjw
        exact hjw.symm
      · intro hwv
        subst hwv
        rw [hj] at hsecond
        injection hsecond
    · refine ⟨_, by rw [hadd], ?_⟩
      constructor
      · intro hji
        rw [← hji] at hent
        simp at hent
      · intro hwv
        subst hwv
        exact absurd (List.mem_iff_getElem?.mpr ⟨i1, hent⟩) hw

/-- C2, at the sample session for a vector holding a NaN pattern and a negative zero. -/
theorem getConstant_double_repeated_witness :
    Reachable sampleEnv sampleSession ∧ sampleEnv.sizeof_double % sampleEnv.sizeof_size_t = 0 ∧
    ∃ i,
      (getConstantDouble sampleEnv sampleSession
        [⟨0x7FF8000000000000⟩, ⟨0x8000000000000000⟩] true).val = .ok i ∧
      (getConstantDouble sampleEnv (getConstantDouble sampleEnv sampleSession
        [⟨0x7FF8000000000000⟩, ⟨0x8000000000000000⟩] true).st
        [⟨0x7FF8000000000000⟩, ⟨0x8000000000000000⟩] true).val = .ok i :=
  ⟨sampleSession_reachable, rfl,
    match getConstant_double_repeated sampleEnv sampleSession sampleSession_reachable rfl
      [⟨0x7FF8000000000000⟩, ⟨0x8000000000000000⟩] with
    | ⟨i, h1, h2, _⟩ => ⟨i, h1, h2⟩⟩

/-- C3: for every integer vector `v` and every session a program can be in, `getConstant(v,
false)` throws exactly if no entry of the pool equals `v`, and then it throws the error
"Constant not found"; whether it throws or returns, the session (the pool and its hash index
included) is left as it was; and an index it returns is the position of an entry equal
to `v`. -/
theorem getConstant_no_adding (E : Env) (s : CodeGenerator) (hr : Reachable E s)
    (v : List Int) :
    ((getConstantInt E s v false).val = .error (.error "Constant not found")
      ↔ ∀ w ∈ s.integer_constants_, w ≠ v) ∧
    (∀ e, (getConstantInt E s v false).val = .error e → e = .error "Constant not found") ∧
    (getConstantInt E s v false).st = s ∧
    (∀ i, (getConstantInt E s v false).val = .ok i → s.integer_constants_[i]? = some v) := by
  have hinv := (Reachable.intPoolWF E s hr).1
  by_cases hv : v ∈ s.integer_constants_
  · obtain ⟨i, hi, hiv⟩ := getConstantInt_of_mem E s v false hinv hv
    rw [hi]
    refine ⟨⟨fun h => (by cases h), fun h => absurd rfl (h v hv)⟩, fun e h => (by cases h),
      rfl, ?_⟩
    intro j hj
    injection hj with hj
    subst hj
    exact hiv
  · rw [getConstantInt_missing E s v (locate_eq_none_of_not_mem _ _ _ hv)]
    refine ⟨⟨fun _ w hw hwv => hv (hwv ▸ hw), fun _ => rfl⟩, ?_, rfl,
      fun i h => (by cases h)⟩
    intro e h
    injection h with h
    exact h.symm

/-- C3, at the sample session: `[5]` is absent and the lookup throws. -/
theorem getConstant_no_adding_witness :
    Reachable sampleEnv sampleSession ∧
    ((getConstantInt sampleEnv sampleSession [5] false).val
        = .error (.error "Constant not found")
      ↔ ∀ w ∈ sampleSession.integer_constants_, w ≠ [5]) ∧
    (getConstantInt sampleEnv sampleSession [5] false).st = sampleSession :=
  ⟨sampleSession_reachable,
    (getConstant_no_adding sampleEnv sampleSession sampleSession_reachable [5]).1,
    (getConstant_no_adding sampleEnv sampleSession sampleSession_reachable [5]).2.2.1⟩

/-- C4: in every session a program can be in (reached from a freshly constructed session by
any client code, in particular by any sequence of `getConstant` and `addSparsity` calls) no
two entries of the integer pool are equal vectors, whatever the hash function and however
many vectors collide: every pool position is recorded in the hash multimap under the hash of
its entry, and a lookup of a vector that is in the pool returns the position of an equal entry
and adds nothing. -/
theorem integer_pool_distinct (E : Env) (s : CodeGenerator) (hr : Reachable E s) :
    s.integer_constants_.Nodup ∧
    (∀ i w, s.integer_constants_[i]? = some w →
      (hashInt E w, i) ∈ s.added_integer_constants_) ∧
    (∀ v a, v ∈ s.integer_constants_ →
      ∃ i, getConstantInt E s v a = ⟨.ok i, s⟩ ∧ s.integer_constants_[i]? = some v) := by
  obtain ⟨hinv, hnd⟩ := Reachable.intPoolWF E s hr
  refine ⟨hnd, ?_, fun v a hv => getConstantInt_of_mem E s v a hinv hv⟩
  intro i w hw
  obtain ⟨k, hk, hm⟩ := hinv.2 i w hw
  injection hk with hk
  subst hk
  exact hm

/-- C4, at the sample session, whose two integer vectors of length two share a hash. -/
theorem integer_pool_distinct_witness :
    Reachable sampleEnv sampleSession ∧ sampleSession.integer_constants_.Nodup :=
  ⟨sampleSession_reachable, (integer_pool_distinct sampleEnv sampleSession
    sampleSession_reachable).1⟩

/-- C5: for every sparsity pattern `sp` and every session in which `sp` is not yet
registered, the first `addSparsity(sp)` returns an index `i` such that entry `i` of the
integer pool equals `sp.compress()`; after any client code run since then, `addSparsity(sp)`
returns the same `i` and leaves the whole session (pool and registry included) as it is,
`getSparsity(sp)` returns `i`, and entry `i` of the pool is still `sp.compress()`. -/
theorem addSparsity_registers (E : Env) (s : CodeGenerator) (sp : Sparsity)
    (hnew : PointerMap.find s.added_sparsities_ sp.get = none) :
    ∃ i, (addSparsity E s sp).val = .ok i ∧
      (addSparsity E s sp).st.integer_constants_[i]? = some sp.compress ∧
      ∀ p : Prog,
        addSparsity E (run E p (addSparsity E s sp).st).st sp
          = ⟨.ok i, (run E p (addSparsity E s sp).st).st⟩ ∧
        getSparsity (run E p (addSparsity E s sp).st).st sp = .ok i ∧
        (run E p (addSparsity E s sp).st).st.integer_constants_[i]? = some sp.compress := by
  obtain ⟨c, hc, h⟩ := addSparsity_new E s sp hnew
  obtain ⟨i, hi, hent⟩ := getConstantInt_true_entry E s sp.compress
  have hci : c = i := by
    rw [hc] at hi
    injection hi
  subst hci
  have hfind : PointerMap.find (addSparsity E s sp).st.added_sparsities_ sp.get = some c := by
    rw [h]
    exact PointerMap.find_append_self _ _ _ hnew
  have hpool : (addSparsity E s sp).st.integer_constants_[c]? = some sp.compress := by
    rw [h]
    exact hent
  refine ⟨c, by rw [h], hpool, fun p => ?_⟩
  obtain ⟨⟨x, hx⟩, _, _, _, hreg, _, _⟩ := run_grows E p (addSparsity E s sp).st
  have hfind2 := hreg _ _ hfind
  refine ⟨addSparsity_old E _ sp c hfind2, getSparsity_of_find _ sp c hfind2, ?_⟩
  rw [hx]
  exact getElem?_of_prefix _ x c _ hpool

/-- C5, at the sample session for a pattern not registered there, followed by the sample
client. -/
theorem addSparsity_registers_witness :
    PointerMap.find sampleSession.added_sparsities_ (Sparsity.mk 9 [1, 1, 0, 1, 0] 1).get = none ∧
    ∃ i, (addSparsity sampleEnv sampleSession ⟨9, [1, 1, 0, 1, 0], 1⟩).val = .ok i ∧
      getSparsity (run sampleEnv sampleProg
        (addSparsity sampleEnv sampleSession ⟨9, [1, 1, 0, 1, 0], 1⟩).st).st
        ⟨9, [1, 1, 0, 1, 0], 1⟩ = .ok i :=
  ⟨by decide,
    match addSparsity_registers sampleEnv sampleSession ⟨9, [1, 1, 0, 1, 0], 1⟩ (by decide) with
    | ⟨i, h1, _, h3⟩ => ⟨i, h1, (h3 sampleProg).2.1⟩⟩

/-- C6: in the session left by any client code run on a freshly constructed session,
`getSparsity(sp)` faults exactly if `addSparsity` was never called for the pattern `sp` in
that run, and `getDependency(f)` faults exactly if `addDependency` was never called for the
function `f`; both leave the session as it is, whether they fault or return. -/
theorem lookups_fault_iff_unregistered (E : Env) (pre inc : String)
    (mex cpp_guards main : Bool) (real_t : String) (p : Prog) (sp : Sparsity) (f_get : Nat) :
    ((∃ e, getSparsity
        (run E p (CodeGenerator.init E pre inc mex cpp_guards main real_t)).st sp = .error e) ↔
      ∀ sp1, Event.call (.addSparsity sp1) ∈
        (run E p (CodeGenerator.init E pre inc mex cpp_guards main real_t)).log →
        sp1.get ≠ sp.get) ∧
    ((∃ e, getDependency
        (run E p (CodeGenerator.init E pre inc mex cpp_guards main real_t)).st f_get
          = .error e) ↔
      Event.addDependency f_get ∉
        (run E p (CodeGenerator.init E pre inc mex cpp_guards main real_t)).log) ∧
    (Call.exec E (run E p (CodeGenerator.init E pre inc mex cpp_guards main real_t)).st
        (.getSparsity sp)).st
      = (run E p (CodeGenerator.init E pre inc mex cpp_guards main real_t)).st ∧
    (Call.exec E (run E p (CodeGenerator.init E pre inc mex cpp_guards main real_t)).st
        (.getDependency f_get)).st
      = (run E p (CodeGenerator.init E pre inc mex cpp_guards main real_t)).st := by
  obtain ⟨h1, h2, _, _⟩ := CodeGenerator.init_registries E pre inc mex cpp_guards main real_t
  obtain ⟨hs, hd⟩ := run_registries E p
    (CodeGenerator.init E pre inc mex cpp_guards main real_t) []
    (by intro h; rw [h1]; simp [PointerMap.find])
    (by intro g; rw [h2]; simp [PointerMap.find])
  simp only [List.nil_append] at hs hd
  refine ⟨?_, ?_, rfl, rfl⟩
  · rw [getSparsity_error_iff, Bool.eq_false_iff, Ne, hs sp.get]
    constructor
    · intro h sp1 hm hg
      exact h ⟨sp1, hm, hg⟩
    · rintro h ⟨sp1, hm, hg⟩
      exact h sp1 hm hg
  · rw [getDependency_error_iff, Bool.eq_false_iff, Ne, hd f_get]

/-- C7: for every client code run on a freshly constructed session, however its
`addDependency` calls are nested in the callbacks of other functions: two calls return the
same index exactly if they are for the same function, and two registered functions with the
same index are the same function; for a function `g` passed to `addDependency` at least once,
however often, the callback `generateFunction` was invoked exactly once, its index `i` is the
one every `addDependency(g)` returns, and the name the callback received is `f` followed by
`i` in decimal; and every invocation directly follows the first `addDependency` of its
function. -/
theorem addDependency_once (E : Env) (pre inc : String) (mex cpp_guards main : Bool)
    (real_t : String) (p : Prog) :
    (∀ g1 i1 g2 i2,
      Event.returned g1 i1 ∈
        (run E p (CodeGenerator.init E pre inc mex cpp_guards main real_t)).log →
      Event.returned g2 i2 ∈
        (run E p (CodeGenerator.init E pre inc mex cpp_guards main real_t)).log →
      (g1 = g2 ↔ i1 = i2)) ∧
    (∀ g1 g2 i,
      PointerMap.find (run E p (CodeGenerator.init E pre inc mex cpp_guards main
        real_t)).st.added_dependencies_ g1 = some i →
      PointerMap.find (run E p (CodeGenerator.init E pre inc mex cpp_guards main
        real_t)).st.added_dependencies_ g2 = some i → g1 = g2) ∧
    (∀ g, Event.addDependency g ∈
        (run E p (CodeGenerator.init E pre inc mex cpp_guards main real_t)).log →
      invocations g (run E p (CodeGenerator.init E pre inc mex cpp_guards main real_t)).log
        = 1 ∧
      ∃ i, PointerMap.find (run E p (CodeGenerator.init E pre inc mex cpp_guards main
          real_t)).st.added_dependencies_ g = some i ∧
        (∀ j, Event.returned g j ∈
          (run E p (CodeGenerator.init E pre inc mex cpp_guards main real_t)).log → j = i) ∧
        (∀ name, Event.generateFunction g name ∈
          (run E p (CodeGenerator.init E pre inc mex cpp_guards main real_t)).log →
          name = "f" ++ toString i)) ∧
    InvokedOnFirst (run E p (CodeGenerator.init E pre inc mex cpp_guards main real_t)).log := by
  obtain ⟨h1, h2, _, _⟩ := CodeGenerator.init_registries E pre inc mex cpp_guards main real_t
  have hdep := run_depHistory E p _ [] (init_depHistory E pre inc mex cpp_guards main real_t)
  obtain ⟨_, hd⟩ := run_registries E p
    (CodeGenerator.init E pre inc mex cpp_guards main real_t) []
    (by intro h; rw [h1]; simp [PointerMap.find])
    (by intro g; rw [h2]; simp [PointerMap.find])
  have hfirst := run_invokedOnFirst E p
    (CodeGenerator.init E pre inc mex cpp_guards main real_t) []
    (by intro g; rw [h2]; simp [PointerMap.find])
    (by intro k g name hk; simp at hk)
  simp only [List.nil_append] at hdep hd hfirst
  obtain ⟨ha, hb, hc, hcount⟩ := hdep
  refine ⟨?_, fun g1 g2 i hg1 hg2 => PointerMap.key_unique _ g1 g2 i ha hg1 hg2, ?_, hfirst⟩
  · intro g1 i1 g2 i2 hm1 hm2
    have hf1 := hb g1 i1 hm1
    have hf2 := hb g2 i2 hm2
    constructor
    · rintro rfl
      rw [hf1] at hf2
      injection hf2
    · rintro rfl
      exact PointerMap.key_unique _ g1 g2 i1 ha hf1 hf2
  · intro g hg
    have hsome := (hd g).mpr hg
    refine ⟨by rw [hcount g, if_pos hsome], ?_⟩
    obtain ⟨i, hi⟩ := Option.isSome_iff_exists.mp hsome
    refine ⟨i, hi, ?_, ?_⟩
    · intro j hj
      have := hb g j hj
      rw [hi] at this
      injection this with this
      exact this.symm
    · intro name hn
      obtain ⟨i1, hi1, hname⟩ := hc g name hn
      rw [hi] at hi1
      injection hi1 with hi1
      subst hi1
      exact hname

/-- C7, at the sample client with nested and repeated registrations: the functions `7` and
`8` are registered, once each under the names `f0` and `f1`, and the calls return `0` for `7`
and `1` for `8`. -/
theorem addDependency_once_witness :
    (run sampleEnv sampleDeps (CodeGenerator.init sampleEnv "" "" false true false
      "double")).log =
      [.addDependency 7, .generateFunction 7 "f0", .call (.functions_write "void f0();\n"),
        .addDependency 8, .generateFunction 8 "f1", .addDependency 7, .returned 7 0,
        .returned 8 1, .addDependency 7, .returned 7 0, .returned 7 0,
        .addDependency 8, .returned 8 1, .addDependency 7, .returned 7 0] ∧
    invocations 7 (run sampleEnv sampleDeps (CodeGenerator.init sampleEnv "" "" false true
      false "double")).log = 1 ∧
    invocations 8 (run sampleEnv sampleDeps (CodeGenerator.init sampleEnv "" "" false true
      false "double")).log = 1 :=
  ⟨by decide,
    ((addDependency_once sampleEnv "" "" false true false "double" sampleDeps).2.2.1 7
      (by decide)).1,
    ((addDependency_once sampleEnv "" "" false true false "double" sampleDeps).2.2.1 8
      (by decide)).1⟩

/-- C8: for every auxiliary tag `t` and every session in which `t` is already in the
auxiliary set, `addAuxiliary(t)` changes nothing; and after any sequence `ts` of
`addAuxiliary` calls on a freshly constructed session the auxiliary section is the texts of a
list of tags, one after the other, in which a tag occurs once if it is in the auxiliary set
and not at all otherwise. -/
theorem addAuxiliary_emits_once (E : Env) (s : CodeGenerator) (t : Auxiliary)
    (h : t ∈ s.added_auxiliaries_) (pre inc : String) (mex cpp_guards main : Bool)
    (real_t : String) (ts : List Auxiliary) :
    addAuxiliary E s t = s ∧
    ∃ order : List Auxiliary,
      (ts.foldl (addAuxiliary E)
        (CodeGenerator.init E pre inc mex cpp_guards main real_t)).auxiliaries_
        = emitted E order ∧
      ∀ u, order.count u =
        if u ∈ (ts.foldl (addAuxiliary E)
          (CodeGenerator.init E pre inc mex cpp_guards main real_t)).added_auxiliaries_
        then 1 else 0 := by
  refine ⟨addAuxiliary_of_mem E s t h, ?_⟩
  obtain ⟨order, hnd, hmem, htext, _⟩ := foldl_addAuxiliary_auxOrdered E ts _
    (init_auxOrdered E pre inc mex cpp_guards main real_t)
  refine ⟨order, htext, fun u => ?_⟩
  rw [count_of_nodup order hnd u]
  by_cases hu : u ∈ order
  · rw [if_pos hu, if_pos ((hmem u).mp hu)]
  · rw [if_neg hu, if_neg (fun hc => hu ((hmem u).mpr hc))]

/-- C8, at a session that holds the square macro, and for a sequence of calls that asks for
it three times. -/
theorem addAuxiliary_emits_once_witness :
    Auxiliary.AUX_SQ ∈ (addAuxiliary sampleEnv sampleSession .AUX_SQ).added_auxiliaries_ ∧
    addAuxiliary sampleEnv (addAuxiliary sampleEnv sampleSession .AUX_SQ) .AUX_SQ
      = addAuxiliary sampleEnv sampleSession .AUX_SQ ∧
    ∃ order : List Auxiliary,
      ([Auxiliary.AUX_SQ, .AUX_FROM_MEX, .AUX_SQ, .AUX_FILL_N, .AUX_SQ].foldl
        (addAuxiliary sampleEnv)
        (CodeGenerator.init sampleEnv "" "" false true false "double")).auxiliaries_
        = emitted sampleEnv order ∧
      ∀ u, order.count u =
        if u ∈ ([Auxiliary.AUX_SQ, .AUX_FROM_MEX, .AUX_SQ, .AUX_FILL_N, .AUX_SQ].foldl
          (addAuxiliary sampleEnv)
          (CodeGenerator.init sampleEnv "" "" false true false "double")).added_auxiliaries_
        then 1 else 0 :=
  ⟨mem_addAuxiliary sampleEnv sampleSession .AUX_SQ,
    addAuxiliary_emits_once sampleEnv (addAuxiliary sampleEnv sampleSession .AUX_SQ) .AUX_SQ
      (mem_addAuxiliary sampleEnv sampleSession .AUX_SQ) "" "" false true false "double"
      [.AUX_SQ, .AUX_FROM_MEX, .AUX_SQ, .AUX_FILL_N, .AUX_SQ]⟩

/-- C9: for every session a program can be in, after `addAuxiliary(AUX_FROM_MEX)` the
auxiliary set contains `AUX_FROM_MEX` and `AUX_FILL_N`, and the auxiliary section is the
texts of the tags `pre`, the fill primitive (`codegen_str_fill_n` and a newline), the texts of
the tags `mid`, the definition of `casadi_from_mex`, and the texts of the tags `post`, where
neither the fill primitive nor `AUX_FROM_MEX` is among `pre`, `mid` and `post`: the text of
the fill primitive is written once, and before the definition of `casadi_from_mex`, whether
or not it had been requested earlier. -/
theorem from_mex_after_fill (E : Env) (s : CodeGenerator) (hr : Reachable E s) :
    Auxiliary.AUX_FROM_MEX ∈ (addAuxiliary E s .AUX_FROM_MEX).added_auxiliaries_ ∧
    Auxiliary.AUX_FILL_N ∈ (addAuxiliary E s .AUX_FROM_MEX).added_auxiliaries_ ∧
    ∃ pre mid post : List Auxiliary,
      (∀ t, t ∈ pre ∨ t ∈ mid ∨ t ∈ post → t ≠ .AUX_FILL_N ∧ t ≠ .AUX_FROM_MEX) ∧
      (addAuxiliary E s .AUX_FROM_MEX).auxiliaries_ =
        emitted E pre ++ (E.codegen_str_fill_n ++ endl) ++ emitted E mid ++ str_from_mex
          ++ emitted E post := by
  have hmem1 := mem_addAuxiliary E s .AUX_FROM_MEX
  obtain ⟨order, hnd, hmem, htext, hbefore⟩ :=
    addAuxiliary_auxOrdered E s .AUX_FROM_MEX (Reachable.auxOrdered E s hr)
  obtain ⟨pre, mid, post, ho⟩ := hbefore ((hmem _).mpr hmem1)
  refine ⟨hmem1, (hmem _).mp (by rw [ho]; simp), pre, mid, post, ?_, ?_⟩
  · rw [ho] at hnd
    exact nodup_split pre mid post _ _ hnd
  · rw [htext, ho]
    simp [emitted_append, emitted, auxText, String.append_assoc]

/-- C9, at the sample session after the fill primitive has been requested. -/
theorem from_mex_after_fill_witness :
    Reachable sampleEnv (Call.exec sampleEnv sampleSession (.addAuxiliary .AUX_FILL_N)).st ∧
    Auxiliary.AUX_FROM_MEX ∈ (addAuxiliary sampleEnv
      (Call.exec sampleEnv sampleSession (.addAuxiliary .AUX_FILL_N)).st
      .AUX_FROM_MEX).added_auxiliaries_ ∧
    Auxiliary.AUX_FILL_N ∈ (addAuxiliary sampleEnv
      (Call.exec sampleEnv sampleSession (.addAuxiliary .AUX_FILL_N)).st
      .AUX_FROM_MEX).added_auxiliaries_ :=
  ⟨reachable_exec sampleEnv sampleSession _ sampleSession_reachable,
    (from_mex_after_fill sampleEnv _
      (reachable_exec sampleEnv sampleSession _ sampleSession_reachable)).1,
    (from_mex_after_fill sampleEnv _
      (reachable_exec sampleEnv sampleSession _ sampleSession_reachable)).2.1⟩

/-- C10: for all buffer names `arg`, `res` and all offsets `arg_off`, `res_off`,
`copy_n(arg, arg_off, 1, res, res_off)` returns exactly the single-element assignment
`res[res_off] = arg[arg_off];` with the offsets in decimal, and leaves the whole session
unchanged, the auxiliary set and the auxiliary text in particular. -/
theorem copy_n_scalar (E : Env) (s : CodeGenerator) (arg : String) (arg_off : Nat)
    (res : String) (res_off : Nat) :
    copy_n E s arg arg_off 1 res res_off =
      (res ++ "[" ++ toString res_off ++ "] = " ++ arg ++ "[" ++ toString arg_off ++ "];", s) ∧
    (copy_n E s arg arg_off 1 res res_off).2.added_auxiliaries_ = s.added_auxiliaries_ ∧
    (copy_n E s arg arg_off 1 res res_off).2.auxiliaries_ = s.auxiliaries_ := by
  have h : copy_n E s arg arg_off 1 res res_off =
      (res ++ "[" ++ toString res_off ++ "] = " ++ arg ++ "[" ++ toString arg_off ++ "];",
        s) := by
    rw [copy_n]
    simp
  rw [h]
  exact ⟨rfl, rfl, rfl⟩


/-- C11, at the offset `2^31`: `copy_n("a", 2147483648, 5, "r", 0)` passes the offset
through `numToString(int)` and returns a call on `a+-2147483648`, where the direct form has
`a+2147483648`; the session is the one of the direct form. -/
theorem copy_n_large_offset :
    (copy_n sampleEnv sampleSession "a" 2147483648 5 "r" 0).1
      = "casadi_copy_n(a+-2147483648, 5, r);" ∧
    (copy_n_direct sampleEnv sampleSession "a" 2147483648 5 "r" 0).1
      = "casadi_copy_n(a+2147483648, 5, r);" ∧
    (copy_n sampleEnv sampleSession "a" 2147483648 5 "r" 0).1
      ≠ (copy_n_direct sampleEnv sampleSession "a" 2147483648 5 "r" 0).1 ∧
    (copy_n sampleEnv sampleSession "a" 2147483648 5 "r" 0).2
      = (copy_n_direct sampleEnv sampleSession "a" 2147483648 5 "r" 0).2 := by
  have h1 : (copy_n sampleEnv sampleSession "a" 2147483648 5 "r" 0).1
      = "casadi_copy_n(a+-2147483648, 5, r);" := by
    rw [copy_n_text _ _ _ _ _ _ _ (by decide)]
    decide
  have h2 : (copy_n_direct sampleEnv sampleSession "a" 2147483648 5 "r" 0).1
      = "casadi_copy_n(a+2147483648, 5, r);" := by
    decide
  refine ⟨h1, h2, ?_, ?_⟩
  · rw [h1, h2]
    decide
  · rw [copy_n_state]
    rfl

/-- C12: for every sparsity pattern `sp` and all buffers, offsets and workspace strings,
`project(arg, arg_off, sp, res, res_off, sp, w)` returns exactly the text of `copy_n(arg,
arg_off, sp.nnz(), res, res_off)` and leaves the session that call leaves: `AUX_PROJECT` is
in the auxiliary set only if it was there before, the text added to the auxiliary section is
nothing or the copy auxiliary, and the sparsity registry and the integer pool are as they
were. -/
theorem project_same_pattern (E : Env) (s : CodeGenerator) (arg : String) (arg_off : Nat)
    (sp : Sparsity) (res : String) (res_off : Nat) (w : String) :
    project E s arg arg_off sp res res_off sp w =
      ⟨.ok (copy_n E s arg arg_off sp.nnz res res_off).1,
        (copy_n E s arg arg_off sp.nnz res res_off).2⟩ ∧
    (Auxiliary.AUX_PROJECT ∈ (project E s arg arg_off sp res res_off sp w).st.added_auxiliaries_
      ↔ Auxiliary.AUX_PROJECT ∈ s.added_auxiliaries_) ∧
    ((project E s arg arg_off sp res res_off sp w).st.auxiliaries_ = s.auxiliaries_ ∨
      (project E s arg arg_off sp res res_off sp w).st.auxiliaries_
        = s.auxiliaries_ ++ (E.codegen_str_copy_n ++ endl)) ∧
    (project E s arg arg_off sp res res_off sp w).st.added_sparsities_ = s.added_sparsities_ ∧
    (project E s arg arg_off sp res res_off sp w).st.integer_constants_
      = s.integer_constants_ := by
  have h := project_same E s arg arg_off sp res res_off sp w (by simp [Sparsity.equals])
  refine ⟨h, ?_⟩
  rw [h, copy_n_state]
  by_cases hn : sp.nnz = 1
  · simp [hn]
  · simp only [hn, if_false]
    rw [addAuxiliary_newAux]
    unfold newAux
    by_cases hc : Auxiliary.AUX_COPY_N ∈ s.added_auxiliaries_
    · simp [hc, emitted]
    · simp [hc, emitted, auxText]

/-- C13, at the sample session for the registered pattern `s2` and a new pattern: the text
`project` returns has no separator between the name of the second pattern and the workspace
reference, so that the call has four arguments, the last being `s3w`. -/
theorem project_missing_separator :
    Sparsity.equals ⟨7, [2, 2, 0, 1, 2, 0, 1], 2⟩ ⟨9, [1, 1, 0, 1, 0], 1⟩ = false ∧
    (project sampleEnv sampleSession "a" 0 ⟨7, [2, 2, 0, 1, 2, 0, 1], 2⟩ "r" 0
      ⟨9, [1, 1, 0, 1, 0], 1⟩ "w").val = .ok "  casadi_project(a, s2, r, s3w);" := by
  refine ⟨by decide, ?_⟩
  obtain ⟨i, j, hp, hi, hj⟩ := project_distinct sampleEnv sampleSession "a" 0
    ⟨7, [2, 2, 0, 1, 2, 0, 1], 2⟩ "r" 0 ⟨9, [1, 1, 0, 1, 0], 1⟩ "w" (by decide)
  rw [addAuxiliary_simple _ _ _ (by decide) (by decide)] at hi hj
  have hi2 : i = 2 := by
    have : (Except.ok 2 : Except Err Nat) = .ok i := hi
    injection this with this
    exact this.symm
  have hj3 : j = 3 := by
    have : (Except.ok 3 : Except Err Nat) = .ok j := hj
    injection this with this
    exact this.symm
  subst hi2 hj3
  rw [hp]
  rfl

/-- C14: for every integer `n`, `work(n)` returns the null literal `0` when `n < 0`, the
bare buffer name `w` when `n = 0`, and `w+` followed by the decimal digits of `n` when
`n > 0`; being a total function it never faults. -/
theorem work_spec (n : Int) :
    work n =
      if n < 0 then "0"
      else if n = 0 then "w"
      else "w+" ++ String.mk (Nat.toDigits 10 n.toNat) := by
  unfold work
  by_cases h1 : n < 0
  · simp [h1]
  · by_cases h2 : n = 0
    · simp [h2]
    · simp only [h1, h2, if_false]
      rw [numToString_pos n (by omega)]
      rfl

/-- C15: for every integer `n`, `workelement(n)` fails its assertion exactly if `n < 0`;
for `n = 0` it returns the dereferenced form `*w` and for `n > 0` the indexed form `w[+n]`
with `n` in decimal digits, so that for `n >= 0` it always returns. -/
theorem workelement_spec (n : Int) :
    ((∃ e, workelement n = .error e) ↔ n < 0) ∧
    workelement n =
      (if n < 0 then .error (.assertion "n>=0")
       else if n = 0 then .ok "*w"
       else .ok ("w[+" ++ String.mk (Nat.toDigits 10 n.toNat) ++ "]")) := by
  have h : workelement n =
      (if n < 0 then .error (.assertion "n>=0")
       else if n = 0 then .ok "*w"
       else .ok ("w[+" ++ String.mk (Nat.toDigits 10 n.toNat) ++ "]")) := by
    unfold workelement
    by_cases h1 : n < 0
    · simp [h1]
    · by_cases h2 : n = 0
      · simp [h2]
      · have h3 : n ≥ 0 := by omega
        simp only [h1, h2, h3, not_true_eq_false, if_false]
        rw [numToString_pos n h3]
        rfl
  refine ⟨?_, h⟩
  rw [h]
  by_cases h1 : n < 0
  · simp [h1]
  · by_cases h2 : n = 0
    · simp [h2]
    · simp [h1, h2]

/-- C16 as stated fails at `2^31`: the `double` with the bit pattern `0x41E0000000000000` is
finite and integer-valued, its value is `2147483648`, and `constant` writes it in scientific
format, not as `2147483648.`. -/
theorem constant_large_integer :
    (⟨0x41E0000000000000⟩ : Double).isnan = false ∧
    (⟨0x41E0000000000000⟩ : Double).isinf = false ∧
    (⟨0x41E0000000000000⟩ : Double).isInteger = true ∧
    (⟨0x41E0000000000000⟩ : Double).trunc = 2147483648 ∧
    constant sampleEnv ⟨0x41E0000000000000⟩ = "2.1474836480000000e+09" ∧
    constant sampleEnv ⟨0x41E0000000000000⟩ ≠ "2147483648." := by
  decide

/-- C16, amended: `constant(v)` returns `NAN` for a NaN, `INFINITY` for positive and
`-INFINITY` for negative infinity, and for every finite integer-valued `v` in the range of
`int` (`-2^31 <= v < 2^31`) the decimal form of that integer followed by a single point. -/
theorem constant_spec (E : Env) (v : Double) :
    (v.isnan = true → constant E v = "NAN") ∧
    (v.isinf = true → v.signbit = false → constant E v = "INFINITY") ∧
    (v.isinf = true → v.signbit = true → constant E v = "-INFINITY") ∧
    (v.isnan = false → v.isinf = false → v.isInteger = true →
      -(2 ^ 31) ≤ v.trunc → v.trunc < 2 ^ 31 →
      constant E v = toString v.trunc ++ ".") := by
  refine ⟨?_, ?_, ?_, ?_⟩
  · intro h
    simp [constant, h]
  · intro h hs
    have hn : v.isnan = false := by
      unfold Double.isnan Double.isinf at *
      simp only [Bool.and_eq_true, beq_iff_eq] at h
      simp [h.1, h.2]
    simp [constant, h, hn, hs]
  · intro h hs
    have hn : v.isnan = false := by
      unfold Double.isnan Double.isinf at *
      simp only [Bool.and_eq_true, beq_iff_eq] at h
      simp [h.1, h.2]
    simp [constant, h, hn, hs]
  · intro hn hi hz h1 h2
    exact constant_integer E v hn hi hz ⟨h1, h2⟩

/-- C16, amended, at `3.0`, `-2.0`, a NaN and the two infinities. -/
theorem constant_spec_witness :
    constant sampleEnv ⟨0x4008000000000000⟩ = "3." ∧
    constant sampleEnv ⟨0xC000000000000000⟩ = "-2." ∧
    constant sampleEnv ⟨0x7FF8000000000000⟩ = "NAN" ∧
    constant sampleEnv ⟨0x7FF0000000000000⟩ = "INFINITY" ∧
    constant sampleEnv ⟨0xFFF0000000000000⟩ = "-INFINITY" :=
  ⟨(constant_spec sampleEnv ⟨0x4008000000000000⟩).2.2.2 (by decide) (by decide) (by decide)
      (by decide) (by decide),
    (constant_spec sampleEnv ⟨0xC000000000000000⟩).2.2.2 (by decide) (by decide) (by decide)
      (by decide) (by decide),
    (constant_spec sampleEnv ⟨0x7FF8000000000000⟩).1 (by decide),
    (constant_spec sampleEnv ⟨0x7FF0000000000000⟩).2.1 (by decide) (by decide),
    (constant_spec sampleEnv ⟨0xFFF0000000000000⟩).2.2.1 (by decide) (by decide)⟩

/-- C17: for every session, `generate` writes exactly, in this order: the banner comment;
the opening linkage guard if `cpp_guards`; the accumulated includes and a newline; the
scalar-type macro and a blank line; the accumulated auxiliary text; one declaration per
integer constant, the `i`-th named `s` followed by `i`, in pool order, its elements
separated by a comma and a blank; one declaration per floating constant, the `i`-th named `c`
followed by `i`, in pool order, its elements written by `constant`; the accumulated function
bodies; the `mexFunction` gateway if `mex`; the `main` entry point if `main`; the
finalization text; the closing linkage guard if `cpp_guards`; a newline. For the empty
session with all flags false the document is the banner comment, a blank line, the
scalar-type macro and two blank lines. -/
theorem generate_document (E : Env) (g : CodeGenerator) (pre inc real_t : String) :
    generate E g =
      "/* This function was automatically generated by CasADi */\n"
      ++ (if g.cpp_guards then "#ifdef __cplusplus\nextern \"C\" \x7b\n#endif\n\n" else "")
      ++ g.includes_ ++ "\n"
      ++ "#define d double\n\n"
      ++ g.auxiliaries_
      ++ String.join (g.integer_constants_.enum.map (fun p =>
          "int " ++ ("s" ++ toString p.1) ++ "[] = \x7b"
            ++ ", ".intercalate (p.2.map (fun x : Int => toString x)) ++ "\x7d;\n"))
      ++ String.join (g.double_constants_.enum.map (fun p =>
          "d " ++ ("c" ++ toString p.1) ++ "[] = \x7b"
            ++ ", ".intercalate (p.2.map (constant E)) ++ "\x7d;\n"))
      ++ g.functions
      ++ (if g.mex then
          "void mexFunction(int resc, mxArray *resv[], int argc, const mxArray *argv[]) \x7b\n"
            ++ "  mex_eval(resc, resv, argc, argv);\n\x7d\n\n"
          else "")
      ++ (if g.main then
          "int main(int argc, char* argv[]) \x7b\n  return main_eval(argc, argv);\n\x7d\n\n"
          else "")
      ++ g.finalization_
      ++ (if g.cpp_guards then "#ifdef __cplusplus\n\x7d /* extern \"C\" */\n#endif\n" else "")
      ++ "\n" ∧
    generate E (CodeGenerator.init E pre inc false false false real_t) =
      "/* This function was automatically generated by CasADi */\n\n#define d double\n\n\n" := by
  constructor
  · unfold generate
    rw [printIntegerConstants_eq, printDoubleConstants_eq]
    simp only [List.enum]
    cases g.cpp_guards <;> cases g.mex <;> cases g.main <;>
      simp [endl, String.append_assoc]
  · rfl

/-- C18, at the option `real_t = "float"`: the constructor stores the type name, and
`generate` still defines the shorthand `d` as `double`. -/
theorem generate_ignores_real_t :
    CodeGenerator.construct sampleEnv [("real_t", .string "float")]
      = .ok (CodeGenerator.blank "" "" false true false "float") ∧
    (CodeGenerator.blank "" "" false true false "float").real_t = "float" ∧
    generate sampleEnv (CodeGenerator.blank "" "" false true false "float") =
      "/* This function was automatically generated by CasADi */\n"
      ++ "#ifdef __cplusplus\nextern \"C\" \x7b\n#endif\n\n\n"
      ++ "#define d double\n\n"
      ++ "#ifdef __cplusplus\n\x7d /* extern \"C\" */\n#endif\n\n" := by
  refine ⟨rfl, rfl, ?_⟩
  decide

/-- C19: for every option dictionary (its keys distinct, as in a map), the constructor fails
exactly if the dictionary contains a key outside `prefix`, `include`, `mex`, `cppguards`,
`main`, `real_t`, and then with the error `Unrecongnized option: ` followed by such a key;
when it succeeds, every option given has the value converted from the dictionary and every
option not given has its default (`""`, `""`, `false`, `true`, `false`, `"double"`), the
include section is the line of `stdio.h` if `main` is set followed by the line of `mex.h` if
`mex` is set, and everything else is empty. -/
theorem construct_spec (E : Env) (opts : List (String × GenericType))
    (hnd : (opts.map Prod.fst).Nodup) :
    ((∃ e, CodeGenerator.construct E opts = .error e) ↔ ∃ it ∈ opts, it.1 ∉ optionKeys) ∧
    (∀ e, CodeGenerator.construct E opts = .error e →
      ∃ it ∈ opts, it.1 ∉ optionKeys ∧ e = .error ("Unrecongnized option: " ++ it.1)) ∧
    (∀ g, CodeGenerator.construct E opts = .ok g →
      g.prefix_ = optionString E opts "prefix" "" ∧
      g.include_ = optionString E opts "include" "" ∧
      g.mex = optionBool E opts "mex" false ∧
      g.cpp_guards = optionBool E opts "cppguards" true ∧
      g.main = optionBool E opts "main" false ∧
      g.real_t = optionString E opts "real_t" "double" ∧
      g.includes_ = (if g.main then includeLine E "stdio.h" else "")
        ++ (if g.mex then includeLine E "mex.h" else "") ∧
      g.added_includes_ = (if g.main then ["stdio.h"] else [])
        ++ (if g.mex then ["mex.h"] else []) ∧
      g = CodeGenerator.init E g.prefix_ g.include_ g.mex g.cpp_guards g.main g.real_t) := by
  by_cases hk : ∀ it ∈ opts, it.1 ∈ optionKeys
  · have hc := construct_known E opts hk hnd
    rw [hc]
    refine ⟨⟨fun ⟨e, he⟩ => (by cases he), fun ⟨it, hit, hn⟩ => absurd (hk it hit) hn⟩,
      fun e he => (by cases he), ?_⟩
    intro g hg
    injection hg with hg
    subst hg
    rw [init_members]
    simp only [CodeGenerator.blank, true_and]
    rw [init_members]
    simp [CodeGenerator.blank]
  · have hex : ∃ it ∈ opts, it.1 ∉ optionKeys := by
      by_contra hc
      apply hk
      intro it hit
      by_contra hn
      exact hc ⟨it, hit, hn⟩
    obtain ⟨it, hit, hn, he⟩ := readOptions_unknown E opts
      (CodeGenerator.blank "" "" false true false "double") hex
    have hc : CodeGenerator.construct E opts
        = .error (.error ("Unrecongnized option: " ++ it.1)) := by
      unfold CodeGenerator.construct
      simp only [he]
    rw [hc]
    refine ⟨⟨fun _ => hex, fun _ => ⟨_, rfl⟩⟩, ?_, fun g hg => (by cases hg)⟩
    intro e h
    injection h with h
    exact ⟨it, hit, hn, h.symm⟩

/-- C19, at a dictionary that sets `main` and `real_t`, and at one with an unknown key. -/
theorem construct_spec_witness :
    ([("main", GenericType.bool true), ("real_t", GenericType.string "float")].map
      Prod.fst).Nodup ∧
    ([("foo", GenericType.bool true), ("main", GenericType.bool true)].map Prod.fst).Nodup ∧
    (∀ g, CodeGenerator.construct sampleEnv
        [("main", .bool true), ("real_t", .string "float")] = .ok g →
      g.main = true ∧ g.mex = false ∧ g.cpp_guards = true ∧ g.real_t = "float" ∧
      g.includes_ = "#include <stdio.h>\n") ∧
    ((∃ e, CodeGenerator.construct sampleEnv [("foo", .bool true), ("main", .bool true)]
        = .error e) ↔
      ∃ it ∈ [("foo", GenericType.bool true), ("main", GenericType.bool true)],
        it.1 ∉ optionKeys) :=
  ⟨by decide, by decide,
    fun g hg =>
      have h := (construct_spec sampleEnv [("main", .bool true), ("real_t", .string "float")]
        (by decide)).2.2 g hg
      ⟨h.2.2.2.2.1, h.2.2.1, h.2.2.2.1, h.2.2.2.2.2.1, by
        have h7 := h.2.2.2.2.2.2.1
        rw [h.2.2.2.2.1, h.2.2.1] at h7
        exact h7⟩,
    (construct_spec sampleEnv [("foo", .bool true), ("main", .bool true)] (by decide)).1⟩

/-- C20: in every session a program can be in (on a platform where `sizeof(double)` is a
multiple of `sizeof(size_t)`), for every integer vector and every floating vector `v`,
`getConstant(v, true)` returns an index `i` that is in range of the pool and whose entry
equals `v`; if an equal entry already existed the session is unchanged and `i` is the one
position of `v` in the pool, and otherwise `i` is the length of the pool before the call and
the pool is the old one with `v` appended. -/
theorem getConstant_index (E : Env) (s : CodeGenerator) (hr : Reachable E s)
    (hp : E.sizeof_double % E.sizeof_size_t = 0) :
    (∀ v : List Int, ∃ i,
      (getConstantInt E s v true).val = .ok i ∧
      i < (getConstantInt E s v true).st.integer_constants_.length ∧
      (getConstantInt E s v true).st.integer_constants_[i]? = some v ∧
      (v ∈ s.integer_constants_ →
        (getConstantInt E s v true).st = s ∧
        ∀ j, s.integer_constants_[j]? = some v → j = i) ∧
      (v ∉ s.integer_constants_ →
        i = s.integer_constants_.length ∧
        (getConstantInt E s v true).st.integer_constants_ = s.integer_constants_ ++ [v])) ∧
    (∀ v : List Double, ∃ i,
      (getConstantDouble E s v true).val = .ok i ∧
      i < (getConstantDouble E s v true).st.double_constants_.length ∧
      (getConstantDouble E s v true).st.double_constants_[i]? = some v ∧
      (v ∈ s.double_constants_ →
        (getConstantDouble E s v true).st = s ∧
        ∀ j, s.double_constants_[j]? = some v → j = i) ∧
      (v ∉ s.double_constants_ →
        i = s.double_constants_.length ∧
        (getConstantDouble E s v true).st.double_constants_ = s.double_constants_ ++ [v])) := by
  constructor
  · intro v
    obtain ⟨hinv, hnd⟩ := Reachable.intPoolWF E s hr
    rcases getConstantInt_true_wf E s v hinv with ⟨hv, i, hi, hiv⟩ | ⟨hv, hadd⟩
    · rw [hi]
      exact ⟨i, rfl, getElem?_lt_length _ v i hiv, hiv,
        fun _ => ⟨rfl, fun j hj => nodup_index_unique _ v j i hnd hj hiv⟩,
        fun hn => absurd hv hn⟩
    · rw [hadd]
      exact ⟨s.integer_constants_.length, rfl, by simp, by simp,
        fun hm => absurd hm hv, fun _ => ⟨rfl, rfl⟩⟩
  · intro v
    obtain ⟨hinv, hnd⟩ := Reachable.doublePoolWF E s hr
    obtain ⟨k, hk⟩ := hashDouble_ok E hp v
    rcases getConstantDouble_true_wf E s v k hk hinv with ⟨hv, i, hi, hiv⟩ | ⟨hv, hadd⟩
    · rw [hi]
      exact ⟨i, rfl, getElem?_lt_length _ v i hiv, hiv,
        fun _ => ⟨rfl, fun j hj => nodup_index_unique _ v j i hnd hj hiv⟩,
        fun hn => absurd hv hn⟩
    · rw [hadd]
      exact ⟨s.double_constants_.length, rfl, by simp, by simp,
        fun hm => absurd hm hv, fun _ => ⟨rfl, rfl⟩⟩

/-- C20, at the sample session for the integer vector `[3, 4]`, which is its second
entry. -/
theorem getConstant_index_witness :
    Reachable sampleEnv sampleSession ∧
    sampleEnv.sizeof_double % sampleEnv.sizeof_size_t = 0 ∧
    ∃ i, (getConstantInt sampleEnv sampleSession [3, 4] true).val = .ok i ∧
      (getConstantInt sampleEnv sampleSession [3, 4] true).st.integer_constants_[i]?
        = some [3, 4] :=
  ⟨sampleSession_reachable, rfl,
    match (getConstant_index sampleEnv sampleSession sampleSession_reachable rfl).1 [3, 4] with
    | ⟨i, h1, _, h3, _⟩ => ⟨i, h1, h3⟩⟩

/-- C21: every registration and emission operation only grows the session. For each of
`getConstant` (both overloads, whether it returns or throws), `addSparsity`, `addAuxiliary`,
`addInclude`, `copy_n`, `fill_n`, `casadi_dot`, `project` and `printf` (all overloads), called
in any session `s` with any arguments, the session `t` the call leaves satisfies `Grows s t`:
the two constant pools of `s` are prefixes of those of `t`, the include and auxiliary texts of
`s` are prefixes of those of `t`, every key of the sparsity registry keeps its index and every
member of the auxiliary set and of the include set stays a member; and `KeepsEntries s t`: an
index into a pool of `s` denotes the same entry in `t`. -/
theorem operations_only_grow (E : Env) (s : CodeGenerator) :
    (∀ v a, Grows s (getConstantInt E s v a).st ∧ KeepsEntries s (getConstantInt E s v a).st) ∧
    (∀ v a, Grows s (getConstantDouble E s v a).st ∧
      KeepsEntries s (getConstantDouble E s v a).st) ∧
    (∀ sp, Grows s (addSparsity E s sp).st ∧ KeepsEntries s (addSparsity E s sp).st) ∧
    (∀ f, Grows s (addAuxiliary E s f) ∧ KeepsEntries s (addAuxiliary E s f)) ∧
    (∀ n r, Grows s (addInclude s n r) ∧ KeepsEntries s (addInclude s n r)) ∧
    (∀ arg arg_off n res res_off,
      Grows s (copy_n E s arg arg_off n res res_off).2 ∧
      KeepsEntries s (copy_n E s arg arg_off n res res_off).2) ∧
    (∀ res res_off n v,
      Grows s (fill_n E s res res_off n v).2 ∧ KeepsEntries s (fill_n E s res res_off n v).2) ∧
    (∀ n x inc_x y inc_y,
      Grows s (casadi_dot E s n x inc_x y inc_y).2 ∧
      KeepsEntries s (casadi_dot E s n x inc_x y inc_y).2) ∧
    (∀ arg arg_off sp_arg res res_off sp_res w,
      Grows s (project E s arg arg_off sp_arg res res_off sp_res w).st ∧
      KeepsEntries s (project E s arg arg_off sp_arg res res_off sp_res w).st) ∧
    (∀ str arg, Grows s (printf E s str arg).2 ∧ KeepsEntries s (printf E s str arg).2) ∧
    (∀ str a1, Grows s (printf1 E s str a1).2 ∧ KeepsEntries s (printf1 E s str a1).2) ∧
    (∀ str a1 a2,
      Grows s (printf2 E s str a1 a2).2 ∧ KeepsEntries s (printf2 E s str a1 a2).2) ∧
    (∀ str a1 a2 a3,
      Grows s (printf3 E s str a1 a2 a3).2 ∧ KeepsEntries s (printf3 E s str a1 a2 a3).2) :=
  have both : ∀ t, Grows s t → Grows s t ∧ KeepsEntries s t := fun _ h => ⟨h, h.keepsEntries⟩
  ⟨fun v a => both _ (getConstantInt_grows E s v a),
    fun v a => both _ (getConstantDouble_grows E s v a),
    fun sp => both _ (addSparsity_grows E s sp),
    fun f => both _ (addAuxiliary_grows E s f),
    fun n r => both _ (addInclude_grows s n r),
    fun arg arg_off n res res_off => both _ (copy_n_grows E s arg arg_off n res res_off),
    fun res res_off n v => both _ (fill_n_grows E s res res_off n v),
    fun n x inc_x y inc_y => both _ (casadi_dot_grows E s n x inc_x y inc_y),
    fun arg arg_off sp_arg res res_off sp_res w =>
      both _ (project_grows E s arg arg_off sp_arg res res_off sp_res w),
    fun str arg => both _ (printf_grows E s str arg),
    fun str a1 => both _ (printf_grows E s str [a1]),
    fun str a1 a2 => both _ (printf_grows E s str [a1, a2]),
    fun str a1 a2 a3 => both _ (printf_grows E s str [a1, a2, a3])⟩

/-- C22: let `r` be the run of any client code on a freshly constructed session. For every
sparsity pattern `sp` registered in the run (the call of `addSparsity` that made the registry
entry of the identity of `sp` was passed `sp`), `sparsity(sp)` in the session `r.st` returns
a name `s` followed by an index `i` and leaves the session as it is, and the document
`generate` writes for `r.st` declares that name with the content of `sp`: it contains, as a
line of its own, `int ` followed by the name, `[] = {`, the elements of `sp.compress()`
separated by a comma and a blank, and `};`. The constant tables of the document are the
declarations `integerDeclarations` and `doubleDeclarations` written one after the other, the
pair of the name and `sp.compress()` is one of them, no two of them share a name, and so the
name `sparsity(sp)` returns is declared exactly once. -/
theorem sparsity_declared (E : Env) (pre inc : String) (mex cpp_guards main : Bool)
    (real_t : String) (p : Prog) (r : Run Unit) (sp : Sparsity)
    (hrun : r = run E p (CodeGenerator.init E pre inc mex cpp_guards main real_t))
    (hreg : registeredAs r.log sp.get = some sp) :
    ∃ i : Nat,
      sparsity E r.st sp = ⟨.ok ("s" ++ toString i), r.st⟩ ∧
      (∃ a b, generate E r.st = a ++ "\n"
        ++ ("int " ++ ("s" ++ toString i) ++ "[] = \x7b"
          ++ ", ".intercalate (sp.compress.map (fun x : Int => toString x)) ++ "\x7d;")
        ++ "\n" ++ b) ∧
      (∃ a b, generate E r.st = a
        ++ String.join ((integerDeclarations 0 r.st.integer_constants_).map
            (fun d => printVectorInt d.1 d.2))
        ++ String.join ((doubleDeclarations 0 r.st.double_constants_).map
            (fun d => printVectorDouble E d.1 d.2))
        ++ b) ∧
      ("s" ++ toString i, sp.compress) ∈ integerDeclarations 0 r.st.integer_constants_ ∧
      (declaredNames r.st).Nodup ∧
      (declaredNames r.st).count ("s" ++ toString i) = 1 := by
  subst hrun
  have hr : Reachable E (run E p (CodeGenerator.init E pre inc mex cpp_guards main real_t)).st :=
    ⟨pre, inc, mex, cpp_guards, main, real_t, p, rfl⟩
  have hinv := run_sparsityTables E p _ []
    (init_sparsityTables E pre inc mex cpp_guards main real_t)
  simp only [List.nil_append] at hinv
  obtain ⟨i, hfind, hpool⟩ := (hinv sp.get).2 sp hreg
  have hmem := integerDeclarations_mem 0 _ i _ hpool
  simp only [Nat.zero_add] at hmem
  have hnd := declaredNames_nodup
    (run E p (CodeGenerator.init E pre inc mex cpp_guards main real_t)).st
  refine ⟨i, ?_, generate_line E _ hr i _ hpool, ?_, hmem, hnd, ?_⟩
  · simp only [sparsity, addSparsity_old E _ sp i hfind, Except.map]
    rw [numToString_pos _ (by omega)]
    rfl
  · obtain ⟨u, back, hg⟩ := generate_sections E
      (run E p (CodeGenerator.init E pre inc mex cpp_guards main real_t)).st
    refine ⟨u ++ "\n"
      ++ (run E p (CodeGenerator.init E pre inc mex cpp_guards main real_t)).st.auxiliaries_,
      back, ?_⟩
    rw [hg, printIntegerConstants_declarations, printDoubleConstants_declarations]
  · refine List.count_eq_one_of_mem hnd ?_
    unfold declaredNames
    exact List.mem_append_left _ (List.mem_map.2 ⟨_, hmem, rfl⟩)

/-- C22, at the pattern of the sample client, the third table of the sample session. -/
theorem sparsity_declared_witness :
    registeredAs (run sampleEnv sampleProg
      (CodeGenerator.init sampleEnv "" "" false true false "double")).log
        (Sparsity.mk 7 [2, 2, 0, 1, 2, 0, 1] 2).get = some ⟨7, [2, 2, 0, 1, 2, 0, 1], 2⟩ ∧
    ∃ i : Nat,
      sparsity sampleEnv sampleSession ⟨7, [2, 2, 0, 1, 2, 0, 1], 2⟩
        = ⟨.ok ("s" ++ toString i), sampleSession⟩ ∧
      ∃ a b, generate sampleEnv sampleSession
        = a ++ "\n" ++ ("int " ++ ("s" ++ toString i) ++ "[] = \x7b"
          ++ ", ".intercalate
            ((Sparsity.mk 7 [2, 2, 0, 1, 2, 0, 1] 2).compress.map (fun x : Int => toString x))
          ++ "\x7d;") ++ "\n" ++ b :=
  ⟨by decide,
    match sparsity_declared sampleEnv "" "" false true false "double" sampleProg
      (run sampleEnv sampleProg (CodeGenerator.init sampleEnv "" "" false true false "double"))
      ⟨7, [2, 2, 0, 1, 2, 0, 1], 2⟩ rfl (by decide) with
    | ⟨i, h1, h2, _⟩ => ⟨i, h1, h2⟩⟩

end casadi
